import Mathlib

/-!
# dark::dynamic_bitset — a shallow embedding of `src/container/bitset.h`

Conventions of the embedding.

* `_Word_t` is `std::size_t`; the target is a 64-bit little-endian machine
  (`__WBits = 64`, `sizeof(_Word_t) = 8`, see the `static_assert` on endianness).
  Words and `std::size_t` values are natural numbers; every operation that can
  leave the range `[0, 2^64)` is followed by `wrap`.
* A block of memory obtained from the allocator is a `List Nat` of words.  A read
  or a write outside the block is undefined behaviour and makes the operation
  return `none`.  The content of a block returned by `allocator::allocate` is
  unspecified: it is supplied by a parameter `g : Nat → Nat` (word `i` of the new
  block is `g i` truncated to 64 bits), over which the theorems quantify.
* Allocation never fails and `deallocate` has no observable effect.
* `std::memmove` and `std::memset` act on the little-endian byte image of a block.
-/

namespace dark

/-! ## Words and `std::size_t` arithmetic -/

/-- Number of bits of a word, `__WBits = sizeof(_Word_t) * CHAR_BIT`. -/
abbrev WBits : Nat := 64

/-- Conversion of a mathematical integer to `std::size_t` (reduction modulo `2^64`). -/
def wrap (n : Nat) : Nat := n % 2 ^ 64

/-- Subtraction of `std::size_t` values, wrapping around below zero. -/
def usub (a b : Nat) : Nat := (a % 2 ^ 64 + 2 ^ 64 - b % 2 ^ 64) % 2 ^ 64

/-- The complement `~w` of a word. -/
def bit_not (w : Nat) : Nat := 2 ^ 64 - 1 - w % 2 ^ 64

/-- Set `__n`-th bit to 1: `_Word_t{1} << __n`. -/
def mask_pos (n : Nat) : Nat := wrap (1 <<< n)

/-- Set first n low bits to 1, others to 0: `(_Word_t{1} << __n) - 1`. -/
def mask_low (n : Nat) : Nat := usub (wrap (1 <<< n)) 1

/-- Set first n low bits to 0, others to 1: `(~_Word_t{0}) << __n`. -/
def mask_top (n : Nat) : Nat := wrap (bit_not 0 <<< n)

/-- Quotient and remainder of `__n` by `__WBits`. -/
def div_mod (n : Nat) : Nat × Nat := (n / WBits, n % WBits)

/-- Ceiling of `__n / 64`: `(__n + __WBits - 1) / __WBits`. -/
def div_ceil (n : Nat) : Nat := wrap (n + WBits - 1) / WBits

/-- Index of the last available word: `(__n - 1) / __WBits`. -/
def div_down (n : Nat) : Nat := usub n 1 / WBits

/-- The value `64 - __n` for `__n < 64`: `((__WBits - 1) ^ __n) + 1`. -/
def rev_bits (n : Nat) : Nat := wrap (((WBits - 1) ^^^ n) + 1)

/-- The library function `std::popcount` on a word: the number of its one bits. -/
def popcount (w : Nat) : Nat := (List.range 64).countP (fun j => w.testBit j)

/-- The expression `__x << c` of `push_back`: the `bool` is promoted to a 32-bit
`int`, shifted, and converted to `_Word_t` by the compound assignment.  A count of
32 or more is undefined; a count of 31 gives `INT_MIN`, whose conversion to
`_Word_t` sets bits 31 to 63. -/
def bool_shl (x : Bool) (c : Nat) : Option Nat :=
  if c < 31 then some (x.toNat <<< c)
  else if c = 31 then some (if x then 2 ^ 64 - 2 ^ 31 else 0)
  else none

/-! ## Memory blocks -/

/-- Read of word `i` of a block. -/
def load (m : List Nat) (i : Nat) : Option Nat := m[i]?

/-- Write of word `i` of a block. -/
def store (m : List Nat) (i v : Nat) : Option (List Nat) :=
  if i < m.length then some (m.set i v) else none

/-- Uninitialised block of `n` words (`alloc_none`), with content taken from `g`. -/
def alloc_none (g : Nat → Nat) (n : Nat) : List Nat :=
  (List.range n).map (fun i => wrap (g i))

/-- Little-endian byte image of a block of words. -/
def toBytes (m : List Nat) : List Nat :=
  (List.range (8 * m.length)).map (fun j => (m.getD (j / 8) 0 >>> (8 * (j % 8))) % 256)

/-- Word `i` of the block whose byte image is `b`. -/
def bytes_word (b : List Nat) (i : Nat) : Nat :=
  b.getD (8 * i) 0 ||| b.getD (8 * i + 1) 0 <<< 8 ||| b.getD (8 * i + 2) 0 <<< 16
    ||| b.getD (8 * i + 3) 0 <<< 24 ||| b.getD (8 * i + 4) 0 <<< 32
    ||| b.getD (8 * i + 5) 0 <<< 40 ||| b.getD (8 * i + 6) 0 <<< 48
    ||| b.getD (8 * i + 7) 0 <<< 56

/-- Block of words whose little-endian byte image is `b`. -/
def ofBytes (b : List Nat) : List Nat :=
  (List.range (b.length / 8)).map (bytes_word b)

/-- The call `std::memmove(dst + doff, src + soff, cnt)` on byte images; the result
is the new byte image of the destination block. -/
def memmove (dst : List Nat) (doff : Nat) (src : List Nat) (soff cnt : Nat) :
    Option (List Nat) :=
  if doff + cnt ≤ dst.length ∧ soff + cnt ≤ src.length then
    some (dst.take doff ++ (src.drop soff).take cnt ++ dst.drop (doff + cnt))
  else none

/-- The call `std::memset(dst, v, cnt)` on a byte image. -/
def memset (dst : List Nat) (v cnt : Nat) : Option (List Nat) :=
  if cnt ≤ dst.length then some (List.replicate cnt (v % 256) ++ dst.drop cnt) else none

/-- The argument `-__x` of `std::memset` for a `bool` `__x`, as the byte that
`memset` writes: `0xFF` for `true` and `0` for `false`. -/
def neg_byte (x : Bool) : Nat := if x then 255 else 0

/-- The call `std::memset(dst, v, n * sizeof(_Word_t))` on a block of words. -/
def memset_words (dst : List Nat) (v n : Nat) : Option (List Nat) :=
  (memset (toBytes dst) v (wrap (n * 8))).map ofBytes

/-- Copy `__n` words from `__src` to `__dst`. -/
def word_copy (dst src : List Nat) (n : Nat) : Option (List Nat) :=
  if n ≤ dst.length ∧ n ≤ src.length then some (src.take n ++ dst.drop n) else none

/-- Make the last word valid. -/
def validate (dst : List Nat) (n : Nat) : Option (List Nat) :=
  let (div, mod) := div_mod n
  if mod ≠ 0 then do
    let w ← load dst div
    store dst div (w &&& mask_low mod)
  else some dst

/-! ## `dynamic_storage` -/

/-- Custom bit vector: the block `head`, its size in words `buffer`, and the
length in bits `length`.  A null `head` is the empty block. -/
structure dynamic_storage where
  head : List Nat
  buffer : Nat
  length : Nat
  deriving DecidableEq, Repr

namespace dynamic_storage

/-- The default constructor, which calls `reset()`. -/
def init : dynamic_storage := ⟨[], 0, 0⟩

/-- The constructor `dynamic_storage(std::size_t __n)`. -/
def mk_none (g : Nat → Nat) (n : Nat) : dynamic_storage := ⟨alloc_none g n, n, n⟩

/-- Return the real word in the bitmap. -/
def word_count (s : dynamic_storage) : Nat := div_ceil s.length

/-- Return the capacity of the storage. -/
def capacity (s : dynamic_storage) : Nat := s.buffer

/-- The copy constructor. -/
def copy (g : Nat → Nat) (rhs : dynamic_storage) : Option dynamic_storage := do
  let s := mk_none g rhs.length
  let h ← word_copy s.head rhs.head rhs.word_count
  some { s with head := h }

/-- Copy assignment `this = rhs` for two distinct objects. -/
def copy_assign (g : Nat → Nat) (s rhs : dynamic_storage) : Option dynamic_storage := do
  let s := if s.capacity < rhs.word_count
    then (⟨alloc_none g rhs.length, rhs.length, rhs.length⟩ : dynamic_storage) else s
  let h ← word_copy s.head rhs.head rhs.word_count
  some { s with head := h }

/-- Grow the size by one, and fill with given value in the back.  The field
`length` has already been incremented by the caller. -/
def grow_full (g : Nat → Nat) (s : dynamic_storage) (val : Bool) : Option dynamic_storage := do
  let size := s.length / WBits
  let capa := s.capacity
  let s ← if size = capa then do
      let n := wrap (capa <<< 1) ||| (if capa = 0 then 1 else 0)
      let h ← word_copy (alloc_none g n) s.head capa
      some ({ s with head := h, buffer := n } : dynamic_storage)
    else some s
  let h ← store s.head size val.toNat
  some { s with head := h }

/-- Pop one element. -/
def pop_back (s : dynamic_storage) : Option dynamic_storage := do
  let n := usub s.length 1
  let h ← validate s.head n
  some { s with head := h, length := n }

/-- Clear to empty. -/
def clear (s : dynamic_storage) : dynamic_storage := { s with length := 0 }

end dynamic_storage

/-! ## Bitwise combination of two ranges -/

/-- The loop `for (i = 0; i != n; ++i) dst[i] = f(dst[i], rhs[i])`, entered with
`n - i` iterations left. -/
def word_loop (f : Nat → Nat → Nat) (rhs : List Nat) :
    Nat → Nat → List Nat → Option (List Nat)
  | 0, _, dst => some dst
  | k + 1, i, dst => do
    let d ← load dst i
    let r ← load rhs i
    let dst ← store dst i (f d r)
    word_loop f rhs k (i + 1) dst

/-- The function `do_and(__dst, __rhs, __n)`. -/
def do_and (dst rhs : List Nat) (n : Nat) : Option (List Nat) := do
  let (div, mod) := div_mod n
  let dst ← word_loop (fun d r => d &&& r) rhs div 0 dst
  if mod ≠ 0 then do
    let d ← load dst div
    let r ← load rhs div
    store dst div (d &&& (r ||| mask_top mod))
  else some dst

/-- The function `do_or_(__dst, __rhs, __n)`. -/
def do_or_ (dst rhs : List Nat) (n : Nat) : Option (List Nat) := do
  let (div, mod) := div_mod n
  let dst ← word_loop (fun d r => d ||| r) rhs div 0 dst
  if mod ≠ 0 then do
    let d ← load dst div
    let r ← load rhs div
    store dst div (d ||| (r &&& mask_low mod))
  else some dst

/-- The function `do_xor(__dst, __rhs, __n)`. -/
def do_xor (dst rhs : List Nat) (n : Nat) : Option (List Nat) := do
  let (div, mod) := div_mod n
  let dst ← word_loop (fun d r => d ^^^ r) rhs div 0 dst
  if mod ≠ 0 then do
    let d ← load dst div
    let r ← load rhs div
    store dst div (d ^^^ (r &&& mask_low mod))
  else some dst

/-! ## Shifts -/

/-- 2-pointer small struct: the destination block, and the source block, which is
`none` when the pointer `src` equals the pointer `dst`. -/
structure vec2 where
  dst : List Nat
  src : Option (List Nat)

/-- The block that `src` points to once the destination block has content `dst`. -/
def vec2.source (v : vec2) (dst : List Nat) : List Nat :=
  match v.src with
  | none => dst
  | some s => s

/-- The function `byte_lshift(__vec, __n, __count)`. -/
def byte_lshift (v : vec2) (n count : Nat) : Option (List Nat) :=
  if count = 0 then some v.dst else do
    let size := 8
    let tail := wrap (n + size - 1) / size
    let raw := toBytes v.dst
    let raw ← memmove raw count (toBytes (v.source v.dst)) 0 (usub tail count)
    let raw ← memset raw 0 count
    some (ofBytes raw)

/-- The function `byte_rshift(__vec, __n, __count)`. -/
def byte_rshift (v : vec2) (n count : Nat) : Option (List Nat) :=
  if count = 0 then some v.dst else do
    let size := 8
    let tail := wrap (n + size - 1) / size
    let raw ← memmove (toBytes v.dst) 0 (toBytes (v.source v.dst)) count tail
    some (ofBytes raw)

/-- The loop of `do_lshift`, `for (i = __len; i != __div; --i)`, entered at `i`
with `k` iterations left; it returns `__pre` and the destination block. -/
def do_lshift_loop (v : vec2) (div mod rev : Nat) :
    Nat → Nat → Nat → List Nat → Option (Nat × List Nat)
  | 0, _, pre, dst => some (pre, dst)
  | k + 1, i, pre, dst => do
    let cur ← load (v.source dst) (usub (usub i 1) div)
    let dst ← store dst i (wrap (pre <<< mod) ||| cur >>> rev)
    do_lshift_loop v div mod rev k (usub i 1) cur dst

/-- Perform left shift operation without validation. -/
def do_lshift (v : vec2) (n shift : Nat) : Option (List Nat) :=
  if shift % 8 = 0 then byte_lshift v n (shift / 8) else do
    let (div, mod) := div_mod shift
    let rev := rev_bits mod
    let len := div_down n
    let pre ← load (v.source v.dst) (usub len div)
    let (pre, dst) ← do_lshift_loop v div mod rev (usub len div) len pre v.dst
    let dst ← store dst div (wrap (pre <<< mod))
    memset_words dst 0 div

/-- The loop of `do_rshift`, `for (i = 0; i != __len; ++i)`, entered at `i` with
`k` iterations left; it returns `__pre` and the destination block. -/
def do_rshift_loop (v : vec2) (div mod rev : Nat) :
    Nat → Nat → Nat → List Nat → Option (Nat × List Nat)
  | 0, _, pre, dst => some (pre, dst)
  | k + 1, i, pre, dst => do
    let cur ← load (v.source dst) (wrap (i + 1 + div))
    let dst ← store dst i (pre >>> mod ||| wrap (cur <<< rev))
    do_rshift_loop v div mod rev k (wrap (i + 1)) cur dst

/-- Perform right shift operation without validation. -/
def do_rshift (v : vec2) (n shift : Nat) : Option (List Nat) :=
  if shift % 8 = 0 then byte_rshift v n (shift / 8) else do
    let (div, mod) := div_mod shift
    let rev := wrap ((mod ^^^ (WBits - 1)) + 1)
    let len := usub (div_down (wrap (n + shift))) div
    let pre ← load (v.source v.dst) div
    let (pre, dst) ← do_rshift_loop v div mod rev len 0 pre v.dst
    store dst len (pre >>> mod)

/-! ## `dynamic_bitset` -/

/-- The class `dynamic_bitset` derives privately from `dynamic_storage` and adds
no field. -/
abbrev dynamic_bitset := dynamic_storage

namespace dynamic_bitset

/-- The default constructor. -/
def init : dynamic_bitset := dynamic_storage.init

/-- The member `size()`. -/
def size (s : dynamic_bitset) : Nat := s.length

/-- The member `test(__n)`: `(data(__div) >> __mod) & 1`. -/
def test (s : dynamic_bitset) (n : Nat) : Option Bool := do
  let (div, mod) := div_mod n
  let w ← load s.head div
  some ((w >>> mod) &&& 1 != 0)

/-- The member `assign(__n, __x)`. -/
def assign (g : Nat → Nat) (s : dynamic_bitset) (n : Nat) (x : Bool) :
    Option dynamic_bitset := do
  let s : dynamic_bitset := { s with length := n }
  let size := s.word_count
  let capa := s.capacity
  let s : dynamic_bitset := if capa < size
    then { s with head := alloc_none g (wrap (size + capa)), buffer := wrap (size + capa) }
    else s
  let data ← memset_words s.head (neg_byte x) size
  let data ← if x then validate data s.length else some data
  some { s with head := data }

/-- The constructor `dynamic_bitset(std::size_t __n, bool __x)`. -/
def mk_fill (g : Nat → Nat) (n : Nat) (x : Bool) : Option dynamic_bitset := do
  let s := dynamic_storage.mk_none g n
  let data ← memset_words s.head (neg_byte x) s.word_count
  let data ← if x then validate data s.length else some data
  some { s with head := data }

/-- The member `operator |=`. -/
def or_assign (s rhs : dynamic_bitset) : Option dynamic_bitset := do
  let min := if s.length < rhs.length then s.length else rhs.length
  let h ← do_or_ s.head rhs.head min
  some { s with head := h }

/-- The member `operator &=`. -/
def and_assign (s rhs : dynamic_bitset) : Option dynamic_bitset := do
  let min := if s.length < rhs.length then s.length else rhs.length
  let h ← do_and s.head rhs.head min
  some { s with head := h }

/-- The member `operator ^=`. -/
def xor_assign (s rhs : dynamic_bitset) : Option dynamic_bitset := do
  let min := if s.length < rhs.length then s.length else rhs.length
  let h ← do_xor s.head rhs.head min
  some { s with head := h }

/-- The member `operator <<=`. -/
def shl_assign (g : Nat → Nat) (s : dynamic_bitset) (n : Nat) : Option dynamic_bitset :=
  if s.length = 0 then assign g s n false else do
    let s : dynamic_bitset := { s with length := wrap (s.length + n) }
    let size := s.word_count
    let capa := s.capacity
    let head := s.head
    let grown := decide (capa < size)
    let s : dynamic_bitset := if grown
      then { s with head := alloc_none g (wrap (size + capa)), buffer := wrap (size + capa) }
      else s
    let data ← do_lshift ⟨s.head, if grown then some head else none⟩ s.length n
    let data ← validate data s.length
    some { s with head := data }

/-- The member `operator >>=`. -/
def shr_assign (s : dynamic_bitset) (n : Nat) : Option dynamic_bitset :=
  if n < s.length then do
    let s : dynamic_bitset := { s with length := usub s.length n }
    let data ← do_rshift ⟨s.head, none⟩ s.length n
    let data ← validate data s.length
    some { s with head := data }
  else some s.clear

/-- The loop of `all()`, with `k` iterations left at index `i`: `false` as soon as
a word has a zero bit. -/
def all_loop (head : List Nat) : Nat → Nat → Option Bool
  | 0, _ => some true
  | k + 1, i => do
    let w ← load head i
    if bit_not w ≠ 0 then some false else all_loop head k (i + 1)

/-- Return whether all bits are set to 1. -/
def all (s : dynamic_bitset) : Option Bool := do
  let (div, mod) := div_mod s.length
  let full ← all_loop s.head div 0
  if full then do
    let w ← load s.head div
    some (w == mask_low mod)
  else some false

/-- The loop of `count()`, with `k` iterations left at index `i`. -/
def count_loop (head : List Nat) : Nat → Nat → Nat → Option Nat
  | 0, _, cnt => some cnt
  | k + 1, i, cnt => do
    let w ← load head i
    count_loop head k (i + 1) (wrap (cnt + popcount w))

/-- Return the number of bits set to 1. -/
def count (s : dynamic_bitset) : Option Nat :=
  count_loop s.head s.word_count 0 0

/-- The member `push_back(__x)`. -/
def push_back (g : Nat → Nat) (s : dynamic_bitset) (x : Bool) : Option dynamic_bitset := do
  let mod := s.length % WBits
  let s : dynamic_bitset := { s with length := wrap (s.length + 1) }
  if mod ≠ 0 then do
    let v ← bool_shl x (usub (s.length % WBits) 1)
    let w ← load s.head (div_down s.length)
    let h ← store s.head (div_down s.length) (w ||| v)
    some { s with head := h }
  else s.grow_full g x

/-- The member `pop_back()`. -/
def pop_back (s : dynamic_bitset) : Option dynamic_bitset := dynamic_storage.pop_back s

/-- The member `clear()`. -/
def clear (s : dynamic_bitset) : dynamic_bitset := dynamic_storage.clear s

/-- Successive calls of `push_back` with the given values. -/
def push_all (g : Nat → Nat) (s : dynamic_bitset) : List Bool → Option dynamic_bitset
  | [] => some s
  | x :: xs => do
    let s ← push_back g s x
    push_all g s xs

end dynamic_bitset

/-! ## References, bound-checked access and the remaining members -/

/-- Modelled from the spec: `allocate_zeroed(n)`, the block of `n` words with all
bits zero that `alloc_zero` obtains from `allocator<_Word_t>::calloc`, a function
that the allocator of `src/container/allocator.h` does not define. -/
def alloc_zero (n : Nat) : List Nat := List.replicate n 0

/-- Custom bit manipulator: the index `ptr` of the word inside the block of the
bitset, and the mask `msk` of the bit. -/
structure reference where
  ptr : Nat
  msk : Nat
  deriving DecidableEq, Repr

namespace reference

/-- The constructor `reference(__ptr, __pos)`. -/
def make (ptr pos : Nat) : reference := ⟨ptr, mask_pos pos⟩

/-- Convert to bool: `*ptr & msk`. -/
def to_bool (r : reference) (head : List Nat) : Option Bool := do
  let w ← load head r.ptr
  some (w &&& r.msk != 0)

/-- Set current bit to 1: `*ptr |= msk`. -/
def set (r : reference) (head : List Nat) : Option (List Nat) := do
  let w ← load head r.ptr
  store head r.ptr (w ||| r.msk)

/-- Set current bit to 0: `*ptr &= ~msk`. -/
def reset (r : reference) (head : List Nat) : Option (List Nat) := do
  let w ← load head r.ptr
  store head r.ptr (w &&& bit_not r.msk)

/-- Flip current bit: `*ptr ^= msk`. -/
def flip (r : reference) (head : List Nat) : Option (List Nat) := do
  let w ← load head r.ptr
  store head r.ptr (w ^^^ r.msk)

end reference

namespace dynamic_storage

/-- The constructor `dynamic_storage(std::size_t __n, std::nullptr_t)`. -/
def mk_zero (n : Nat) : dynamic_storage := ⟨alloc_zero n, n, wrap (div_ceil n * WBits)⟩

/-- Reset the storage: `head = nullptr; buffer = 0; length = 0`. -/
def reset (_s : dynamic_storage) : dynamic_storage := ⟨[], 0, 0⟩

/-- The move constructor: the new object, and `rhs` after the move. -/
def move (rhs : dynamic_storage) : dynamic_storage × dynamic_storage := (rhs, rhs.reset)

/-- The member `swap(rhs)`: the object and `rhs` after the exchange of the three
fields. -/
def swap (s rhs : dynamic_storage) : dynamic_storage × dynamic_storage := (rhs, s)

/-- Move assignment, `return this->swap(rhs)`: the object and `rhs` afterwards. -/
def move_assign (s rhs : dynamic_storage) : dynamic_storage × dynamic_storage := s.swap rhs

end dynamic_storage

/-- The exception `std::out_of_range` thrown by `range_check`. -/
inductive error where
  | out_of_range
  deriving DecidableEq, Repr

namespace dynamic_bitset

/-- The constructor `dynamic_bitset(std::size_t __n)`. -/
def mk_zero (n : Nat) : dynamic_bitset := dynamic_storage.mk_zero n

/-- The member `operator [] (__n)`: `reference(data() + __div, __mod)`. -/
def index (_s : dynamic_bitset) (n : Nat) : reference :=
  let (div, mod) := div_mod n
  reference.make div mod

/-- The member `range_check(__n)`. -/
def range_check (s : dynamic_bitset) (n : Nat) : Except error Unit :=
  if n ≥ s.length then Except.error error.out_of_range else Except.ok ()

/-- The member `bool at(__n) const`: `range_check(__n); return test(__n)`.  The
result is `none` when the read of `test` is undefined. -/
def at_const (s : dynamic_bitset) (n : Nat) : Option (Except error Bool) :=
  match range_check s n with
  | Except.error e => some (Except.error e)
  | Except.ok _ => (test s n).map Except.ok

/-- The member `reference at(__n)`: `range_check(__n); return (*this)[__n]`. -/
def at_ref (s : dynamic_bitset) (n : Nat) : Except error reference :=
  match range_check s n with
  | Except.error e => Except.error e
  | Except.ok _ => Except.ok (index s n)

/-- The member `set(__n)`: `(*this)[__n].set()`. -/
def set (s : dynamic_bitset) (n : Nat) : Option dynamic_bitset := do
  let h ← (index s n).set s.head
  some { s with head := h }

/-- The member `reset(__n)`: `(*this)[__n].reset()`. -/
def reset (s : dynamic_bitset) (n : Nat) : Option dynamic_bitset := do
  let h ← (index s n).reset s.head
  some { s with head := h }

/-- The member `flip(__n)`: `(*this)[__n].flip()`. -/
def flip (s : dynamic_bitset) (n : Nat) : Option dynamic_bitset := do
  let h ← (index s n).flip s.head
  some { s with head := h }

/-- The member `set()`: every byte of the first `word_count()` words becomes
`0xFF` (the value `-1` given to `std::memset`), then the last word is validated. -/
def set_all (s : dynamic_bitset) : Option dynamic_bitset := do
  let size := s.word_count
  let data ← memset_words s.head 255 size
  let data ← validate data s.length
  some { s with head := data }

end dynamic_bitset

namespace reference

/-- Assign value to current bit: `val ? set() : reset(); return val`. -/
def assign (r : reference) (val : Bool) (head : List Nat) : Option (List Nat × Bool) := do
  let h ← if val then r.set head else r.reset head
  some (h, val)

/-- Assign value to current bit from the reference `rhs`, which points into the
block `src`: `return *this = bool(rhs)`. -/
def assign_ref (r rhs : reference) (src head : List Nat) : Option (List Nat × Bool) := do
  let b ← rhs.to_bool src
  r.assign b head

end reference

namespace dynamic_bitset

/-- The loop of `none()`, with `k` iterations left at index `i`: `false` as soon
as a word is not 0. -/
def none_loop (head : List Nat) : Nat → Nat → Option Bool
  | 0, _ => some true
  | k + 1, i => do
    let w ← load head i
    if w ≠ 0 then some false else none_loop head k (i + 1)

/-- Return whether all bits are set to 0: the member `none()`. -/
def none_ (s : dynamic_bitset) : Option Bool :=
  none_loop s.head s.word_count 0

/-- Return whether there is any bit set to 1: `!this->none()`. -/
def any (s : dynamic_bitset) : Option Bool := do
  let b ← none_ s
  some (!b)

end dynamic_bitset

/-! ## The same members on a machine that executes the undefined operations

The out-of-block read of `do_lshift` and the over-wide shift of `push_back` are
undefined in C++; a machine executes them and obtains some word.  The definitions
below are the members `operator <<=` and `push_back` with that word as a
parameter, so that a statement proved for every value of the parameter holds
whatever the machine obtains. -/

namespace dynamic_bitset

/-- The member `operator <<=` on a machine where the word just past the end of the
old block can be read and holds `w`: as `shl_assign`, with the old block followed
by that word as the source of `do_lshift` after a reallocation. -/
def shl_assign_machine (w : Nat) (g : Nat → Nat) (s : dynamic_bitset) (n : Nat) :
    Option dynamic_bitset :=
  if s.length = 0 then assign g s n false else do
    let s : dynamic_bitset := { s with length := wrap (s.length + n) }
    let size := s.word_count
    let capa := s.capacity
    let head := s.head
    let grown := decide (capa < size)
    let s : dynamic_bitset := if grown
      then { s with head := alloc_none g (wrap (size + capa)), buffer := wrap (size + capa) }
      else s
    let data ← do_lshift ⟨s.head, if grown then some (head ++ [wrap w]) else none⟩ s.length n
    let data ← validate data s.length
    some { s with head := data }

/-- The value of `__x << c` as a word on a machine that executes the shift
whatever the count: the value of `bool_shl` where the shift is defined, and
otherwise the word `junk` that the machine obtains. -/
def bool_shl_machine (junk : Nat) (x : Bool) (c : Nat) : Nat :=
  match bool_shl x c with
  | some v => v
  | none => wrap junk

/-- The member `push_back(__x)` on such a machine: as `push_back`, with the value
of the shift taken from `bool_shl_machine`. -/
def push_back_machine (junk : Nat) (g : Nat → Nat) (s : dynamic_bitset) (x : Bool) :
    Option dynamic_bitset := do
  let mod := s.length % WBits
  let s : dynamic_bitset := { s with length := wrap (s.length + 1) }
  if mod ≠ 0 then do
    let v := bool_shl_machine junk x (usub (s.length % WBits) 1)
    let w ← load s.head (div_down s.length)
    let h ← store s.head (div_down s.length) (w ||| v)
    some { s with head := h }
  else s.grow_full g x

/-- Successive calls of `push_back` on such a machine, with the number of calls of
`realloc` made on the way: a call reallocates exactly when it takes the branch
`grow_full` (`__mod == 0`) and `grow_full` finds `__size == __capa`.  The word
obtained by an undefined shift in the call at size `n` is `junk n`. -/
def push_all_machine (junk : Nat → Nat) (g : Nat → Nat) :
    dynamic_bitset → Nat → List Bool → Option (dynamic_bitset × Nat)
  | s, cnt, [] => some (s, cnt)
  | s, cnt, x :: xs => do
    let t ← push_back_machine (junk s.length) g s x
    let r := if s.length % WBits = 0 ∧ wrap (s.length + 1) / WBits = s.capacity then 1 else 0
    push_all_machine junk g t (cnt + r) xs

end dynamic_bitset

/-! ## Predicates used by the specification -/

/-- Bit `i` of a block of words: bit `i % 64` of word `i / 64`. -/
def bitAt (m : List Nat) (i : Nat) : Bool := (m.getD (i / 64) 0).testBit (i % 64)

/-- Representation invariant of a storage: `buffer` is the size of the block
`head`, the block holds `length` bits (`capacity() >= word_count()`), it fits in
the address space, and every word is a 64-bit value. -/
def dynamic_storage.wf (s : dynamic_storage) : Prop :=
  s.head.length = s.buffer ∧ s.length ≤ 64 * s.buffer ∧ s.buffer < 2 ^ 58 ∧
    ∀ w ∈ s.head, w < 2 ^ 64

instance (s : dynamic_storage) : Decidable s.wf := by
  unfold dynamic_storage.wf; infer_instance

/-- Validation invariant: if `size() % W != 0` then every bit at a position
`>= size() % W` of word `size() / W` is 0. -/
def dynamic_storage.validated (s : dynamic_storage) : Prop :=
  s.length % 64 ≠ 0 →
    ∀ j, j < 64 → s.length % 64 ≤ j → (s.head.getD (s.length / 64) 0).testBit j = false

instance (s : dynamic_storage) : Decidable s.validated := by
  unfold dynamic_storage.validated; infer_instance

/-- Number of one bits among the first `n` bits of a block. -/
def ones (m : List Nat) (n : Nat) : Nat := (List.range n).countP (fun p => bitAt m p)

/-- Bit `p` of a byte image: bit `p % 8` of byte `p / 8`. -/
def byteBit (b : List Nat) (p : Nat) : Bool := (b.getD (p / 8) 0).testBit (p % 8)

/-- The source block of `v` has content `S` while the destination block has
content `d`, as far as the words below index `i` are concerned: either the source
is a separate block `S`, or it is the destination block itself, which agrees with
`S` below `i`. -/
def agree (v : vec2) (S d : List Nat) (i : Nat) : Prop :=
  v.src = some S ∨ (v.src = none ∧ d.length = S.length ∧ ∀ j, j < i → d.getD j 0 = S.getD j 0)

open dynamic_bitset

theorem wrap_of_lt {n : Nat} (h : n < 2 ^ 64) : wrap n = n := Nat.mod_eq_of_lt h

theorem usub_of_le {a b : Nat} (hb : b ≤ a) (ha : a < 2 ^ 64) : usub a b = a - b := by
  unfold usub
  have hb' : b < 2 ^ 64 := by omega
  rw [Nat.mod_eq_of_lt ha, Nat.mod_eq_of_lt hb']
  omega

theorem mask_low_eq {n : Nat} (h : n < 64) : mask_low n = 2 ^ n - 1 := by
  have h1 : 2 ^ n < 2 ^ 64 := Nat.pow_lt_pow_right (by decide) h
  have h2 : 0 < 2 ^ n := Nat.pos_pow_of_pos _ (by decide)
  unfold mask_low
  rw [Nat.shiftLeft_eq, Nat.one_mul, wrap_of_lt h1, usub_of_le (by omega) h1]

theorem testBit_mask_low {n : Nat} (h : n < 64) (j : Nat) :
    (mask_low n).testBit j = decide (j < n) := by
  rw [mask_low_eq h, Nat.testBit_two_pow_sub_one]

theorem testBit_mask_top {n : Nat} (j : Nat) :
    (mask_top n).testBit j = (decide (j < 64) && decide (n ≤ j)) := by
  unfold mask_top wrap bit_not
  rw [Nat.testBit_mod_two_pow, Nat.testBit_shiftLeft]
  simp only [Nat.zero_mod, Nat.sub_zero, Nat.testBit_two_pow_sub_one]
  by_cases h1 : j < 64 <;> by_cases h2 : n ≤ j <;> simp [h1, h2]
  omega

theorem load_eq_some {m : List Nat} {i : Nat} (h : i < m.length) :
    load m i = some (m.getD i 0) := by
  unfold load
  rw [List.getD_eq_getElem?_getD, List.getElem?_eq_getElem h]; rfl

theorem store_eq_some {m : List Nat} {i : Nat} (v : Nat) (h : i < m.length) :
    store m i v = some (m.set i v) := by
  unfold store; rw [if_pos h]

theorem getD_set (m : List Nat) (i j v : Nat) :
    (m.set i v).getD j 0 = if i = j ∧ i < m.length then v else m.getD j 0 := by
  simp only [List.getD_eq_getElem?_getD, List.getElem?_set]
  by_cases h : i = j
  · subst h
    by_cases h2 : i < m.length
    · simp [h2]
    · simp [h2, List.getElem?_eq_none (Nat.le_of_not_lt h2)]
  · simp [h]

theorem test_eq (s : dynamic_bitset) (i : Nat) (h : i / 64 < s.head.length) :
    test s i = some (bitAt s.head i) := by
  unfold test div_mod bitAt
  simp only [WBits, load_eq_some h, Option.bind_eq_bind, Option.some_bind, Nat.testBit,
    Nat.and_comm]

/-! ## `count()` -/

theorem bitAt_add (m : List Nat) (i j : Nat) (hj : j < 64) :
    bitAt m (64 * i + j) = (m.getD i 0).testBit j := by
  unfold bitAt
  have h1 : (64 * i + j) / 64 = i := by omega
  have h2 : (64 * i + j) % 64 = j := by omega
  rw [h1, h2]

theorem ones_succ_word (m : List Nat) (i : Nat) :
    ones m (64 * (i + 1)) = ones m (64 * i) + popcount (m.getD i 0) := by
  unfold ones popcount
  rw [Nat.mul_add, Nat.mul_one, List.range_add, List.countP_append, List.countP_map]
  congr 1
  apply List.countP_congr
  intro j hj
  simp only [List.mem_range] at hj
  simp [bitAt_add m i j hj]

theorem ones_le (m : List Nat) (n : Nat) : ones m n ≤ n := by
  unfold ones
  exact (List.countP_le_length _).trans (by simp)

theorem count_loop_eq (m : List Nat) :
    ∀ (k i : Nat), i + k ≤ m.length → 64 * (i + k) < 2 ^ 64 →
      count_loop m k i (ones m (64 * i)) = some (ones m (64 * (i + k)))
  | 0, i, _, _ => by simp [count_loop]
  | k + 1, i, h1, h2 => by
    have hi : i < m.length := by omega
    have hlt : ones m (64 * i) + popcount (m.getD i 0) < 2 ^ 64 := by
      rw [← ones_succ_word]
      have := ones_le m (64 * (i + 1))
      omega
    have ih := count_loop_eq m k (i + 1) (by omega) (by rw [show i + 1 + k = i + (k + 1) by omega]; exact h2)
    unfold count_loop
    simp only [load_eq_some hi, Option.bind_eq_bind, Option.some_bind, wrap_of_lt hlt]
    rw [← ones_succ_word, ih]
    congr 3
    omega

theorem div_ceil_eq {n : Nat} (h : n + 63 < 2 ^ 64) : div_ceil n = (n + 63) / 64 := by
  unfold div_ceil
  rw [show n + WBits - 1 = n + 63 by simp [WBits], wrap_of_lt h]

theorem wf_word_count {s : dynamic_storage} (h : s.wf) :
    s.word_count = (s.length + 63) / 64 ∧ s.word_count ≤ s.head.length := by
  obtain ⟨h1, h2, h3, -⟩ := h
  unfold dynamic_storage.word_count
  rw [div_ceil_eq (by omega)]
  omega

theorem ones_validated {s : dynamic_storage} (hv : s.validated) :
    ones s.head (64 * ((s.length + 63) / 64)) = ones s.head s.length := by
  by_cases h0 : s.length % 64 = 0
  · rw [show 64 * ((s.length + 63) / 64) = s.length by omega]
  · rw [show 64 * ((s.length + 63) / 64) = s.length + (64 - s.length % 64) by omega]
    unfold ones
    rw [List.range_add, List.countP_append, List.countP_map]
    simp only [Nat.add_right_eq_self, List.countP_eq_zero, List.mem_range, Function.comp_apply,
      Bool.not_eq_true]
    intro j hj
    unfold bitAt
    rw [show (s.length + j) / 64 = s.length / 64 by omega]
    exact hv h0 _ (Nat.mod_lt _ (by decide)) (by omega)

/-- C9: `count()` is the number of indices `i < size()` with `test(i)` true, for
every storage that satisfies the representation and the validation invariant. -/
theorem C9_count (s : dynamic_bitset) (hwf : s.wf) (hv : s.validated) :
    s.count = some ((List.range s.size).countP (fun i => s.test i == some true)) := by
  obtain ⟨hwc, hle⟩ := wf_word_count hwf
  have hwf' := hwf
  obtain ⟨h1, h2, h3, -⟩ := hwf
  have hloop := count_loop_eq s.head s.word_count 0 (by omega) (by rw [hwc]; omega)
  simp only [Nat.mul_zero, Nat.zero_add] at hloop
  rw [show ones s.head 0 = 0 from rfl] at hloop
  unfold count
  rw [hloop, hwc, ones_validated hv]
  unfold ones size
  congr 1
  apply List.countP_congr
  intro i hi
  simp only [List.mem_range] at hi
  rw [test_eq s i (by omega)]
  simp

/-- C9 at a three-word block holding 67 bits, 66 of them set. -/
theorem C9_count_witness :
    dynamic_storage.wf ⟨[2 ^ 64 - 1, 5, 77], 3, 67⟩ ∧
      dynamic_storage.validated ⟨[2 ^ 64 - 1, 5, 77], 3, 67⟩ ∧
      count ⟨[2 ^ 64 - 1, 5, 77], 3, 67⟩ = some 66 :=
  ⟨by decide, by decide,
    (C9_count ⟨[2 ^ 64 - 1, 5, 77], 3, 67⟩ (by decide) (by decide)).trans (by decide)⟩

/-! ## Bitwise combination -/

theorem word_loop_spec (f : Nat → Nat → Nat) (rhs : List Nat) :
    ∀ (k i : Nat) (dst : List Nat), i + k ≤ dst.length → i + k ≤ rhs.length →
      ∃ r, word_loop f rhs k i dst = some r ∧ r.length = dst.length ∧
        ∀ j, r.getD j 0 =
          if i ≤ j ∧ j < i + k then f (dst.getD j 0) (rhs.getD j 0) else dst.getD j 0
  | 0, i, dst, _, _ => ⟨dst, rfl, rfl, fun j => by rw [if_neg (by omega)]⟩
  | k + 1, i, dst, h1, h2 => by
    have hi : i < dst.length := by omega
    have hi' : i < rhs.length := by omega
    obtain ⟨r, hr, hlen, hget⟩ := word_loop_spec f rhs k (i + 1)
      (dst.set i (f (dst.getD i 0) (rhs.getD i 0)))
      (by rw [List.length_set]; omega) (by omega)
    refine ⟨r, ?_, ?_, ?_⟩
    · unfold word_loop
      simp only [load_eq_some hi, load_eq_some hi', store_eq_some _ hi, Option.bind_eq_bind,
        Option.some_bind]
      exact hr
    · rw [hlen, List.length_set]
    · intro j
      rw [hget j, getD_set]
      by_cases hj : i = j
      · subst hj
        rw [if_neg (by omega), if_pos ⟨rfl, hi⟩, if_pos (by omega)]
      · have hne : ¬(i = j ∧ i < dst.length) := fun h => hj h.1
        simp only [hne, if_false]
        by_cases hj2 : i + 1 ≤ j ∧ j < i + 1 + k
        · rw [if_pos hj2, if_pos (by omega)]
        · rw [if_neg hj2, if_neg (by omega)]

/-- Bit `p` of a block after word `i` is replaced. -/
theorem bitAt_set (m : List Nat) (i v p : Nat) (hi : i < m.length) :
    bitAt (m.set i v) p = if p / 64 = i then v.testBit (p % 64) else bitAt m p := by
  unfold bitAt
  rw [getD_set]
  by_cases h : i = p / 64
  · rw [if_pos ⟨h, hi⟩, if_pos h.symm]
  · rw [if_neg (fun hh => h hh.1), if_neg (fun hh => h hh.symm)]

theorem do_or_spec (dst rhs : List Nat) (n : Nat)
    (h1 : (n + 63) / 64 ≤ dst.length) (h2 : (n + 63) / 64 ≤ rhs.length) :
    ∃ r, do_or_ dst rhs n = some r ∧ r.length = dst.length ∧
      ∀ p, bitAt r p = if p < n then (bitAt dst p || bitAt rhs p) else bitAt dst p := by
  obtain ⟨r, hr, hlen, hget⟩ := word_loop_spec (fun d r => d ||| r) rhs (n / 64) 0 dst
    (by omega) (by omega)
  unfold do_or_ div_mod
  simp only [WBits, hr, Option.bind_eq_bind, Option.some_bind]
  by_cases hm : n % 64 = 0
  · refine ⟨r, by simp [hm], hlen, fun p => ?_⟩
    unfold bitAt
    rw [hget]
    by_cases hp : p < n
    · rw [if_pos (by omega), if_pos hp, Nat.testBit_or]
    · rw [if_neg (by omega), if_neg hp]
  · have hd : n / 64 < r.length := by omega
    have hd' : n / 64 < rhs.length := by omega
    refine ⟨r.set (n / 64) (r.getD (n / 64) 0 ||| (rhs.getD (n / 64) 0 &&& mask_low (n % 64))),
      by simp only [hm, ne_eq, not_false_eq_true, if_true, load_eq_some hd,
        load_eq_some hd', store_eq_some _ hd, Option.some_bind],
      by rw [List.length_set, hlen], fun p => ?_⟩
    rw [bitAt_set _ _ _ _ hd]
    by_cases hw : p / 64 = n / 64
    · rw [if_pos hw, hget, if_neg (by omega), Nat.testBit_or, Nat.testBit_and,
        testBit_mask_low (Nat.mod_lt _ (by decide))]
      unfold bitAt
      rw [hw]
      by_cases hp : p < n
      · rw [if_pos hp, decide_eq_true (by omega), Bool.and_true]
      · rw [if_neg hp, decide_eq_false (by omega), Bool.and_false, Bool.or_false]
    · rw [if_neg hw]
      unfold bitAt
      rw [hget]
      by_cases hp : p < n
      · rw [if_pos (by omega), if_pos hp, Nat.testBit_or]
      · rw [if_neg (by omega), if_neg hp]

theorem do_and_spec (dst rhs : List Nat) (n : Nat)
    (h1 : (n + 63) / 64 ≤ dst.length) (h2 : (n + 63) / 64 ≤ rhs.length) :
    ∃ r, do_and dst rhs n = some r ∧ r.length = dst.length ∧
      ∀ p, bitAt r p = if p < n then (bitAt dst p && bitAt rhs p) else bitAt dst p := by
  obtain ⟨r, hr, hlen, hget⟩ := word_loop_spec (fun d r => d &&& r) rhs (n / 64) 0 dst
    (by omega) (by omega)
  unfold do_and div_mod
  simp only [WBits, hr, Option.bind_eq_bind, Option.some_bind]
  by_cases hm : n % 64 = 0
  · refine ⟨r, by simp [hm], hlen, fun p => ?_⟩
    unfold bitAt
    rw [hget]
    by_cases hp : p < n
    · rw [if_pos (by omega), if_pos hp, Nat.testBit_and]
    · rw [if_neg (by omega), if_neg hp]
  · have hd : n / 64 < r.length := by omega
    have hd' : n / 64 < rhs.length := by omega
    refine ⟨r.set (n / 64) (r.getD (n / 64) 0 &&& (rhs.getD (n / 64) 0 ||| mask_top (n % 64))),
      by simp only [hm, ne_eq, not_false_eq_true, if_true, load_eq_some hd,
        load_eq_some hd', store_eq_some _ hd, Option.some_bind],
      by rw [List.length_set, hlen], fun p => ?_⟩
    rw [bitAt_set _ _ _ _ hd]
    by_cases hw : p / 64 = n / 64
    · rw [if_pos hw, hget, if_neg (by omega), Nat.testBit_and, Nat.testBit_or,
        testBit_mask_top, decide_eq_true (Nat.mod_lt p (by decide : 0 < 64)), Bool.true_and]
      unfold bitAt
      rw [hw]
      by_cases hp : p < n
      · rw [if_pos hp, decide_eq_false (by omega), Bool.or_false]
      · rw [if_neg hp, decide_eq_true (by omega), Bool.or_true, Bool.and_true]
    · rw [if_neg hw]
      unfold bitAt
      rw [hget]
      by_cases hp : p < n
      · rw [if_pos (by omega), if_pos hp, Nat.testBit_and]
      · rw [if_neg (by omega), if_neg hp]

theorem do_xor_spec (dst rhs : List Nat) (n : Nat)
    (h1 : (n + 63) / 64 ≤ dst.length) (h2 : (n + 63) / 64 ≤ rhs.length) :
    ∃ r, do_xor dst rhs n = some r ∧ r.length = dst.length ∧
      ∀ p, bitAt r p = if p < n then (Bool.xor (bitAt dst p) (bitAt rhs p)) else bitAt dst p := by
  obtain ⟨r, hr, hlen, hget⟩ := word_loop_spec (fun d r => d ^^^ r) rhs (n / 64) 0 dst
    (by omega) (by omega)
  unfold do_xor div_mod
  simp only [WBits, hr, Option.bind_eq_bind, Option.some_bind]
  by_cases hm : n % 64 = 0
  · refine ⟨r, by simp [hm], hlen, fun p => ?_⟩
    unfold bitAt
    rw [hget]
    by_cases hp : p < n
    · rw [if_pos (by omega), if_pos hp, Nat.testBit_xor]
    · rw [if_neg (by omega), if_neg hp]
  · have hd : n / 64 < r.length := by omega
    have hd' : n / 64 < rhs.length := by omega
    refine ⟨r.set (n / 64) (r.getD (n / 64) 0 ^^^ (rhs.getD (n / 64) 0 &&& mask_low (n % 64))),
      by simp only [hm, ne_eq, not_false_eq_true, if_true, load_eq_some hd,
        load_eq_some hd', store_eq_some _ hd, Option.some_bind],
      by rw [List.length_set, hlen], fun p => ?_⟩
    rw [bitAt_set _ _ _ _ hd]
    by_cases hw : p / 64 = n / 64
    · rw [if_pos hw, hget, if_neg (by omega), Nat.testBit_xor, Nat.testBit_and,
        testBit_mask_low (Nat.mod_lt _ (by decide))]
      unfold bitAt
      rw [hw]
      by_cases hp : p < n
      · rw [if_pos hp, decide_eq_true (by omega), Bool.and_true]
      · rw [if_neg hp, decide_eq_false (by omega), Bool.and_false, Bool.xor_false]
    · rw [if_neg hw]
      unfold bitAt
      rw [hget]
      by_cases hp : p < n
      · rw [if_pos (by omega), if_pos hp, Nat.testBit_xor]
      · rw [if_neg (by omega), if_neg hp]

theorem wf_test {s : dynamic_bitset} (h : s.wf) {i : Nat} (hi : i < s.length) :
    test s i = some (bitAt s.head i) :=
  test_eq s i (by obtain ⟨h1, h2, -, -⟩ := h; omega)

theorem min_words {A B : dynamic_bitset} (hA : A.wf) (hB : B.wf) :
    ((if A.length < B.length then A.length else B.length) + 63) / 64 ≤ A.head.length ∧
    ((if A.length < B.length then A.length else B.length) + 63) / 64 ≤ B.head.length := by
  obtain ⟨a1, a2, -, -⟩ := hA
  obtain ⟨b1, b2, -, -⟩ := hB
  split <;> omega

/-- The three compound assignments return, keep the size, and act bit by bit on
the first `min(size(A), size(B))` bits of the block and on no other bit. -/
theorem bitwise_spec (A B : dynamic_bitset) (hA : A.wf) (hB : B.wf) :
    ∃ Ro Ra Rx, or_assign A B = some Ro ∧ and_assign A B = some Ra ∧
      xor_assign A B = some Rx ∧
      Ro.length = A.length ∧ Ra.length = A.length ∧ Rx.length = A.length ∧
      Ro.head.length = A.head.length ∧ Ra.head.length = A.head.length ∧
      Rx.head.length = A.head.length ∧
      ∀ p, (bitAt Ro.head p = if p < min A.length B.length
              then (bitAt A.head p || bitAt B.head p) else bitAt A.head p) ∧
           (bitAt Ra.head p = if p < min A.length B.length
              then (bitAt A.head p && bitAt B.head p) else bitAt A.head p) ∧
           (bitAt Rx.head p = if p < min A.length B.length
              then Bool.xor (bitAt A.head p) (bitAt B.head p) else bitAt A.head p) := by
  obtain ⟨w1, w2⟩ := min_words hA hB
  have hmin : (if A.length < B.length then A.length else B.length) = min A.length B.length := by
    split <;> omega
  obtain ⟨ro, ho, hlo, hbo⟩ := do_or_spec A.head B.head _ w1 w2
  obtain ⟨ra, ha, hla, hba⟩ := do_and_spec A.head B.head _ w1 w2
  obtain ⟨rx, hx, hlx, hbx⟩ := do_xor_spec A.head B.head _ w1 w2
  refine ⟨{ A with head := ro }, { A with head := ra }, { A with head := rx }, ?_, ?_, ?_,
    rfl, rfl, rfl, hlo, hla, hlx, fun p => ⟨?_, ?_, ?_⟩⟩
  · simp only [or_assign, ho, Option.bind_eq_bind, Option.some_bind]
  · simp only [and_assign, ha, Option.bind_eq_bind, Option.some_bind]
  · simp only [xor_assign, hx, Option.bind_eq_bind, Option.some_bind]
  · rw [← hmin]; exact hbo p
  · rw [← hmin]; exact hba p
  · rw [← hmin]; exact hbx p

/-- C6: for storages `A` and `B` and `n = min(size(A), size(B))`, after `A |= B`
bit `i < n` of `A` is (old `A_i` OR `B_i`), after `A &= B` it is (old `A_i` AND
`B_i`), after `A ^= B` it is (old `A_i` XOR `B_i`). -/
theorem C6_bitwise_prefix (A B : dynamic_bitset) (hA : A.wf) (hB : B.wf) :
    ∃ Ro Ra Rx, or_assign A B = some Ro ∧ and_assign A B = some Ra ∧
      xor_assign A B = some Rx ∧
      ∀ i, i < min (size A) (size B) →
        ∃ a b, test A i = some a ∧ test B i = some b ∧
          test Ro i = some (a || b) ∧ test Ra i = some (a && b) ∧
          test Rx i = some (Bool.xor a b) := by
  obtain ⟨Ro, Ra, Rx, ho, ha, hx, -, -, -, lo, la, lx, hb⟩ := bitwise_spec A B hA hB
  refine ⟨Ro, Ra, Rx, ho, ha, hx, fun i hi => ⟨bitAt A.head i, bitAt B.head i, ?_⟩⟩
  unfold size at hi
  have hiA : i < A.length := by omega
  have hiB : i < B.length := by omega
  have hw : i / 64 < A.head.length := by obtain ⟨h1, h2, -, -⟩ := hA; omega
  obtain ⟨h1, h2, h3⟩ := hb i
  rw [if_pos hi] at h1 h2 h3
  refine ⟨wf_test hA hiA, wf_test hB hiB, ?_, ?_, ?_⟩
  · rw [test_eq Ro i (by omega), h1]
  · rw [test_eq Ra i (by omega), h2]
  · rw [test_eq Rx i (by omega), h3]

/-- C6 at `A = 1100` and `B = 1010` (bit 0 first), both of 4 bits. -/
theorem C6_bitwise_prefix_witness :
    dynamic_storage.wf ⟨[3], 1, 4⟩ ∧ dynamic_storage.wf ⟨[5], 1, 4⟩ ∧
    ∃ Ro Ra Rx, or_assign ⟨[3], 1, 4⟩ ⟨[5], 1, 4⟩ = some Ro ∧
      and_assign ⟨[3], 1, 4⟩ ⟨[5], 1, 4⟩ = some Ra ∧
      xor_assign ⟨[3], 1, 4⟩ ⟨[5], 1, 4⟩ = some Rx ∧
      ∀ i, i < min (size ⟨[3], 1, 4⟩) (size ⟨[5], 1, 4⟩) →
        ∃ a b, test ⟨[3], 1, 4⟩ i = some a ∧ test ⟨[5], 1, 4⟩ i = some b ∧
          test Ro i = some (a || b) ∧ test Ra i = some (a && b) ∧
          test Rx i = some (Bool.xor a b) :=
  ⟨by decide, by decide, C6_bitwise_prefix ⟨[3], 1, 4⟩ ⟨[5], 1, 4⟩ (by decide) (by decide)⟩

/-- C7: each of `A |= B`, `A &= B`, `A ^= B` keeps `size(A)` and every bit of `A`
at a position `i >= min(size(A), size(B))`, whichever operand is longer; this
covers the bits of the boundary word above the compared range. -/
theorem C7_bitwise_frame (A B : dynamic_bitset) (hA : A.wf) (hB : B.wf) :
    ∃ Ro Ra Rx, or_assign A B = some Ro ∧ and_assign A B = some Ra ∧
      xor_assign A B = some Rx ∧
      size Ro = size A ∧ size Ra = size A ∧ size Rx = size A ∧
      (∀ i, min (size A) (size B) ≤ i → i < size A →
        test Ro i = test A i ∧ test Ra i = test A i ∧ test Rx i = test A i) ∧
      (∀ i, min (size A) (size B) ≤ i →
        bitAt Ro.head i = bitAt A.head i ∧ bitAt Ra.head i = bitAt A.head i ∧
        bitAt Rx.head i = bitAt A.head i) := by
  obtain ⟨Ro, Ra, Rx, ho, ha, hx, so, sa, sx, lo, la, lx, hb⟩ := bitwise_spec A B hA hB
  have key : ∀ i, min (size A) (size B) ≤ i →
      bitAt Ro.head i = bitAt A.head i ∧ bitAt Ra.head i = bitAt A.head i ∧
      bitAt Rx.head i = bitAt A.head i := by
    intro i hi
    unfold size at hi
    obtain ⟨h1, h2, h3⟩ := hb i
    rw [if_neg (by omega)] at h1 h2 h3
    exact ⟨h1, h2, h3⟩
  refine ⟨Ro, Ra, Rx, ho, ha, hx, so, sa, sx, fun i hi hlt => ?_, key⟩
  unfold size at hlt
  have hw : i / 64 < A.head.length := by obtain ⟨h1, h2, -, -⟩ := hA; omega
  obtain ⟨h1, h2, h3⟩ := key i hi
  rw [test_eq A i hw, test_eq Ro i (by omega), test_eq Ra i (by omega),
    test_eq Rx i (by omega), h1, h2, h3]
  exact ⟨rfl, rfl, rfl⟩

/-- C7 at `A` = 8 zero bits and `B` = 4 bits with bit 0 and bit 1 set: `A |= B`
gives bit 0 = bit 1 = 1 and bits 2 to 7 equal to 0. -/
theorem C7_bitwise_frame_witness :
    dynamic_storage.wf ⟨[0], 1, 8⟩ ∧ dynamic_storage.wf ⟨[3], 1, 4⟩ ∧
    or_assign ⟨[0], 1, 8⟩ ⟨[3], 1, 4⟩ = some ⟨[3], 1, 8⟩ ∧
    ∃ Ro Ra Rx, or_assign ⟨[0], 1, 8⟩ ⟨[3], 1, 4⟩ = some Ro ∧
      and_assign ⟨[0], 1, 8⟩ ⟨[3], 1, 4⟩ = some Ra ∧
      xor_assign ⟨[0], 1, 8⟩ ⟨[3], 1, 4⟩ = some Rx ∧
      size Ro = size ⟨[0], 1, 8⟩ ∧ size Ra = size ⟨[0], 1, 8⟩ ∧ size Rx = size ⟨[0], 1, 8⟩ ∧
      (∀ i, min (size ⟨[0], 1, 8⟩) (size ⟨[3], 1, 4⟩) ≤ i → i < size ⟨[0], 1, 8⟩ →
        test Ro i = test ⟨[0], 1, 8⟩ i ∧ test Ra i = test ⟨[0], 1, 8⟩ i ∧
        test Rx i = test ⟨[0], 1, 8⟩ i) ∧
      (∀ i, min (size ⟨[0], 1, 8⟩) (size ⟨[3], 1, 4⟩) ≤ i →
        bitAt Ro.head i = bitAt [0] i ∧ bitAt Ra.head i = bitAt [0] i ∧
        bitAt Rx.head i = bitAt [0] i) :=
  ⟨by decide, by decide, by decide,
    C7_bitwise_frame ⟨[0], 1, 8⟩ ⟨[3], 1, 4⟩ (by decide) (by decide)⟩

theorem word_copy_spec (dst src : List Nat) (n : Nat) (h1 : n ≤ dst.length)
    (h2 : n ≤ src.length) :
    ∃ r, word_copy dst src n = some r ∧ r.length = dst.length ∧
      ∀ j, r.getD j 0 = if j < n then src.getD j 0 else dst.getD j 0 := by
  refine ⟨src.take n ++ dst.drop n, by unfold word_copy; rw [if_pos ⟨h1, h2⟩], ?_, fun j => ?_⟩
  · simp only [List.length_append, List.length_take, List.length_drop]; omega
  · simp only [List.getD_eq_getElem?_getD]
    by_cases hj : j < n
    · rw [if_pos hj, List.getElem?_append_left (by simp; omega), List.getElem?_take_of_lt hj]
    · rw [if_neg hj, List.getElem?_append_right (by simp; omega), List.getElem?_drop]
      simp only [List.length_take]
      rw [show n + (j - min n src.length) = j by omega]

theorem alloc_none_length (g : Nat → Nat) (n : Nat) : (alloc_none g n).length = n := by
  simp [alloc_none]

/-- C8: for a copy `C` of a storage `B`, `C |= B` and `C &= B` have the size and
the bits of `B`, and `C ^= B` has the size of `B` and all bits false. -/
theorem C8_self_algebra (g : Nat → Nat) (B : dynamic_bitset) (hB : B.wf) :
    ∃ C Ro Ra Rx, dynamic_storage.copy g B = some C ∧ or_assign C B = some Ro ∧
      and_assign C B = some Ra ∧ xor_assign C B = some Rx ∧
      size C = size B ∧ size Ro = size B ∧ size Ra = size B ∧ size Rx = size B ∧
      ∀ i, i < size B →
        test C i = test B i ∧ test Ro i = test B i ∧ test Ra i = test B i ∧
        test Rx i = some false := by
  obtain ⟨hwc, hle⟩ := wf_word_count hB
  have hB' := hB
  obtain ⟨b1, b2, b3, b4⟩ := hB'
  obtain ⟨c, hc, hcl, hcg⟩ := word_copy_spec (alloc_none g B.length) B.head B.word_count
    (by rw [alloc_none_length, hwc]; omega) hle
  rw [alloc_none_length] at hcl
  have w1 : ((if B.length < B.length then B.length else B.length) + 63) / 64 ≤ c.length := by
    rw [if_neg (Nat.lt_irrefl _), hcl]; omega
  have w2 : ((if B.length < B.length then B.length else B.length) + 63) / 64 ≤ B.head.length := by
    rw [if_neg (Nat.lt_irrefl _)]; omega
  obtain ⟨ro, ho, hlo, hbo⟩ := do_or_spec c B.head _ w1 w2
  obtain ⟨ra, ha, hla, hba⟩ := do_and_spec c B.head _ w1 w2
  obtain ⟨rx, hx, hlx, hbx⟩ := do_xor_spec c B.head _ w1 w2
  refine ⟨⟨c, B.length, B.length⟩, ⟨ro, B.length, B.length⟩, ⟨ra, B.length, B.length⟩,
    ⟨rx, B.length, B.length⟩, ?_, ?_, ?_, ?_, rfl, rfl, rfl, rfl, fun i hi => ?_⟩
  · simp only [dynamic_storage.copy, dynamic_storage.mk_none, hc, Option.bind_eq_bind,
      Option.some_bind]
  · simp only [or_assign, ho, Option.bind_eq_bind, Option.some_bind]
  · simp only [and_assign, ha, Option.bind_eq_bind, Option.some_bind]
  · simp only [xor_assign, hx, Option.bind_eq_bind, Option.some_bind]
  · unfold size at hi
    have hcb : bitAt c i = bitAt B.head i := by
      unfold bitAt
      rw [hcg, if_pos (by rw [hwc]; omega)]
    have o := hbo i
    have a := hba i
    have x := hbx i
    rw [if_neg (Nat.lt_irrefl _), if_pos hi, hcb] at o a x
    rw [test_eq B i (by omega)]
    refine ⟨?_, ?_, ?_, ?_⟩
    · rw [test_eq _ i (by show i / 64 < c.length; omega), hcb]
    · rw [test_eq _ i (by show i / 64 < ro.length; omega), o, Bool.or_self]
    · rw [test_eq _ i (by show i / 64 < ra.length; omega), a, Bool.and_self]
    · rw [test_eq _ i (by show i / 64 < rx.length; omega), x, Bool.xor_self]

/-- C8 at a storage of 5 bits `0,1,1,0,1`, copied into fresh memory of content 9. -/
theorem C8_self_algebra_witness :
    dynamic_storage.wf ⟨[22], 1, 5⟩ ∧
    ∃ C Ro Ra Rx, dynamic_storage.copy (fun _ => 9) ⟨[22], 1, 5⟩ = some C ∧
      or_assign C ⟨[22], 1, 5⟩ = some Ro ∧
      and_assign C ⟨[22], 1, 5⟩ = some Ra ∧ xor_assign C ⟨[22], 1, 5⟩ = some Rx ∧
      size C = size ⟨[22], 1, 5⟩ ∧ size Ro = size ⟨[22], 1, 5⟩ ∧
      size Ra = size ⟨[22], 1, 5⟩ ∧ size Rx = size ⟨[22], 1, 5⟩ ∧
      ∀ i, i < size ⟨[22], 1, 5⟩ →
        test C i = test ⟨[22], 1, 5⟩ i ∧ test Ro i = test ⟨[22], 1, 5⟩ i ∧
        test Ra i = test ⟨[22], 1, 5⟩ i ∧ test Rx i = some false :=
  ⟨by decide, C8_self_algebra (fun _ => 9) ⟨[22], 1, 5⟩ (by decide)⟩

/-! ## Byte images -/

theorem toBytes_length (m : List Nat) : (toBytes m).length = 8 * m.length := by
  simp [toBytes]

theorem getD_map_range (f : Nat → Nat) (n q : Nat) :
    ((List.range n).map f).getD q 0 = if q < n then f q else 0 := by
  simp only [List.getD_eq_getElem?_getD, List.getElem?_map, List.getElem?_range]
  by_cases h : q < n
  · simp [h, List.getElem?_range h]
  · rw [if_neg h, List.getElem?_eq_none (by simp; omega)]; rfl

theorem getD_of_length_le (m : List Nat) (i : Nat) (h : m.length ≤ i) : m.getD i 0 = 0 := by
  simp [List.getD_eq_getElem?_getD, List.getElem?_eq_none h]

theorem toBytes_getD (m : List Nat) (q : Nat) :
    (toBytes m).getD q 0 = (m.getD (q / 8) 0 >>> (8 * (q % 8))) % 256 := by
  unfold toBytes
  rw [getD_map_range]
  by_cases h : q < 8 * m.length
  · rw [if_pos h]
  · rw [if_neg h, getD_of_length_le m (q / 8) (by omega)]
    simp

theorem toBytes_lt (m : List Nat) : ∀ b ∈ toBytes m, b < 256 := by
  intro b hb
  simp only [toBytes, List.mem_map, List.mem_range] at hb
  obtain ⟨j, -, rfl⟩ := hb
  exact Nat.mod_lt _ (by decide)

theorem byteBit_toBytes (m : List Nat) (p : Nat) : byteBit (toBytes m) p = bitAt m p := by
  unfold byteBit bitAt
  rw [toBytes_getD, show (256 : Nat) = 2 ^ 8 from rfl, Nat.testBit_mod_two_pow,
    Nat.testBit_shiftRight, decide_eq_true (Nat.mod_lt p (by decide : 0 < 8)), Bool.true_and,
    show p / 8 / 8 = p / 64 by omega, show 8 * (p / 8 % 8) + p % 8 = p % 64 by omega]

theorem getD_lt_of_all (b : List Nat) (hb : ∀ x ∈ b, x < 256) (q : Nat) : b.getD q 0 < 256 := by
  by_cases h : q < b.length
  · rw [List.getD_eq_getElem?_getD, List.getElem?_eq_getElem h]
    exact hb _ (List.getElem_mem h)
  · rw [getD_of_length_le b q (by omega)]; decide

theorem testBit_byte_high {x c : Nat} (hx : x < 256) (hc : 8 ≤ c) : x.testBit c = false :=
  Nat.testBit_lt_two_pow (lt_of_lt_of_le hx
    (le_trans (by decide : 256 ≤ 2 ^ 8) (Nat.pow_le_pow_right (by decide) hc)))

theorem testBit_shl_byte {x : Nat} (hx : x < 256) (k c : Nat) :
    (decide (8 * k ≤ c) && x.testBit (c - 8 * k)) = (decide (c / 8 = k) && x.testBit (c % 8)) := by
  by_cases h : c / 8 = k
  · rw [decide_eq_true h, decide_eq_true (by omega), show c - 8 * k = c % 8 by omega]
  · rw [decide_eq_false h, Bool.false_and]
    by_cases h2 : 8 * k ≤ c
    · rw [testBit_byte_high hx (by omega), Bool.and_false]
    · rw [decide_eq_false h2, Bool.false_and]

theorem testBit_bytes_word (b : List Nat) (hb : ∀ x ∈ b, x < 256) (i c : Nat) :
    (bytes_word b i).testBit c =
      (decide (c < 64) && (b.getD (8 * i + c / 8) 0).testBit (c % 8)) := by
  have h0 := testBit_shl_byte (getD_lt_of_all b hb (8 * i)) 0 c
  have h1 := testBit_shl_byte (getD_lt_of_all b hb (8 * i + 1)) 1 c
  have h2 := testBit_shl_byte (getD_lt_of_all b hb (8 * i + 2)) 2 c
  have h3 := testBit_shl_byte (getD_lt_of_all b hb (8 * i + 3)) 3 c
  have h4 := testBit_shl_byte (getD_lt_of_all b hb (8 * i + 4)) 4 c
  have h5 := testBit_shl_byte (getD_lt_of_all b hb (8 * i + 5)) 5 c
  have h6 := testBit_shl_byte (getD_lt_of_all b hb (8 * i + 6)) 6 c
  have h7 := testBit_shl_byte (getD_lt_of_all b hb (8 * i + 7)) 7 c
  simp only [Nat.mul_zero, Nat.zero_le, decide_True, Bool.true_and, Nat.sub_zero] at h0
  simp only [Nat.mul_one, Nat.reduceMul] at h1 h2 h3 h4 h5 h6 h7
  unfold bytes_word
  simp only [Nat.testBit_or, Nat.testBit_shiftLeft, ge_iff_le]
  rw [h0, h1, h2, h3, h4, h5, h6, h7]
  by_cases hc : c < 64
  · have hq : c / 8 = 0 ∨ c / 8 = 1 ∨ c / 8 = 2 ∨ c / 8 = 3 ∨ c / 8 = 4 ∨ c / 8 = 5 ∨
        c / 8 = 6 ∨ c / 8 = 7 := by omega
    rcases hq with q | q | q | q | q | q | q | q <;> simp [q, hc]
  · have hq : ¬ c / 8 = 0 ∧ ¬ c / 8 = 1 ∧ ¬ c / 8 = 2 ∧ ¬ c / 8 = 3 ∧ ¬ c / 8 = 4 ∧
        ¬ c / 8 = 5 ∧ ¬ c / 8 = 6 ∧ ¬ c / 8 = 7 := by omega
    obtain ⟨q0, q1, q2, q3, q4, q5, q6, q7⟩ := hq
    simp [q0, q1, q2, q3, q4, q5, q6, q7, hc]

theorem ofBytes_length (b : List Nat) : (ofBytes b).length = b.length / 8 := by
  simp [ofBytes]

theorem ofBytes_getD (b : List Nat) (i : Nat) :
    (ofBytes b).getD i 0 = if i < b.length / 8 then bytes_word b i else 0 := by
  unfold ofBytes
  rw [getD_map_range]

theorem bitAt_ofBytes (b : List Nat) (hb : ∀ x ∈ b, x < 256) (p : Nat) :
    bitAt (ofBytes b) p = (decide (p / 64 < b.length / 8) && byteBit b p) := by
  unfold bitAt byteBit
  rw [ofBytes_getD]
  by_cases h : p / 64 < b.length / 8
  · rw [if_pos h, testBit_bytes_word b hb, decide_eq_true h,
      decide_eq_true (Nat.mod_lt p (by decide : 0 < 64)), Bool.true_and, Bool.true_and,
      show 8 * (p / 64) + p % 64 / 8 = p / 8 by omega, show p % 64 % 8 = p % 8 by omega]
  · rw [if_neg h, decide_eq_false h, Bool.false_and, Nat.zero_testBit]

theorem ofBytes_lt (b : List Nat) (hb : ∀ x ∈ b, x < 256) : ∀ w ∈ ofBytes b, w < 2 ^ 64 := by
  intro w hw
  simp only [ofBytes, List.mem_map, List.mem_range] at hw
  obtain ⟨i, -, rfl⟩ := hw
  apply Nat.lt_pow_two_of_testBit
  intro c hc
  rw [testBit_bytes_word b hb, decide_eq_false (by omega), Bool.false_and]

/-! ## `validate`, `memmove` -/

theorem validate_spec (dst : List Nat) (n : Nat) (h : (n + 63) / 64 ≤ dst.length) :
    ∃ r, validate dst n = some r ∧ r.length = dst.length ∧
      (∀ p, bitAt r p =
        if n % 64 ≠ 0 ∧ p / 64 = n / 64 ∧ n % 64 ≤ p % 64 then false else bitAt dst p) ∧
      ((∀ w ∈ dst, w < 2 ^ 64) → ∀ w ∈ r, w < 2 ^ 64) := by
  unfold validate div_mod
  by_cases hm : n % 64 = 0
  · refine ⟨dst, by simp [hm], rfl, fun p => by rw [if_neg (fun hh => hh.1 hm)], fun hw => hw⟩
  · have hd : n / 64 < dst.length := by omega
    refine ⟨dst.set (n / 64) (dst.getD (n / 64) 0 &&& mask_low (n % 64)),
      by simp only [WBits, ne_eq, hm, not_false_eq_true, if_true, load_eq_some hd,
        store_eq_some _ hd, Option.bind_eq_bind, Option.some_bind],
      by rw [List.length_set], fun p => ?_, fun hw w hmem => ?_⟩
    · rw [bitAt_set _ _ _ _ hd]
      by_cases hp : p / 64 = n / 64
      · rw [if_pos hp, Nat.testBit_and, testBit_mask_low (Nat.mod_lt _ (by decide))]
        by_cases hq : n % 64 ≤ p % 64
        · rw [if_pos ⟨hm, hp, hq⟩, decide_eq_false (by omega), Bool.and_false]
        · rw [if_neg (fun hh => hq hh.2.2), decide_eq_true (by omega), Bool.and_true]
          unfold bitAt; rw [hp]
      · rw [if_neg hp, if_neg (fun hh => hp hh.2.1)]
    · rcases List.mem_or_eq_of_mem_set hmem with h1 | h1
      · exact hw w h1
      · rw [h1]
        have hx := hw _ (List.getElem_mem hd)
        rw [List.getD_eq_getElem?_getD, List.getElem?_eq_getElem hd]
        exact lt_of_le_of_lt Nat.and_le_left hx

theorem memmove_spec (dst : List Nat) (doff : Nat) (src : List Nat) (soff cnt : Nat)
    (h1 : doff + cnt ≤ dst.length) (h2 : soff + cnt ≤ src.length) :
    ∃ r, memmove dst doff src soff cnt = some r ∧ r.length = dst.length ∧
      (∀ q, r.getD q 0 =
        if doff ≤ q ∧ q < doff + cnt then src.getD (q - doff + soff) 0 else dst.getD q 0) ∧
      ((∀ x ∈ dst, x < 256) → (∀ x ∈ src, x < 256) → ∀ x ∈ r, x < 256) := by
  refine ⟨_, by unfold memmove; rw [if_pos ⟨h1, h2⟩], ?_, fun q => ?_, fun hd hs x hx => ?_⟩
  · simp only [List.length_append, List.length_take, List.length_drop]; omega
  · simp only [List.getD_eq_getElem?_getD]
    by_cases hq : q < doff
    · rw [if_neg (by omega), List.append_assoc, List.getElem?_append_left (by simp; omega),
        List.getElem?_take_of_lt hq]
    · by_cases hq2 : q < doff + cnt
      · rw [if_pos (by omega), List.getElem?_append_left (by simp; omega),
          List.getElem?_append_right (by simp; omega)]
        simp only [List.length_take]
        rw [List.getElem?_take_of_lt (by omega), List.getElem?_drop]
        congr 2; omega
      · rw [if_neg (by omega), List.getElem?_append_right (by simp; omega), List.getElem?_drop]
        simp only [List.length_append, List.length_take, List.length_drop]
        congr 2; omega
  · simp only [List.mem_append] at hx
    rcases hx with (hx | hx) | hx
    · exact hd x (List.mem_of_mem_take hx)
    · exact hs x (List.mem_of_mem_drop (List.mem_of_mem_take hx))
    · exact hd x (List.mem_of_mem_drop hx)

theorem byteBit_eq_of_getD {a b : List Nat} {p q : Nat} (h : a.getD (p / 8) 0 = b.getD (q / 8) 0)
    (hpq : p % 8 = q % 8) : byteBit a p = byteBit b q := by
  unfold byteBit; rw [h, hpq]

/-! ## Right shift -/

theorem getD_lt_word (m : List Nat) (hm : ∀ w ∈ m, w < 2 ^ 64) (i : Nat) :
    m.getD i 0 < 2 ^ 64 := by
  by_cases h : i < m.length
  · rw [List.getD_eq_getElem?_getD, List.getElem?_eq_getElem h]
    exact hm _ (List.getElem_mem h)
  · rw [getD_of_length_le m i (by omega)]; decide

theorem testBit_word_high {x c : Nat} (hx : x < 2 ^ 64) (hc : 64 ≤ c) : x.testBit c = false :=
  Nat.testBit_lt_two_pow (lt_of_lt_of_le hx (Nat.pow_le_pow_right (by decide) hc))

theorem xor_63 : ∀ m, m < 64 → m ^^^ 63 = 63 - m := by decide

/-- In-place byte path of the right shift. -/
theorem byte_rshift_spec (v : vec2) (hv : v.src = none) (n count : Nat)
    (hn : n + 7 < 2 ^ 64) (h : count + (n + 7) / 8 ≤ 8 * v.dst.length) :
    ∃ r, byte_rshift v n count = some r ∧ r.length = v.dst.length ∧
      (∀ p, p < n → bitAt r p = bitAt v.dst (p + 8 * count)) ∧
      ((∀ w ∈ v.dst, w < 2 ^ 64) → ∀ w ∈ r, w < 2 ^ 64) := by
  unfold byte_rshift
  by_cases hc : count = 0
  · subst hc
    exact ⟨v.dst, by simp, rfl, fun p _ => rfl, fun hw => hw⟩
  · have hsrc : v.source v.dst = v.dst := by unfold vec2.source; rw [hv]
    obtain ⟨raw, hraw, hlen, hget, hlt⟩ := memmove_spec (toBytes v.dst) 0 (toBytes v.dst) count
      ((n + 7) / 8) (by rw [toBytes_length]; omega) (by rw [toBytes_length]; omega)
    have hlt' := hlt (toBytes_lt _) (toBytes_lt _)
    rw [toBytes_length] at hlen
    refine ⟨ofBytes raw, ?_, by rw [ofBytes_length, hlen]; omega, fun p hp => ?_,
      fun _ => ofBytes_lt raw hlt'⟩
    · simp only [hc, if_false, hsrc, show n + 8 - 1 = n + 7 from rfl, wrap_of_lt hn, hraw,
        Option.bind_eq_bind, Option.some_bind]
    · rw [bitAt_ofBytes raw hlt', decide_eq_true (by rw [hlen]; omega), Bool.true_and,
        ← byteBit_toBytes]
      apply byteBit_eq_of_getD
      · rw [hget, if_pos (by omega)]
        congr 1; omega
      · omega

/-- The loop of the right shift, run in place on a block whose original content
is `m`. -/
theorem do_rshift_loop_spec (v : vec2) (hv : v.src = none) (m : List Nat)
    (hm : m.length < 2 ^ 64) (div mod rev : Nat) :
    ∀ (k i : Nat) (d : List Nat), d.length = m.length →
      (∀ j, i ≤ j → d.getD j 0 = m.getD j 0) → i + k + div < m.length →
      ∃ r, do_rshift_loop v div mod rev k i (m.getD (i + div) 0) d =
          some (m.getD (i + k + div) 0, r) ∧ r.length = m.length ∧
        ∀ j, r.getD j 0 =
          if i ≤ j ∧ j < i + k
          then m.getD (j + div) 0 >>> mod ||| wrap (m.getD (j + 1 + div) 0 <<< rev)
          else d.getD j 0
  | 0, i, d, hd, _, _ =>
    ⟨d, by simp [do_rshift_loop], hd, fun j => by rw [if_neg (by omega)]⟩
  | k + 1, i, d, hd, hsame, hb => by
    have hsrc : ∀ x, v.source x = x := fun x => by unfold vec2.source; rw [hv]
    have hi : i < d.length := by omega
    have hi1 : i + 1 + div < d.length := by omega
    have hcur : d.getD (i + 1 + div) 0 = m.getD (i + 1 + div) 0 := hsame _ (by omega)
    obtain ⟨r, hr, hlen, hget⟩ := do_rshift_loop_spec v hv m hm div mod rev k (i + 1)
      (d.set i (m.getD (i + div) 0 >>> mod ||| wrap (m.getD (i + 1 + div) 0 <<< rev)))
      (by rw [List.length_set, hd])
      (fun j hj => by rw [getD_set, if_neg (by omega)]; exact hsame j (by omega))
      (by omega)
    refine ⟨r, ?_, hlen, fun j => ?_⟩
    · unfold do_rshift_loop
      simp only [hsrc, wrap_of_lt (show i + 1 + div < 2 ^ 64 by omega),
        wrap_of_lt (show i + 1 < 2 ^ 64 by omega), load_eq_some hi1, hcur,
        store_eq_some _ hi, Option.bind_eq_bind, Option.some_bind]
      rw [hr]
      congr 3; omega
    · rw [hget j, getD_set]
      by_cases hj : i = j
      · subst hj
        rw [if_neg (by omega), if_pos ⟨rfl, hi⟩, if_pos (by omega)]
      · have hne : ¬(i = j ∧ i < d.length) := fun h => hj h.1
        simp only [hne, if_false]
        by_cases hj2 : i + 1 ≤ j ∧ j < i + 1 + k
        · rw [if_pos hj2, if_pos (by omega)]
        · rw [if_neg hj2, if_neg (by omega)]

theorem testBit_shr_word {x : Nat} (hx : x < 2 ^ 64) (mod b : Nat) :
    (x >>> mod).testBit b = (decide (mod + b < 64) && x.testBit (mod + b)) := by
  rw [Nat.testBit_shiftRight]
  by_cases h : mod + b < 64
  · rw [decide_eq_true h, Bool.true_and]
  · rw [decide_eq_false h, Bool.false_and, testBit_word_high hx (by omega)]

theorem testBit_wrap_shl (x rev b : Nat) :
    (wrap (x <<< rev)).testBit b = (decide (b < 64) && (decide (rev ≤ b) && x.testBit (b - rev))) := by
  unfold wrap
  rw [Nat.testBit_mod_two_pow, Nat.testBit_shiftLeft]

theorem all_lt_of_getD {m : List Nat} {B : Nat} (h : ∀ j, m.getD j 0 < B) : ∀ w ∈ m, w < B := by
  intro w hw
  obtain ⟨j, hj, rfl⟩ := List.mem_iff_getElem.mp hw
  have := h j
  rwa [List.getD_eq_getElem?_getD, List.getElem?_eq_getElem hj] at this

theorem shr_lt_word {x : Nat} (hx : x < 2 ^ 64) (k : Nat) : x >>> k < 2 ^ 64 := by
  rw [Nat.shiftRight_eq_div_pow]
  exact lt_of_le_of_lt (Nat.div_le_self _ _) hx

theorem wrap_lt (x : Nat) : wrap x < 2 ^ 64 := Nat.mod_lt _ (by decide)

/-- Word path of the right shift, run in place: bit `p` of the result, for `p`
below the new length `n`, is bit `p + shift` of the original block. -/
theorem do_rshift_spec (v : vec2) (hv : v.src = none) (n shift : Nat) (hn : 0 < n)
    (hcap : n + shift ≤ 64 * v.dst.length) (hlen : v.dst.length < 2 ^ 58)
    (hw : ∀ w ∈ v.dst, w < 2 ^ 64) :
    ∃ r, do_rshift v n shift = some r ∧ r.length = v.dst.length ∧
      (∀ p, p < n → bitAt r p = bitAt v.dst (p + shift)) ∧ (∀ w ∈ r, w < 2 ^ 64) := by
  by_cases h8 : shift % 8 = 0
  · obtain ⟨r, hr, hl, hb, hlt⟩ := byte_rshift_spec v hv n (shift / 8) (by omega) (by omega)
    refine ⟨r, by unfold do_rshift; rw [if_pos h8]; exact hr, hl, fun p hp => ?_, hlt hw⟩
    rw [hb p hp, show 8 * (shift / 8) = shift by omega]
  · have hsrc : ∀ x, v.source x = x := fun x => by unfold vec2.source; rw [hv]
    have hmod : shift % 64 < 64 := Nat.mod_lt _ (by decide)
    have hdd : div_down (wrap (n + shift)) = (n + shift - 1) / 64 := by
      unfold div_down
      rw [wrap_of_lt (by omega), usub_of_le (by omega) (by omega)]
    have hlen' : usub ((n + shift - 1) / 64) (shift / 64) = (n + shift - 1) / 64 - shift / 64 :=
      usub_of_le (by omega) (by omega)
    have hrev : wrap ((shift % 64 ^^^ (WBits - 1)) + 1) = 64 - shift % 64 := by
      rw [show WBits - 1 = 63 from rfl, xor_63 _ hmod, wrap_of_lt (by omega)]; omega
    obtain ⟨r, hr, hl, hget⟩ := do_rshift_loop_spec v hv v.dst (by omega) (shift / 64)
      (shift % 64) (64 - shift % 64) ((n + shift - 1) / 64 - shift / 64) 0 v.dst rfl
      (fun _ _ => rfl) (by omega)
    have hstore : (n + shift - 1) / 64 - shift / 64 < r.length := by omega
    refine ⟨r.set ((n + shift - 1) / 64 - shift / 64)
      (v.dst.getD (0 + ((n + shift - 1) / 64 - shift / 64) + shift / 64) 0 >>> (shift % 64)),
      ?_, by rw [List.length_set, hl], fun p hp => ?_, fun w hmem => ?_⟩
    · unfold do_rshift div_mod
      simp only [h8, if_false, hsrc, hdd, hlen', hrev, WBits,
        load_eq_some (show shift / 64 < v.dst.length by omega), Option.bind_eq_bind,
        Option.some_bind]
      rw [show v.dst.getD (shift / 64) 0 = v.dst.getD (0 + shift / 64) 0 by rw [Nat.zero_add], hr]
      simp only [Option.some_bind, store_eq_some _ hstore]
    · rw [bitAt_set _ _ _ _ hstore]
      have hx := getD_lt_word v.dst hw
      by_cases hj : p / 64 = (n + shift - 1) / 64 - shift / 64
      · rw [if_pos hj, testBit_shr_word (hx _), decide_eq_true (by omega), Bool.true_and]
        unfold bitAt
        congr 2 <;> omega
      · rw [if_neg hj]
        unfold bitAt
        rw [hget, if_pos (by omega), Nat.testBit_or, testBit_shr_word (hx _), testBit_wrap_shl,
          decide_eq_true (Nat.mod_lt p (by decide : 0 < 64)), Bool.true_and]
        by_cases hc : shift % 64 + p % 64 < 64
        · rw [decide_eq_true hc, Bool.true_and, decide_eq_false (by omega), Bool.false_and,
            Bool.or_false]
          congr 2 <;> omega
        · rw [decide_eq_false hc, Bool.false_and, Bool.false_or, decide_eq_true (by omega),
            Bool.true_and]
          congr 2 <;> omega
    · revert w hmem
      apply all_lt_of_getD
      intro j
      have hx := getD_lt_word v.dst hw
      rw [getD_set]
      split
      · exact shr_lt_word (hx _) _
      · rw [hget]
        split
        · exact Nat.or_lt_two_pow (shr_lt_word (hx _) _) (wrap_lt _)
        · exact hx _

/-- What `validate` establishes: the validation invariant at length `n`. -/
theorem validated_of_bits {s : dynamic_storage}
    (h : ∀ p, s.length % 64 ≠ 0 → p / 64 = s.length / 64 → s.length % 64 ≤ p % 64 →
      bitAt s.head p = false) : s.validated := by
  intro hm j hj hle
  have := h (64 * (s.length / 64) + j) hm (by omega) (by omega)
  rwa [bitAt_add _ _ _ hj] at this

/-- The member `operator >>=` for a shift amount below the size: it returns, the
size decreases by the amount, the buffer is kept, both invariants hold for the
result, and bit `p` of the result is bit `p + k` of the operand. -/
theorem shr_assign_spec (B : dynamic_bitset) (k : Nat) (hB : B.wf) (hk : k < B.length) :
    ∃ R, shr_assign B k = some R ∧ R.length = B.length - k ∧ R.buffer = B.buffer ∧
      R.wf ∧ R.validated ∧ ∀ p, p < B.length - k → bitAt R.head p = bitAt B.head (p + k) := by
  obtain ⟨b1, b2, b3, b4⟩ := hB
  have hsub : usub B.length k = B.length - k := usub_of_le (by omega) (by omega)
  obtain ⟨r, hr, hl, hbit, hlt⟩ := do_rshift_spec ⟨B.head, none⟩ rfl (B.length - k) k
    (by omega) (by show B.length - k + k ≤ 64 * B.head.length; omega)
    (by show B.head.length < 2 ^ 58; omega) b4
  simp only at hr hl hbit
  obtain ⟨r', hr', hl', hbit', hlt'⟩ := validate_spec r (B.length - k) (by omega)
  refine ⟨⟨r', B.buffer, B.length - k⟩, ?_, rfl, rfl, ⟨by show r'.length = B.buffer; omega,
    by show B.length - k ≤ 64 * B.buffer; omega, b3, hlt' hlt⟩, ?_, fun p hp => ?_⟩
  · unfold shr_assign
    simp only [hk, if_true, hsub, hr, hr', Option.bind_eq_bind, Option.some_bind]
  · apply validated_of_bits
    intro p hm h1 h2
    show bitAt r' p = false
    rw [hbit', if_pos ⟨hm, h1, h2⟩]
  · show bitAt r' p = bitAt B.head (p + k)
    rw [hbit', if_neg (by omega), hbit p hp]

/-- C2: for a storage `B` and a shift amount `k < size(B)`, byte-aligned or not,
`B >>= k` has size `size(B) - k` and its bit `i` is the old bit `i + k`, for
every `i` below the new size. -/
theorem C2_shift_right (B : dynamic_bitset) (k : Nat) (hB : B.wf) (hk : k < size B) :
    ∃ R, shr_assign B k = some R ∧ size R = size B - k ∧
      ∀ i, i < size R → ∃ b, test B (i + k) = some b ∧ test R i = some b := by
  obtain ⟨R, hR, hlen, -, hwf, -, hbit⟩ := shr_assign_spec B k hB hk
  refine ⟨R, hR, hlen, fun i hi => ⟨bitAt B.head (i + k), ?_, ?_⟩⟩
  · exact wf_test hB (by unfold size at hi hk; omega)
  · rw [wf_test hwf hi, hbit i (by unfold size at hi; omega)]

/-- C2 at a storage of 100 bits shifted by 67 (word path). -/
theorem C2_shift_right_witness :
    dynamic_storage.wf ⟨[2 ^ 64 - 1, 2 ^ 36 - 2 ^ 35 - 1], 2, 100⟩ ∧
    (67 < size ⟨[2 ^ 64 - 1, 2 ^ 36 - 2 ^ 35 - 1], 2, 100⟩) ∧
    ∃ R, shr_assign ⟨[2 ^ 64 - 1, 2 ^ 36 - 2 ^ 35 - 1], 2, 100⟩ 67 = some R ∧
      size R = size ⟨[2 ^ 64 - 1, 2 ^ 36 - 2 ^ 35 - 1], 2, 100⟩ - 67 ∧
      ∀ i, i < size R →
        ∃ b, test ⟨[2 ^ 64 - 1, 2 ^ 36 - 2 ^ 35 - 1], 2, 100⟩ (i + 67) = some b ∧
          test R i = some b :=
  ⟨by decide, by decide,
    C2_shift_right ⟨[2 ^ 64 - 1, 2 ^ 36 - 2 ^ 35 - 1], 2, 100⟩ 67 (by decide) (by decide)⟩

/-! ## Left shift -/

theorem bitAt_of_length_le (m : List Nat) (p : Nat) (h : m.length ≤ p / 64) :
    bitAt m p = false := by
  unfold bitAt
  rw [getD_of_length_le m _ h, Nat.zero_testBit]

theorem memset_spec (dst : List Nat) (v cnt : Nat) (h : cnt ≤ dst.length) :
    ∃ r, memset dst v cnt = some r ∧ r.length = dst.length ∧
      (∀ q, r.getD q 0 = if q < cnt then v % 256 else dst.getD q 0) ∧
      ((∀ x ∈ dst, x < 256) → ∀ x ∈ r, x < 256) := by
  refine ⟨_, by unfold memset; rw [if_pos h], ?_, fun q => ?_, fun hd x hx => ?_⟩
  · simp only [List.length_append, List.length_replicate, List.length_drop]; omega
  · simp only [List.getD_eq_getElem?_getD]
    by_cases hq : q < cnt
    · rw [if_pos hq, List.getElem?_append_left (by simp; omega), List.getElem?_replicate,
        if_pos hq]
      rfl
    · rw [if_neg hq, List.getElem?_append_right (by simp; omega), List.getElem?_drop]
      simp only [List.length_replicate]
      congr 2; omega
  · simp only [List.mem_append] at hx
    rcases hx with hx | hx
    · rw [List.eq_of_mem_replicate hx]; exact Nat.mod_lt _ (by decide)
    · exact hd x (List.mem_of_mem_drop hx)

theorem memset_words_spec (dst : List Nat) (v n : Nat) (h : n ≤ dst.length)
    (hn : n * 8 < 2 ^ 64) :
    ∃ r, memset_words dst v n = some r ∧ r.length = dst.length ∧
      (∀ p, bitAt r p = if p < 64 * n then (v % 256).testBit (p % 8) else bitAt dst p) ∧
      ∀ w ∈ r, w < 2 ^ 64 := by
  obtain ⟨raw, hraw, hlen, hget, hlt⟩ := memset_spec (toBytes dst) v (n * 8)
    (by rw [toBytes_length]; omega)
  have hlt' := hlt (toBytes_lt _)
  rw [toBytes_length] at hlen
  refine ⟨ofBytes raw, by unfold memset_words; rw [wrap_of_lt hn, hraw]; rfl,
    by rw [ofBytes_length, hlen]; omega, fun p => ?_, ofBytes_lt raw hlt'⟩
  rw [bitAt_ofBytes raw hlt']
  by_cases hp : p / 64 < raw.length / 8
  · rw [decide_eq_true hp, Bool.true_and]
    unfold byteBit
    rw [hget]
    by_cases hq : p < 64 * n
    · rw [if_pos (by omega), if_pos hq]
    · rw [if_neg (by omega), if_neg hq, ← byteBit_toBytes]
      rfl
  · rw [decide_eq_false hp, Bool.false_and, if_neg (by omega),
      bitAt_of_length_le dst p (by omega)]

/-- Byte path of the left shift: `S` is the content of the source block. -/
theorem byte_lshift_spec (v : vec2) (n count : Nat) (hn : n + 7 < 2 ^ 64)
    (hc : count ≤ (n + 7) / 8) (hd : (n + 7) / 8 ≤ 8 * v.dst.length)
    (hs : (n + 7) / 8 - count ≤ 8 * (v.source v.dst).length)
    (h0 : count = 0 → v.src = none) :
    ∃ r, byte_lshift v n count = some r ∧ r.length = v.dst.length ∧
      (∀ p, p < 8 * ((n + 7) / 8) →
        bitAt r p = if p < 8 * count then false else bitAt (v.source v.dst) (p - 8 * count)) ∧
      ((∀ w ∈ v.dst, w < 2 ^ 64) → ∀ w ∈ r, w < 2 ^ 64) := by
  unfold byte_lshift
  by_cases hc0 : count = 0
  · have hsrc : v.source v.dst = v.dst := by unfold vec2.source; rw [h0 hc0]
    subst hc0
    exact ⟨v.dst, by simp, rfl, fun p _ => by rw [if_neg (by omega), hsrc]; rfl, fun hw => hw⟩
  · have hsub : usub ((n + 7) / 8) count = (n + 7) / 8 - count := usub_of_le hc (by omega)
    obtain ⟨raw, hraw, hlen, hget, hlt⟩ := memmove_spec (toBytes v.dst) count
      (toBytes (v.source v.dst)) 0 ((n + 7) / 8 - count)
      (by rw [toBytes_length]; omega) (by rw [toBytes_length]; omega)
    have hlt' := hlt (toBytes_lt _) (toBytes_lt _)
    obtain ⟨raw2, hraw2, hlen2, hget2, hlt2⟩ := memset_spec raw 0 count
      (by rw [hlen, toBytes_length]; omega)
    have hlt2' := hlt2 hlt'
    rw [toBytes_length] at hlen
    refine ⟨ofBytes raw2, ?_, by rw [ofBytes_length, hlen2, hlen]; omega, fun p hp => ?_,
      fun _ => ofBytes_lt raw2 hlt2'⟩
    · simp only [hc0, if_false, show n + 8 - 1 = n + 7 from rfl, wrap_of_lt hn, hsub, hraw,
        hraw2, Option.bind_eq_bind, Option.some_bind]
    · rw [bitAt_ofBytes raw2 hlt2', decide_eq_true (by rw [hlen2, hlen]; omega), Bool.true_and]
      by_cases hq : p < 8 * count
      · rw [if_pos hq]
        unfold byteBit
        rw [hget2, if_pos (by omega), Nat.zero_mod, Nat.zero_testBit]
      · rw [if_neg hq, ← byteBit_toBytes]
        apply byteBit_eq_of_getD
        · rw [hget2, if_neg (by omega), hget, if_pos (by omega)]
          congr 1; omega
        · omega

theorem agree_load {v : vec2} {S d : List Nat} {i j : Nat} (h : agree v S d i) (hj : j < i)
    (hS : j < S.length) : load (v.source d) j = some (S.getD j 0) := by
  rcases h with h | ⟨h, hl, hg⟩
  · simp only [vec2.source, h]; exact load_eq_some hS
  · simp only [vec2.source, h]
    rw [load_eq_some (by omega), hg j hj]

theorem agree_set {v : vec2} {S d : List Nat} {i i' x : Nat} (h : agree v S d i) (hi : i' ≤ i) :
    agree v S (d.set i x) i' := by
  rcases h with h | ⟨h, hl, hg⟩
  · exact Or.inl h
  · refine Or.inr ⟨h, by rw [List.length_set, hl], fun j hj => ?_⟩
    rw [getD_set, if_neg (by omega)]
    exact hg j (by omega)

/-- The loop of the left shift with `k` iterations left, at index `div + k`, on a
source block of content `S`. -/
theorem do_lshift_loop_spec (v : vec2) (S : List Nat) (div mod rev : Nat) :
    ∀ (k : Nat) (d : List Nat), agree v S d (div + k) → div + k < d.length →
      div + k < 2 ^ 64 → k ≤ S.length →
      ∃ r, do_lshift_loop v div mod rev k (div + k) (S.getD k 0) d = some (S.getD 0 0, r) ∧
        r.length = d.length ∧
        ∀ j, r.getD j 0 =
          if div < j ∧ j ≤ div + k
          then wrap (S.getD (j - div) 0 <<< mod) ||| S.getD (j - 1 - div) 0 >>> rev
          else d.getD j 0
  | 0, d, _, _, _, _ => ⟨d, rfl, rfl, fun j => by rw [if_neg (by omega)]⟩
  | k + 1, d, hag, hd, hlt, hS => by
    have h1 : usub (div + (k + 1)) 1 = div + k := by
      rw [usub_of_le (by omega) hlt]; omega
    have h2 : usub (div + k) div = k := by
      rw [usub_of_le (by omega) (by omega)]; omega
    obtain ⟨r, hr, hlen, hget⟩ := do_lshift_loop_spec v S div mod rev k
      (d.set (div + (k + 1)) (wrap (S.getD (k + 1) 0 <<< mod) ||| S.getD k 0 >>> rev))
      (agree_set hag (by omega)) (by rw [List.length_set]; omega) (by omega) (by omega)
    refine ⟨r, ?_, by rw [hlen, List.length_set], fun j => ?_⟩
    · unfold do_lshift_loop
      simp only [h1, h2, agree_load hag (show k < div + (k + 1) by omega) (by omega),
        store_eq_some _ hd, Option.bind_eq_bind, Option.some_bind]
      exact hr
    · rw [hget j, getD_set]
      by_cases hj : div + (k + 1) = j
      · subst hj
        rw [if_neg (by omega), if_pos ⟨rfl, hd⟩, if_pos (by omega),
          show div + (k + 1) - div = k + 1 by omega, show div + (k + 1) - 1 - div = k by omega]
      · have hne : ¬(div + (k + 1) = j ∧ div + (k + 1) < d.length) := fun h => hj h.1
        simp only [hne, if_false]
        by_cases hj2 : div < j ∧ j ≤ div + k
        · rw [if_pos hj2, if_pos (by omega)]
        · rw [if_neg hj2, if_neg (by omega)]

theorem rev_bits_eq {m : Nat} (h : m < 64) : rev_bits m = 64 - m := by
  unfold rev_bits
  rw [show WBits - 1 = 63 from rfl, Nat.xor_comm, xor_63 m h, wrap_of_lt (by omega)]
  omega

theorem div_down_eq {n : Nat} (h0 : 0 < n) (h : n < 2 ^ 64) : div_down n = (n - 1) / 64 := by
  unfold div_down
  rw [usub_of_le (by omega) h]

/-- Left shift without validation, from a source block of content `S` holding the
`n - sh` old bits to a destination block holding `n` bits: provided the first
source read is inside the source block, bit `p < n` of the result is 0 below `sh`
and bit `p - sh` of the source from `sh` on. -/
theorem do_lshift_spec (v : vec2) (S : List Nat) (n sh : Nat)
    (hS : v.src = some S ∨ (v.src = none ∧ v.dst = S)) (hsh : sh < n) (hn : n + 63 < 2 ^ 64)
    (hdst : (n + 63) / 64 ≤ v.dst.length) (hlen : v.dst.length < 2 ^ 58)
    (hSlen : n - sh ≤ 64 * S.length) (hSw : ∀ w ∈ S, w < 2 ^ 64)
    (hin : sh % 8 = 0 ∨ (n - 1) / 64 - sh / 64 < S.length) (h0 : sh = 0 → v.src = none) :
    ∃ r, do_lshift v n sh = some r ∧ r.length = v.dst.length ∧
      (∀ p, p < n → bitAt r p = if p < sh then false else bitAt S (p - sh)) ∧
      ((∀ w ∈ v.dst, w < 2 ^ 64) → ∀ w ∈ r, w < 2 ^ 64) := by
  have hsrc : v.source v.dst = S := by
    rcases hS with h | ⟨h, h'⟩
    · simp only [vec2.source, h]
    · simp only [vec2.source, h, h']
  have hag : ∀ i, agree v S v.dst i := fun i => by
    rcases hS with h | ⟨h, h'⟩
    · exact Or.inl h
    · exact Or.inr ⟨h, by rw [h'], fun j _ => by rw [h']⟩
  by_cases h8 : sh % 8 = 0
  · obtain ⟨r, hr, hl, hb, hlt⟩ := byte_lshift_spec v n (sh / 8) (by omega) (by omega)
      (by omega) (by rw [hsrc]; omega) (fun h => h0 (by omega))
    refine ⟨r, by unfold do_lshift; rw [if_pos h8]; exact hr, hl, fun p hp => ?_, hlt⟩
    rw [hb p (by omega), hsrc, show 8 * (sh / 8) = sh by omega]
  · have hK : (n - 1) / 64 - sh / 64 < S.length := by
      rcases hin with h | h
      · exact absurd h h8
      · exact h
    have hmod : sh % 64 < 64 := Nat.mod_lt _ (by decide)
    have hmod0 : sh % 64 ≠ 0 := by omega
    have hdd : div_down n = sh / 64 + ((n - 1) / 64 - sh / 64) := by
      rw [div_down_eq (by omega) (by omega)]; omega
    have hus : usub (sh / 64 + ((n - 1) / 64 - sh / 64)) (sh / 64) = (n - 1) / 64 - sh / 64 := by
      rw [usub_of_le (by omega) (by omega)]; omega
    obtain ⟨r1, hr1, hl1, hg1⟩ := do_lshift_loop_spec v S (sh / 64) (sh % 64) (64 - sh % 64)
      ((n - 1) / 64 - sh / 64) v.dst (hag _) (by omega) (by omega) (by omega)
    have hst : sh / 64 < r1.length := by omega
    obtain ⟨r3, hr3, hl3, hb3, hw3⟩ := memset_words_spec
      (r1.set (sh / 64) (wrap (S.getD 0 0 <<< (sh % 64)))) 0 (sh / 64)
      (by rw [List.length_set]; omega) (by omega)
    rw [List.length_set] at hl3
    refine ⟨r3, ?_, by omega, fun p hp => ?_, fun _ => hw3⟩
    · unfold do_lshift div_mod
      simp only [h8, if_false, WBits, rev_bits_eq hmod, hdd, hus, hsrc, load_eq_some hK,
        Option.bind_eq_bind, Option.some_bind, hr1, store_eq_some _ hst]
      exact hr3
    · have hx := getD_lt_word S hSw
      rw [hb3]
      by_cases hz : p < 64 * (sh / 64)
      · rw [if_pos hz, if_pos (by omega), Nat.zero_mod, Nat.zero_testBit]
      · rw [if_neg hz, bitAt_set _ _ _ _ hst]
        by_cases hj : p / 64 = sh / 64
        · rw [if_pos hj, testBit_wrap_shl, decide_eq_true (Nat.mod_lt p (by decide : 0 < 64)),
            Bool.true_and]
          by_cases hps : p < sh
          · rw [if_pos hps, decide_eq_false (by omega), Bool.false_and]
          · rw [if_neg hps, decide_eq_true (by omega), Bool.true_and]
            unfold bitAt
            rw [show (p - sh) / 64 = 0 by omega, show (p - sh) % 64 = p % 64 - sh % 64 by omega]
        · rw [if_neg hj, if_neg (by omega)]
          unfold bitAt
          rw [hg1, if_pos (by omega), Nat.testBit_or, testBit_wrap_shl, testBit_shr_word (hx _),
            decide_eq_true (Nat.mod_lt p (by decide : 0 < 64)), Bool.true_and]
          by_cases hc : sh % 64 ≤ p % 64
          · rw [decide_eq_true hc, Bool.true_and, decide_eq_false (by omega), Bool.false_and,
              Bool.or_false, show (p - sh) / 64 = p / 64 - sh / 64 by omega,
              show (p - sh) % 64 = p % 64 - sh % 64 by omega]
          · rw [decide_eq_false hc, Bool.false_and, Bool.false_or, decide_eq_true (by omega),
              Bool.true_and, show (p - sh) / 64 = p / 64 - 1 - sh / 64 by omega,
              show (p - sh) % 64 = 64 - sh % 64 + p % 64 by omega]

theorem alloc_none_lt (g : Nat → Nat) (n : Nat) : ∀ w ∈ alloc_none g n, w < 2 ^ 64 := by
  intro w hw
  simp only [alloc_none, List.mem_map, List.mem_range] at hw
  obtain ⟨i, -, rfl⟩ := hw
  exact wrap_lt _

/-- The member `operator <<=` on a non-empty storage, when the first source read of
the word path is inside the old block (or the amount is a multiple of 8): it
returns, the size grows by `k`, both invariants hold for the result, the low `k`
bits are 0 and bit `p + k` is the old bit `p`. -/
theorem shl_assign_spec (g : Nat → Nat) (B : dynamic_bitset) (k : Nat) (hB : B.wf)
    (hne : B.length ≠ 0) (hfit : (B.length + k + 63) / 64 + B.buffer < 2 ^ 58)
    (hin : k % 8 = 0 ∨ (B.length + k - 1) / 64 - k / 64 < B.buffer) :
    ∃ R, shl_assign g B k = some R ∧ R.length = B.length + k ∧ R.wf ∧ R.validated ∧
      (R.buffer = if B.buffer < (B.length + k + 63) / 64
        then (B.length + k + 63) / 64 + B.buffer else B.buffer) ∧
      (∀ p, p < k → bitAt R.head p = false) ∧
      (∀ p, p < B.length → bitAt R.head (p + k) = bitAt B.head p) := by
  obtain ⟨b1, b2, b3, b4⟩ := hB
  have hw : wrap (B.length + k) = B.length + k := wrap_of_lt (by omega)
  have hwc : div_ceil (B.length + k) = (B.length + k + 63) / 64 := div_ceil_eq (by omega)
  have hnb : wrap ((B.length + k + 63) / 64 + B.buffer) = (B.length + k + 63) / 64 + B.buffer :=
    wrap_of_lt (by omega)
  by_cases hg : B.buffer < (B.length + k + 63) / 64
  · obtain ⟨r, hr, hl, hbit, hlt⟩ := do_lshift_spec
      ⟨alloc_none g ((B.length + k + 63) / 64 + B.buffer), some B.head⟩ B.head (B.length + k) k
      (Or.inl rfl) (by omega) (by omega) (by simp only [alloc_none_length]; omega)
      (by simp only [alloc_none_length]; omega) (by omega) b4 (by omega)
      (fun h => by subst h; simp only [Nat.add_zero] at hg; omega)
    simp only [alloc_none_length] at hl
    obtain ⟨r', hr', hl', hbit', hlt'⟩ := validate_spec r (B.length + k) (by omega)
    refine ⟨⟨r', (B.length + k + 63) / 64 + B.buffer, B.length + k⟩, ?_, rfl,
      ⟨by show r'.length = (B.length + k + 63) / 64 + B.buffer; omega,
        by show B.length + k ≤ 64 * ((B.length + k + 63) / 64 + B.buffer); omega, hfit,
        hlt' (hlt (alloc_none_lt g _))⟩, ?_, by rw [if_pos hg], fun p hp => ?_, fun p hp => ?_⟩
    · unfold shl_assign
      simp only [hne, if_false, hw, dynamic_storage.word_count, dynamic_storage.capacity, hwc,
        hg, decide_True, if_true, hnb, hr, hr', Option.bind_eq_bind, Option.some_bind]
    · apply validated_of_bits
      intro p hm h1 h2
      show bitAt r' p = false
      rw [hbit', if_pos ⟨hm, h1, h2⟩]
    · show bitAt r' p = false
      rw [hbit', if_neg (by omega), hbit p (by omega), if_pos hp]
    · show bitAt r' (p + k) = bitAt B.head p
      rw [hbit', if_neg (by omega), hbit (p + k) (by omega), if_neg (by omega),
        Nat.add_sub_cancel]
  · obtain ⟨r, hr, hl, hbit, hlt⟩ := do_lshift_spec ⟨B.head, none⟩ B.head (B.length + k) k
      (Or.inr ⟨rfl, rfl⟩) (by omega) (by omega) (by show _ ≤ B.head.length; omega)
      (by show B.head.length < _; omega) (by omega) b4 (by omega) (fun _ => rfl)
    simp only at hl
    obtain ⟨r', hr', hl', hbit', hlt'⟩ := validate_spec r (B.length + k) (by omega)
    refine ⟨⟨r', B.buffer, B.length + k⟩, ?_, rfl,
      ⟨by show r'.length = B.buffer; omega, by show B.length + k ≤ 64 * B.buffer; omega, b3,
        hlt' (hlt b4)⟩, ?_, by rw [if_neg hg], fun p hp => ?_, fun p hp => ?_⟩
    · unfold shl_assign
      simp only [hne, if_false, hw, dynamic_storage.word_count, dynamic_storage.capacity, hwc,
        hg, decide_False, Bool.false_eq_true, if_false, hr, hr', Option.bind_eq_bind,
        Option.some_bind]
    · apply validated_of_bits
      intro p hm h1 h2
      show bitAt r' p = false
      rw [hbit', if_pos ⟨hm, h1, h2⟩]
    · show bitAt r' p = false
      rw [hbit', if_neg (by omega), hbit p (by omega), if_pos hp]
    · show bitAt r' (p + k) = bitAt B.head p
      rw [hbit', if_neg (by omega), hbit (p + k) (by omega), if_neg (by omega),
        Nat.add_sub_cancel]

theorem load_eq_none {m : List Nat} {i : Nat} (h : m.length ≤ i) : load m i = none := by
  unfold load; exact List.getElem?_eq_none h

/-- The member `operator <<=` has no defined result when the amount is not a
multiple of 8 and the index `__len - __div` of the first source read is not below
the capacity. -/
theorem shl_assign_undefined (g : Nat → Nat) (B : dynamic_bitset) (k : Nat) (hB : B.wf)
    (hne : B.length ≠ 0) (hfit : (B.length + k + 63) / 64 + B.buffer < 2 ^ 58)
    (h8 : k % 8 ≠ 0) (hout : B.buffer ≤ (B.length + k - 1) / 64 - k / 64) :
    shl_assign g B k = none := by
  obtain ⟨b1, b2, b3, b4⟩ := hB
  have hw : wrap (B.length + k) = B.length + k := wrap_of_lt (by omega)
  have hwc : div_ceil (B.length + k) = (B.length + k + 63) / 64 := div_ceil_eq (by omega)
  have hg : B.buffer < (B.length + k + 63) / 64 := by omega
  have hdd : div_down (B.length + k) = (B.length + k - 1) / 64 :=
    div_down_eq (by omega) (by omega)
  have hus : usub ((B.length + k - 1) / 64) (k / 64) = (B.length + k - 1) / 64 - k / 64 :=
    usub_of_le (by omega) (by omega)
  have hld : load B.head ((B.length + k - 1) / 64 - k / 64) = none := load_eq_none (by omega)
  unfold shl_assign
  simp only [hne, if_false, hw, dynamic_storage.word_count, dynamic_storage.capacity, hwc,
    hg, decide_True, if_true]
  unfold do_lshift div_mod
  simp only [h8, if_false, WBits, hdd, hus, vec2.source, hld, Option.bind_eq_bind,
    Option.none_bind]

/-- Round trip on a non-empty storage, when the first source read of the left
shift is inside the old block: `<<= k` then `>>= k` gives back the size and the
bits. -/
theorem round_trip_spec (g : Nat → Nat) (B : dynamic_bitset) (k : Nat) (hB : B.wf)
    (hne : B.length ≠ 0) (hfit : (B.length + k + 63) / 64 + B.buffer < 2 ^ 58)
    (hin : k % 8 = 0 ∨ (B.length + k - 1) / 64 - k / 64 < B.buffer) :
    ∃ S R, shl_assign g B k = some S ∧ shr_assign S k = some R ∧ size R = size B ∧
      ∀ i, i < size B → ∃ b, test B i = some b ∧ test R i = some b := by
  obtain ⟨S, hS, hSl, hSwf, -, -, -, hSb⟩ := shl_assign_spec g B k hB hne hfit hin
  obtain ⟨R, hR, hRl, -, hRwf, -, hRb⟩ := shr_assign_spec S k hSwf (by omega)
  have hlen : R.length = B.length := by omega
  refine ⟨S, R, hS, hR, hlen, fun i hi => ⟨bitAt B.head i, wf_test hB hi, ?_⟩⟩
  unfold size at hi
  rw [wf_test hRwf (by omega), hRb i (by omega), hSb i hi]

/-! ## `all()` -/

theorem bit_not_eq_zero {w : Nat} (hw : w < 2 ^ 64) : bit_not w = 0 ↔ w = 2 ^ 64 - 1 := by
  unfold bit_not
  rw [Nat.mod_eq_of_lt hw]
  omega

theorem eq_mask_iff {w m : Nat} (hw : w < 2 ^ 64) (hm : m ≤ 64) :
    w = 2 ^ m - 1 ↔ ∀ b, b < 64 → w.testBit b = decide (b < m) := by
  constructor
  · intro h b _
    rw [h, Nat.testBit_two_pow_sub_one]
  · intro h
    apply Nat.eq_of_testBit_eq
    intro b
    rw [Nat.testBit_two_pow_sub_one]
    by_cases hb : b < 64
    · exact h b hb
    · rw [testBit_word_high hw (by omega), decide_eq_false (by omega)]

/-- The loop of `all()` over `k` whole words from index `i`. -/
theorem all_loop_spec (m : List Nat) (hm : ∀ w ∈ m, w < 2 ^ 64) :
    ∀ (k i : Nat), i + k ≤ m.length →
      ∃ r, all_loop m k i = some r ∧
        (r = true ↔ ∀ p, 64 * i ≤ p → p < 64 * (i + k) → bitAt m p = true)
  | 0, i, _ => ⟨true, rfl, by simp only [true_iff]; intro p h1 h2; omega⟩
  | k + 1, i, h => by
    have hi : i < m.length := by omega
    have hx := getD_lt_word m hm i
    obtain ⟨r, hr, hiff⟩ := all_loop_spec m hm k (i + 1) (by omega)
    unfold all_loop
    simp only [load_eq_some hi, Option.bind_eq_bind, Option.some_bind, ne_eq]
    by_cases hz : bit_not (m.getD i 0) = 0
    · refine ⟨r, by simp only [hz, not_true_eq_false, if_false]; exact hr, ?_⟩
      have hall := (eq_mask_iff hx (le_refl 64)).mp ((bit_not_eq_zero hx).mp hz)
      rw [hiff]
      constructor
      · intro h' p h1 h2
        by_cases hp : 64 * (i + 1) ≤ p
        · exact h' p hp (by omega)
        · have := hall (p % 64) (Nat.mod_lt _ (by decide))
          unfold bitAt
          rw [show p / 64 = i by omega, this]
          exact decide_eq_true (Nat.mod_lt _ (by decide))
      · intro h' p h1 h2
        exact h' p (by omega) (by omega)
    · refine ⟨false, by simp only [hz, not_false_eq_true, if_true], ?_⟩
      simp only [Bool.false_eq_true, false_iff]
      intro h'
      apply hz
      rw [bit_not_eq_zero hx, eq_mask_iff hx (le_refl 64)]
      intro b hb
      have := h' (64 * i + b) (by omega) (by omega)
      rw [bitAt_add _ _ _ hb] at this
      rw [this, decide_eq_true hb]

/-- When the size is not a multiple of 64, `all()` returns true exactly when
every bit below the size is set. -/
theorem all_spec_partial (s : dynamic_bitset) (hwf : s.wf) (hv : s.validated)
    (hm : s.length % 64 ≠ 0) :
    ∃ r, all s = some r ∧ (r = true ↔ ∀ i, i < size s → test s i = some true) := by
  have hwf' := hwf
  obtain ⟨b1, b2, b3, b4⟩ := hwf'
  obtain ⟨f, hf, hiff⟩ := all_loop_spec s.head b4 (s.length / 64) 0 (by omega)
  have hd : s.length / 64 < s.head.length := by omega
  have hx := getD_lt_word s.head b4 (s.length / 64)
  have htest : ∀ i, i < s.length → (test s i = some true ↔ bitAt s.head i = true) := by
    intro i hi
    rw [wf_test hwf hi]
    simp
  unfold all div_mod
  simp only [WBits, hf, Option.bind_eq_bind, Option.some_bind, load_eq_some hd]
  cases f with
  | false =>
    refine ⟨false, by simp, ?_⟩
    simp only [Bool.false_eq_true, false_iff]
    intro h'
    have : (false = true) := hiff.mpr (fun p _ h2 => (htest p (by omega)).mp (h' p (by unfold size; omega)))
    exact Bool.noConfusion this
  | true =>
    have hfull := hiff.mp rfl
    refine ⟨s.head.getD (s.length / 64) 0 == mask_low (s.length % 64), by simp, ?_⟩
    rw [beq_iff_eq, mask_low_eq (Nat.mod_lt _ (by decide)),
      eq_mask_iff hx (le_of_lt (Nat.mod_lt _ (by decide)))]
    constructor
    · intro h' i hi
      unfold size at hi
      rw [htest i hi]
      by_cases hp : i < 64 * (s.length / 64)
      · exact hfull i (by omega) (by omega)
      · have := h' (i % 64) (Nat.mod_lt _ (by decide))
        unfold bitAt
        rw [show i / 64 = s.length / 64 by omega, this]
        exact decide_eq_true (by omega)
    · intro h' b hb
      by_cases hbm : b < s.length % 64
      · have := (htest (64 * (s.length / 64) + b) (by omega)).mp
          (h' _ (by unfold size; omega))
        rw [bitAt_add _ _ _ hb] at this
        rw [this, decide_eq_true hbm]
      · rw [hv hm b hb (by omega), decide_eq_false hbm]

/-! ## Bound-checked access -/

theorem mask_pos_eq {m : Nat} (h : m < 64) : mask_pos m = 2 ^ m := by
  unfold mask_pos
  rw [Nat.shiftLeft_eq, Nat.one_mul, wrap_of_lt (Nat.pow_lt_pow_right (by decide) h)]

theorem and_mask_pos_ne_zero (w : Nat) {m : Nat} (h : m < 64) :
    (w &&& mask_pos m != 0) = w.testBit m := by
  rw [mask_pos_eq h, Nat.and_comm, Nat.two_pow_and]
  cases hb : w.testBit m
  · simp
  · simp only [Bool.toNat_true, Nat.mul_one, bne_iff_ne, ne_eq]
    exact Nat.ne_of_gt (Nat.pos_pow_of_pos _ (by decide))

theorem range_check_error (s : dynamic_bitset) (i : Nat) (h : size s ≤ i) :
    range_check s i = Except.error error.out_of_range := by
  unfold range_check
  rw [if_pos (by unfold size at h; exact h)]

theorem range_check_ok (s : dynamic_bitset) (i : Nat) (h : i < size s) :
    range_check s i = Except.ok () := by
  unfold range_check
  rw [if_neg (by unfold size at h; omega)]

/-- Reading the reference made by `operator []` gives `test`. -/
theorem index_to_bool (s : dynamic_bitset) (i : Nat) :
    (index s i).to_bool s.head = test s i := by
  unfold index reference.to_bool reference.make test div_mod
  simp only [WBits, Option.bind_eq_bind]
  cases h : load s.head (i / 64) with
  | none => rfl
  | some w =>
    simp only [Option.some_bind, Option.some.injEq]
    rw [and_mask_pos_ne_zero w (Nat.mod_lt _ (by decide)), Nat.testBit, Nat.and_comm]

/-- C11: `at(i)` raises the out-of-range error exactly when `i >= size()`; when
`i < size()` it returns the value of `test(i)`, in both overloads (the reference
returned by the non-const overload reads as `test(i)`).  The call only reads the
bitset.  In particular `at(size())` fails and, on a non-empty bitset,
`at(size() - 1)` succeeds. -/
theorem C11_at (s : dynamic_bitset) (i : Nat) (hwf : s.wf) :
    (at_const s i = some (Except.error error.out_of_range) ↔ size s ≤ i) ∧
    (at_ref s i = Except.error error.out_of_range ↔ size s ≤ i) ∧
    (i < size s → ∃ b, test s i = some b ∧ at_const s i = some (Except.ok b) ∧
      ∃ r, at_ref s i = Except.ok r ∧ r.to_bool s.head = some b) ∧
    at_const s (size s) = some (Except.error error.out_of_range) ∧
    (size s ≠ 0 → ∃ b, at_const s (size s - 1) = some (Except.ok b)) := by
  have hok : ∀ j, j < size s → ∃ b, test s j = some b ∧ at_const s j = some (Except.ok b) ∧
      ∃ r, at_ref s j = Except.ok r ∧ r.to_bool s.head = some b := by
    intro j hj
    have ht := wf_test hwf (show j < s.length from hj)
    refine ⟨bitAt s.head j, ht, ?_, index s j, ?_, ?_⟩
    · unfold at_const; rw [range_check_ok s j hj, ht]; rfl
    · unfold at_ref; rw [range_check_ok s j hj]
    · rw [index_to_bool, ht]
  refine ⟨⟨fun h => ?_, fun h => ?_⟩, ⟨fun h => ?_, fun h => ?_⟩, hok i, ?_, fun hne => ?_⟩
  · by_contra hlt
    obtain ⟨b, -, hb, -⟩ := hok i (by omega)
    rw [hb] at h
    cases h
  · unfold at_const; rw [range_check_error s i h]
  · by_contra hlt
    obtain ⟨b, -, -, r, hr, -⟩ := hok i (by omega)
    rw [hr] at h
    cases h
  · unfold at_ref; rw [range_check_error s i h]
  · unfold at_const; rw [range_check_error s _ (le_refl _)]
  · obtain ⟨b, -, hb, -⟩ := hok (size s - 1) (by omega)
    exact ⟨b, hb⟩

/-- C11 at a bitset of 5 bits `0,1,1,0,1`: `at(4)` gives true, `at(5)` throws. -/
theorem C11_at_witness :
    dynamic_storage.wf ⟨[22], 1, 5⟩ ∧
    at_const ⟨[22], 1, 5⟩ 4 = some (Except.ok true) ∧
    at_const ⟨[22], 1, 5⟩ 5 = some (Except.error error.out_of_range) ∧
    ((at_const ⟨[22], 1, 5⟩ 4 = some (Except.error error.out_of_range) ↔
        size ⟨[22], 1, 5⟩ ≤ 4) ∧
      (at_ref ⟨[22], 1, 5⟩ 4 = Except.error error.out_of_range ↔ size ⟨[22], 1, 5⟩ ≤ 4) ∧
      (4 < size ⟨[22], 1, 5⟩ → ∃ b, test ⟨[22], 1, 5⟩ 4 = some b ∧
        at_const ⟨[22], 1, 5⟩ 4 = some (Except.ok b) ∧
        ∃ r, at_ref ⟨[22], 1, 5⟩ 4 = Except.ok r ∧ r.to_bool [22] = some b) ∧
      at_const ⟨[22], 1, 5⟩ (size ⟨[22], 1, 5⟩) = some (Except.error error.out_of_range) ∧
      (size ⟨[22], 1, 5⟩ ≠ 0 →
        ∃ b, at_const ⟨[22], 1, 5⟩ (size ⟨[22], 1, 5⟩ - 1) = some (Except.ok b))) :=
  ⟨by decide, rfl, rfl, C11_at ⟨[22], 1, 5⟩ 4 (by decide)⟩

/-! ## Fill operations: `assign`, the filling constructor, `set()` -/

theorem testBit_neg_byte (x : Bool) (c : Nat) (hc : c < 8) :
    (neg_byte x % 256).testBit c = x := by
  have h1 : ∀ c, c < 8 → (255 % 256 : Nat).testBit c = true := by decide
  cases x
  · simp [neg_byte]
  · simp only [neg_byte, if_true]; exact h1 c hc

/-- The filling step shared by `assign` and the filling constructor: `memset` of
the first `ceil(n / 64)` words of the block `H`, then `validate` when the bit is
1.  The result has `n` bits equal to `x` and satisfies the validation
invariant. -/
theorem fill_spec (H : List Nat) (n : Nat) (x : Bool) (hH : (n + 63) / 64 ≤ H.length)
    (hlen : H.length < 2 ^ 58) :
    ∃ r1 r, memset_words H (neg_byte x) ((n + 63) / 64) = some r1 ∧
      (if x = true then validate r1 n else some r1) = some r ∧
      r.length = H.length ∧ (∀ w ∈ r, w < 2 ^ 64) ∧ (∀ p, p < n → bitAt r p = x) ∧
      (∀ p, n % 64 ≠ 0 → p / 64 = n / 64 → n % 64 ≤ p % 64 → bitAt r p = false) := by
  obtain ⟨r1, hr1, hl1, hb1, hw1⟩ := memset_words_spec H (neg_byte x) ((n + 63) / 64) hH
    (by omega)
  cases x with
  | false =>
    refine ⟨r1, r1, hr1, by simp only [Bool.false_eq_true, if_false], hl1, hw1,
      fun p hp => ?_, fun p hm h1 h2 => ?_⟩
    · rw [hb1, if_pos (by omega), testBit_neg_byte _ _ (Nat.mod_lt _ (by decide))]
    · rw [hb1, if_pos (by omega), testBit_neg_byte _ _ (Nat.mod_lt _ (by decide))]
  | true =>
    obtain ⟨r2, hr2, hl2, hb2, hw2⟩ := validate_spec r1 n (by omega)
    refine ⟨r1, r2, hr1, by simp only [if_true, hr2], by omega, hw2 hw1,
      fun p hp => ?_, fun p hm h1 h2 => ?_⟩
    · rw [hb2, if_neg (by omega), hb1, if_pos (by omega),
        testBit_neg_byte _ _ (Nat.mod_lt _ (by decide))]
    · rw [hb2, if_pos ⟨hm, h1, h2⟩]

theorem fill_bind {α : Type} (x : Bool) (r1 r : List Nat) (n : Nat) (F : List Nat → Option α)
    (h : (if x = true then validate r1 n else some r1) = some r) :
    (if x = true then (validate r1 n).bind F else F r1) = F r := by
  cases x
  · simp only [Bool.false_eq_true, if_false] at h ⊢
    cases h
    rfl
  · simp only [if_true] at h ⊢
    rw [h]
    rfl

/-- The member `assign(n, x)` on a storage `s`, when a block for `n` bits beside
the current block fits in the address space. -/
theorem assign_spec (g : Nat → Nat) (s : dynamic_bitset) (n : Nat) (x : Bool) (hwf : s.wf)
    (hfit : (n + 63) / 64 + s.buffer < 2 ^ 58) :
    ∃ R, assign g s n x = some R ∧ R.length = n ∧
      (R.buffer = if s.buffer < (n + 63) / 64 then (n + 63) / 64 + s.buffer else s.buffer) ∧
      R.wf ∧ R.validated ∧ ∀ p, p < n → bitAt R.head p = x := by
  obtain ⟨b1, b2, b3, b4⟩ := hwf
  have hwc : div_ceil n = (n + 63) / 64 := div_ceil_eq (by omega)
  have hnb : wrap ((n + 63) / 64 + s.buffer) = (n + 63) / 64 + s.buffer := wrap_of_lt (by omega)
  by_cases hg : s.buffer < (n + 63) / 64
  · obtain ⟨r1, r, hr1, hr, hl, hw, hb, hv⟩ := fill_spec (alloc_none g ((n + 63) / 64 + s.buffer)) n x
      (by rw [alloc_none_length]; omega) (by rw [alloc_none_length]; exact hfit)
    rw [alloc_none_length] at hl
    refine ⟨⟨r, (n + 63) / 64 + s.buffer, n⟩, ?_, rfl, by rw [if_pos hg],
      ⟨hl, by show n ≤ 64 * ((n + 63) / 64 + s.buffer); omega, hfit, hw⟩,
      validated_of_bits hv, hb⟩
    unfold assign
    simp only [dynamic_storage.word_count, dynamic_storage.capacity, hwc, hg, if_true, hnb,
      Option.bind_eq_bind, hr1, Option.some_bind]
    exact fill_bind x r1 r n _ hr
  · obtain ⟨r1, r, hr1, hr, hl, hw, hb, hv⟩ := fill_spec s.head n x (by omega) (by omega)
    refine ⟨⟨r, s.buffer, n⟩, ?_, rfl, by rw [if_neg hg],
      ⟨by show r.length = s.buffer; omega, by show n ≤ 64 * s.buffer; omega, b3, hw⟩,
      validated_of_bits hv, hb⟩
    unfold assign
    simp only [dynamic_storage.word_count, dynamic_storage.capacity, hwc, hg, if_false,
      Option.bind_eq_bind, hr1, Option.some_bind]
    exact fill_bind x r1 r n _ hr

/-- The constructor `dynamic_bitset(n, x)`, when a block of `n` words fits in the
address space. -/
theorem mk_fill_spec (g : Nat → Nat) (n : Nat) (x : Bool) (hn : n < 2 ^ 58) :
    ∃ R, mk_fill g n x = some R ∧ R.length = n ∧ R.buffer = n ∧ R.wf ∧ R.validated ∧
      ∀ p, p < n → bitAt R.head p = x := by
  have hwc : div_ceil n = (n + 63) / 64 := div_ceil_eq (by omega)
  obtain ⟨r1, r, hr1, hr, hl, hw, hb, hv⟩ := fill_spec (alloc_none g n) n x
    (by rw [alloc_none_length]; omega) (by rw [alloc_none_length]; exact hn)
  rw [alloc_none_length] at hl
  refine ⟨⟨r, n, n⟩, ?_, rfl, rfl, ⟨hl, by show n ≤ 64 * n; omega, hn, hw⟩,
    validated_of_bits hv, hb⟩
  unfold mk_fill
  simp only [dynamic_storage.mk_none, dynamic_storage.word_count, hwc, Option.bind_eq_bind, hr1,
    Option.some_bind]
  exact fill_bind x r1 r n _ hr

/-- The member `set()`. -/
theorem set_all_spec (s : dynamic_bitset) (hwf : s.wf) :
    ∃ R, set_all s = some R ∧ R.length = s.length ∧ R.buffer = s.buffer ∧ R.wf ∧ R.validated ∧
      ∀ p, p < s.length → bitAt R.head p = true := by
  obtain ⟨b1, b2, b3, b4⟩ := hwf
  have hwc : div_ceil s.length = (s.length + 63) / 64 := div_ceil_eq (by omega)
  obtain ⟨r1, r, hr1, hr, hl, hw, hb, hv⟩ := fill_spec s.head s.length true (by omega)
    (by omega)
  simp only [if_true] at hr
  have hnb : neg_byte true = 255 := rfl
  rw [hnb] at hr1
  refine ⟨⟨r, s.buffer, s.length⟩, ?_, rfl, rfl,
    ⟨by show r.length = s.buffer; omega, b2, b3, hw⟩, validated_of_bits hv, hb⟩
  unfold set_all
  simp only [dynamic_storage.word_count, hwc, Option.bind_eq_bind, hr1, Option.some_bind, hr]

/-- The member `pop_back()` on a non-empty storage. -/
theorem pop_back_spec (s : dynamic_bitset) (hwf : s.wf) (hne : s.length ≠ 0) :
    ∃ R, pop_back s = some R ∧ R.length = s.length - 1 ∧ R.buffer = s.buffer ∧ R.wf ∧
      R.validated ∧ ∀ p, p < s.length - 1 → bitAt R.head p = bitAt s.head p := by
  obtain ⟨b1, b2, b3, b4⟩ := hwf
  have hsub : usub s.length 1 = s.length - 1 := usub_of_le (by omega) (by omega)
  obtain ⟨r, hr, hl, hb, hw⟩ := validate_spec s.head (s.length - 1) (by omega)
  refine ⟨⟨r, s.buffer, s.length - 1⟩, ?_, rfl, rfl,
    ⟨by show r.length = s.buffer; omega, by show s.length - 1 ≤ 64 * s.buffer; omega, b3,
      hw b4⟩, ?_, fun p hp => ?_⟩
  · unfold pop_back dynamic_storage.pop_back
    simp only [hsub, hr, Option.bind_eq_bind, Option.some_bind]
  · apply validated_of_bits
    intro p hm h1 h2
    show bitAt r p = false
    rw [hb, if_pos ⟨hm, h1, h2⟩]
  · show bitAt r p = bitAt s.head p
    rw [hb, if_neg (by omega)]

/-- C15: the bitset built by `dynamic_bitset(n, x)` has size exactly `n`, every
`test(i)` with `i < n` equal to `x`, and satisfies the validation invariant (for
`n` such that the block of `n` words fits in the address space). -/
theorem C15_fill_constructor (g : Nat → Nat) (n : Nat) (x : Bool) (hn : n < 2 ^ 58) :
    ∃ R, mk_fill g n x = some R ∧ size R = n ∧ (∀ i, i < n → test R i = some x) ∧
      R.validated := by
  obtain ⟨R, hR, hl, -, hRwf, hv, hb⟩ := mk_fill_spec g n x hn
  refine ⟨R, hR, hl, fun i hi => ?_, hv⟩
  rw [wf_test hRwf (by omega), hb i hi]

/-- C15 for 70 one bits built in memory of content 9. -/
theorem C15_fill_constructor_witness :
    (70 < 2 ^ 58) ∧
    ∃ R, mk_fill (fun _ => 9) 70 true = some R ∧ size R = 70 ∧
      (∀ i, i < 70 → test R i = some true) ∧ R.validated :=
  ⟨by decide, C15_fill_constructor (fun _ => 9) 70 true (by decide)⟩

/-- C17: `pop_back()` on a non-empty bitset decreases the size by 1, keeps
`test(i)` for every `i` below the new size, and leaves the validation invariant
true for the new size; in particular the removed bit is cleared when the last word
is still partial. -/
theorem C17_pop_back (s : dynamic_bitset) (hwf : s.wf) (hne : size s ≠ 0) :
    ∃ R, pop_back s = some R ∧ size R = size s - 1 ∧
      (∀ i, i < size R → ∃ b, test s i = some b ∧ test R i = some b) ∧ R.validated ∧
      ((size s - 1) % 64 ≠ 0 → bitAt R.head (size s - 1) = false) := by
  obtain ⟨R, hR, hl, -, hRwf, hv, hb⟩ := pop_back_spec s hwf hne
  unfold size at hne ⊢
  refine ⟨R, hR, hl, fun i hi => ⟨bitAt s.head i, wf_test hwf (by omega), ?_⟩, hv, fun hm => ?_⟩
  · rw [wf_test hRwf hi, hb i (by omega)]
  · have := hv (by rw [hl]; exact hm) ((s.length - 1) % 64) (Nat.mod_lt _ (by decide))
      (by rw [hl])
    unfold bitAt
    rw [hl] at this
    exact this

/-- C17 on 67 bits with the three bits of the second word set. -/
theorem C17_pop_back_witness :
    dynamic_storage.wf ⟨[2 ^ 64 - 1, 7], 2, 67⟩ ∧ size ⟨[2 ^ 64 - 1, 7], 2, 67⟩ ≠ 0 ∧
    pop_back ⟨[2 ^ 64 - 1, 7], 2, 67⟩ = some ⟨[2 ^ 64 - 1, 3], 2, 66⟩ ∧
    ∃ R, pop_back ⟨[2 ^ 64 - 1, 7], 2, 67⟩ = some R ∧
      size R = size ⟨[2 ^ 64 - 1, 7], 2, 67⟩ - 1 ∧
      (∀ i, i < size R →
        ∃ b, test ⟨[2 ^ 64 - 1, 7], 2, 67⟩ i = some b ∧ test R i = some b) ∧
      R.validated ∧
      ((size ⟨[2 ^ 64 - 1, 7], 2, 67⟩ - 1) % 64 ≠ 0 →
        bitAt R.head (size ⟨[2 ^ 64 - 1, 7], 2, 67⟩ - 1) = false) :=
  ⟨by decide, by decide, by decide,
    C17_pop_back ⟨[2 ^ 64 - 1, 7], 2, 67⟩ (by decide) (by decide)⟩

/-! ## Constructors and copy assignment -/

theorem alloc_zero_length (n : Nat) : (alloc_zero n).length = n := by
  simp [alloc_zero]

theorem alloc_zero_getD (n j : Nat) : (alloc_zero n).getD j 0 = 0 := by
  unfold alloc_zero
  rw [List.getD_eq_getElem?_getD, List.getElem?_replicate]
  split <;> rfl

theorem alloc_zero_lt (n : Nat) : ∀ w ∈ alloc_zero n, w < 2 ^ 64 := by
  intro w hw
  rw [List.eq_of_mem_replicate hw]
  decide

/-- The constructor `dynamic_bitset(n)`: the size is `n` rounded up to a multiple
of 64, the capacity is `n` words and every bit is 0. -/
theorem mk_zero_spec (n : Nat) (hn : n < 2 ^ 58) :
    (mk_zero n).length = 64 * ((n + 63) / 64) ∧ (mk_zero n).buffer = n ∧ (mk_zero n).wf ∧
      (mk_zero n).validated ∧ ∀ p, bitAt (mk_zero n).head p = false := by
  have hwc : div_ceil n = (n + 63) / 64 := div_ceil_eq (by omega)
  have hl : (mk_zero n).length = 64 * ((n + 63) / 64) := by
    show wrap (div_ceil n * WBits) = _
    rw [hwc, wrap_of_lt (by simp only [WBits]; omega)]
    simp only [WBits]; omega
  have hb : ∀ p, bitAt (mk_zero n).head p = false := by
    intro p
    show bitAt (alloc_zero n) p = false
    unfold bitAt
    rw [alloc_zero_getD, Nat.zero_testBit]
  refine ⟨hl, rfl, ⟨alloc_zero_length n, ?_, hn, alloc_zero_lt n⟩, ?_, hb⟩
  · rw [hl]; show 64 * ((n + 63) / 64) ≤ 64 * n; omega
  · exact validated_of_bits (fun p _ _ _ => hb p)

/-- C14, counterexample: `dynamic_bitset(5)` has size 64, not 5. -/
theorem C14_size_five : size (mk_zero 5) = 64 ∧ size (mk_zero 5) ≠ 5 := by
  decide

/-- C14, amended: the bitset built by `dynamic_bitset(n)` has size
`ceil(n / 64) * 64`, that is `n` rounded up to a whole number of words; the size
is `n` exactly when `n` is a multiple of 64 (for `n` such that the block of `n`
words fits in the address space). -/
theorem C14_size_rounded_up (n : Nat) (hn : n < 2 ^ 58) :
    size (mk_zero n) = (n + 63) / 64 * 64 ∧ n ≤ size (mk_zero n) ∧ size (mk_zero n) < n + 64 ∧
      (size (mk_zero n) = n ↔ n % 64 = 0) := by
  obtain ⟨hl, -⟩ := mk_zero_spec n hn
  unfold size
  rw [hl]
  omega

/-- C14 amended, at `n = 5` and at `n = 128`. -/
theorem C14_size_rounded_up_witness :
    ((5 : Nat) < 2 ^ 58) ∧ size (mk_zero 5) = 64 ∧ size (mk_zero 128) = 128 ∧
    (size (mk_zero 5) = (5 + 63) / 64 * 64 ∧ 5 ≤ size (mk_zero 5) ∧
      size (mk_zero 5) < 5 + 64 ∧ (size (mk_zero 5) = 5 ↔ 5 % 64 = 0)) :=
  ⟨by decide, by decide, by decide, C14_size_rounded_up 5 (by decide)⟩

theorem load_lt {m : List Nat} {i w B : Nat} (h : load m i = some w) (hm : ∀ x ∈ m, x < B) :
    w < B := hm w (List.getElem?_mem h)

theorem store_some {m : List Nat} {i v : Nat} {r : List Nat} (h : store m i v = some r) :
    r.length = m.length ∧ ∀ B, (∀ x ∈ m, x < B) → v < B → ∀ x ∈ r, x < B := by
  unfold store at h
  split at h
  · cases h
    refine ⟨List.length_set .., fun B hm hv x hx => ?_⟩
    rcases List.mem_or_eq_of_mem_set hx with h1 | h1
    · exact hm x h1
    · rw [h1]; exact hv
  · cases h

theorem grow_size (c : Nat) (hc : c < 2 ^ 58) :
    (wrap (c <<< 1) ||| (if c = 0 then 1 else 0)) = max 1 (2 * c) := by
  rw [Nat.shiftLeft_eq, wrap_of_lt (by omega)]
  by_cases h : c = 0
  · subst h; rfl
  · rw [if_neg h, Nat.or_zero]
    omega

/-- The growth path of `push_back`: the size is a multiple of 64 and the block is
full.  The call returns, the new capacity is `max(1, 2 * capacity)`, the old words
are copied and the new bit is stored in the first new word. -/
theorem push_back_grow (g : Nat → Nat) (s : dynamic_bitset) (x : Bool) (hwf : s.wf)
    (hm : s.length % 64 = 0) (hfull : s.length / 64 = s.buffer) :
    ∃ t, push_back g s x = some t ∧ t.buffer = max 1 (2 * s.buffer) ∧
      t.length = s.length + 1 ∧ t.head.length = t.buffer ∧ (∀ w ∈ t.head, w < 2 ^ 64) ∧
      (∀ j, j < s.buffer → t.head.getD j 0 = s.head.getD j 0) ∧
      t.head.getD s.buffer 0 = x.toNat := by
  obtain ⟨b1, b2, b3, b4⟩ := hwf
  have hw : wrap (s.length + 1) = s.length + 1 := wrap_of_lt (by omega)
  have hsz : (s.length + 1) / 64 = s.buffer := by omega
  obtain ⟨c, hc, hcl, hcg⟩ := word_copy_spec (alloc_none g (max 1 (2 * s.buffer))) s.head s.buffer
    (by rw [alloc_none_length]; omega) (by omega)
  rw [alloc_none_length] at hcl
  have hst : s.buffer < c.length := by omega
  refine ⟨⟨c.set s.buffer x.toNat, max 1 (2 * s.buffer), s.length + 1⟩, ?_, rfl, rfl,
    by show (c.set s.buffer x.toNat).length = _; rw [List.length_set, hcl], ?_, fun j hj => ?_, ?_⟩
  · unfold push_back dynamic_storage.grow_full
    simp only [WBits, hm, ne_eq, not_true_eq_false, if_false, hw, hsz,
      dynamic_storage.capacity, if_true, grow_size s.buffer b3, hc, Option.bind_eq_bind,
      Option.some_bind, store_eq_some _ hst]
  · apply all_lt_of_getD
    intro j
    show (c.set s.buffer x.toNat).getD j 0 < 2 ^ 64
    rw [getD_set]
    split
    · cases x <;> decide
    · rw [hcg]
      split
      · exact getD_lt_word _ b4 _
      · exact getD_lt_word _ (alloc_none_lt g _) _
  · show (c.set s.buffer x.toNat).getD j 0 = _
    rw [getD_set, if_neg (by omega), hcg, if_pos hj]
  · show (c.set s.buffer x.toNat).getD s.buffer 0 = _
    rw [getD_set, if_pos ⟨rfl, hst⟩]

/-- The path of `push_back` for a size that is a multiple of 64 in a block that
is not full: the call returns and keeps the block. -/
theorem push_back_next_word (g : Nat → Nat) (s : dynamic_bitset) (x : Bool) (hwf : s.wf)
    (hm : s.length % 64 = 0) (hfull : s.length / 64 ≠ s.buffer) :
    ∃ t, push_back g s x = some t ∧ t.buffer = s.buffer ∧ t.length = s.length + 1 ∧
      t.head.length = s.head.length ∧ (∀ w ∈ t.head, w < 2 ^ 64) := by
  obtain ⟨b1, b2, b3, b4⟩ := hwf
  have hw : wrap (s.length + 1) = s.length + 1 := wrap_of_lt (by omega)
  have hsz : (s.length + 1) / 64 = s.length / 64 := by omega
  have hst : s.length / 64 < s.head.length := by omega
  refine ⟨⟨s.head.set (s.length / 64) x.toNat, s.buffer, s.length + 1⟩, ?_, rfl, rfl,
    List.length_set .., ?_⟩
  · unfold push_back dynamic_storage.grow_full
    simp only [WBits, hm, ne_eq, not_true_eq_false, if_false, hw, hsz,
      dynamic_storage.capacity, hfull, Option.bind_eq_bind, Option.some_bind,
      store_eq_some _ hst]
  · apply all_lt_of_getD
    intro j
    show (s.head.set (s.length / 64) x.toNat).getD j 0 < 2 ^ 64
    rw [getD_set]
    split
    · cases x <;> decide
    · exact getD_lt_word _ b4 _

theorem bool_shl_lt {x : Bool} {c v : Nat} (h : bool_shl x c = some v) : v < 2 ^ 64 := by
  unfold bool_shl at h
  split at h
  · cases h
    rw [Nat.shiftLeft_eq]
    have : 2 ^ c ≤ 2 ^ 30 := Nat.pow_le_pow_right (by decide) (by omega)
    cases x
    · simp
    · simp only [Bool.toNat_true, Nat.one_mul]; omega
  · split at h
    · cases h
      split <;> decide
    · cases h

/-- The path of `push_back` inside a partial word: every defined result keeps the
block size. -/
theorem push_back_in_word (g : Nat → Nat) (s : dynamic_bitset) (x : Bool) (hwf : s.wf)
    (hm : s.length % 64 ≠ 0) (t : dynamic_bitset) (h : push_back g s x = some t) :
    t.buffer = s.buffer ∧ t.length = s.length + 1 ∧ t.head.length = s.head.length ∧
      (∀ w ∈ t.head, w < 2 ^ 64) := by
  obtain ⟨b1, b2, b3, b4⟩ := hwf
  have hw : wrap (s.length + 1) = s.length + 1 := wrap_of_lt (by omega)
  unfold push_back at h
  simp only [WBits, hm, ne_eq, not_false_eq_true, if_true, hw, Option.bind_eq_bind] at h
  obtain ⟨v, hv, h⟩ := Option.bind_eq_some.mp h
  obtain ⟨w, hld, h⟩ := Option.bind_eq_some.mp h
  obtain ⟨r, hst, h⟩ := Option.bind_eq_some.mp h
  cases h
  obtain ⟨hl, hb⟩ := store_some hst
  exact ⟨rfl, rfl, hl, hb _ b4 (Nat.or_lt_two_pow (load_lt hld b4) (bool_shl_lt hv))⟩

/-- Inside a partial word `push_back` returns as long as the bit position is at
most 31. -/
theorem push_back_in_word_defined (g : Nat → Nat) (s : dynamic_bitset) (x : Bool) (hwf : s.wf)
    (hm : s.length % 64 ≠ 0) (h31 : s.length % 64 ≤ 31) : ∃ t, push_back g s x = some t := by
  obtain ⟨b1, b2, b3, b4⟩ := hwf
  have hw : wrap (s.length + 1) = s.length + 1 := wrap_of_lt (by omega)
  have hc : usub ((s.length + 1) % 64) 1 = s.length % 64 := by
    rw [usub_of_le (by omega) (by omega)]; omega
  have hdd : div_down (s.length + 1) = s.length / 64 := by
    rw [div_down_eq (by omega) (by omega)]; omega
  have hi : s.length / 64 < s.head.length := by omega
  have hv : ∃ v, bool_shl x (s.length % 64) = some v := by
    unfold bool_shl
    by_cases h1 : s.length % 64 < 31
    · exact ⟨_, by rw [if_pos h1]⟩
    · exact ⟨_, by rw [if_neg h1, if_pos (by omega)]⟩
  obtain ⟨v, hv⟩ := hv
  refine ⟨⟨s.head.set (s.length / 64) (s.head.getD (s.length / 64) 0 ||| v), s.buffer,
    s.length + 1⟩, ?_⟩
  unfold push_back
  simp only [WBits, hm, ne_eq, not_false_eq_true, if_true, hw, hc, hdd, hv, load_eq_some hi,
    store_eq_some _ hi, Option.bind_eq_bind, Option.some_bind]

theorem push_back_wf {g : Nat → Nat} {s t : dynamic_bitset} {x : Bool} (hwf : s.wf)
    (h : push_back g s x = some t) (hfit : t.buffer < 2 ^ 58) : t.wf := by
  have hwf' := hwf
  obtain ⟨b1, b2, b3, b4⟩ := hwf'
  by_cases hm : s.length % 64 = 0
  · by_cases hfull : s.length / 64 = s.buffer
    · obtain ⟨t', ht', hb, hl, hh, hw, -⟩ := push_back_grow g s x hwf hm hfull
      rw [h] at ht'
      cases ht'
      exact ⟨hh, by rw [hl, hb]; omega, hfit, hw⟩
    · obtain ⟨t', ht', hb, hl, hh, hw⟩ := push_back_next_word g s x hwf hm hfull
      rw [h] at ht'
      cases ht'
      exact ⟨by omega, by rw [hl, hb]; omega, hfit, hw⟩
  · obtain ⟨hb, hl, hh, hw⟩ := push_back_in_word g s x hwf hm t h
    exact ⟨by omega, by rw [hl, hb]; omega, hfit, hw⟩

/-! ## Reachable states -/

theorem init_wf : dynamic_bitset.init.wf := by decide

theorem shl_assign_wf {g : Nat → Nat} {s t : dynamic_bitset} {k : Nat} (hs : s.wf)
    (hfit : (s.length + k + 63) / 64 + s.buffer < 2 ^ 58)
    (h : shl_assign g s k = some t) : t.wf ∧ t.validated := by
  by_cases h0 : s.length = 0
  · obtain ⟨R, hR, -, -, hwf, hv, -⟩ := assign_spec g s k false hs (by rw [h0] at hfit; omega)
    unfold shl_assign at h
    rw [if_pos h0, hR] at h
    cases h
    exact ⟨hwf, hv⟩
  · by_cases hin : k % 8 = 0 ∨ (s.length + k - 1) / 64 - k / 64 < s.buffer
    · obtain ⟨R, hR, -, hwf, hv, -⟩ := shl_assign_spec g s k hs h0 hfit hin
      rw [h] at hR
      cases hR
      exact ⟨hwf, hv⟩
    · have hu := shl_assign_undefined g s k hs h0 hfit (by omega) (by omega)
      rw [h] at hu
      cases hu

/-- Inside a partial word `push_back` has no defined result from bit position 32
on: the shift count of `__x << (length % 64 - 1)` is then at least 32 (and wraps
to `2^64 - 1` at position 63), which is undefined on a 32-bit `int`. -/
theorem push_back_undefined (g : Nat → Nat) (s : dynamic_bitset) (x : Bool) (hwf : s.wf)
    (h32 : 32 ≤ s.length % 64) : push_back g s x = none := by
  obtain ⟨b1, b2, b3, b4⟩ := hwf
  have hw : wrap (s.length + 1) = s.length + 1 := wrap_of_lt (by omega)
  have hm : s.length % 64 ≠ 0 := by omega
  have hv : bool_shl x (usub ((s.length + 1) % 64) 1) = none := by
    have hc : 32 ≤ usub ((s.length + 1) % 64) 1 := by
      by_cases h63 : s.length % 64 = 63
      · have : (s.length + 1) % 64 = 0 := by omega
        rw [this]
        decide
      · rw [usub_of_le (by omega) (by omega)]; omega
    unfold bool_shl
    rw [if_neg (by omega), if_neg (by omega)]
  unfold push_back
  simp only [WBits, hm, ne_eq, not_false_eq_true, if_true, hw, hv, Option.bind_eq_bind,
    Option.none_bind]

/-- The capacity rule of `push_back`.  With a size that is a multiple of 64 and a
full block the call returns, the new capacity is `max(1, 2 * capacity)` and the
old words are copied; every other defined result keeps the capacity; the call
returns whenever the bit position in the last word is at most 31. -/
theorem push_back_capacity (g : Nat → Nat) (s : dynamic_bitset) (x : Bool) (hwf : s.wf) :
    (s.length % 64 = 0 ∧ s.length / 64 = s.capacity →
      ∃ t, push_back g s x = some t ∧ t.capacity = max 1 (2 * s.capacity) ∧
        ∀ j, j < s.capacity → t.head.getD j 0 = s.head.getD j 0) ∧
    (¬ (s.length % 64 = 0 ∧ s.length / 64 = s.capacity) →
      ∀ t, push_back g s x = some t → t.capacity = s.capacity) ∧
    (s.length % 64 ≤ 31 → ∃ t, push_back g s x = some t) := by
  refine ⟨fun ⟨hm, hfull⟩ => ?_, fun hn t ht => ?_, fun h31 => ?_⟩
  · obtain ⟨t, ht, hb, -, -, -, hc, -⟩ := push_back_grow g s x hwf hm hfull
    exact ⟨t, ht, hb, hc⟩
  · by_cases hm : s.length % 64 = 0
    · have hfull : s.length / 64 ≠ s.buffer := fun h => hn ⟨hm, h⟩
      obtain ⟨t', ht', hb, -⟩ := push_back_next_word g s x hwf hm hfull
      rw [ht] at ht'
      cases ht'
      exact hb
    · exact (push_back_in_word g s x hwf hm t ht).1
  · by_cases hm : s.length % 64 = 0
    · by_cases hfull : s.length / 64 = s.buffer
      · obtain ⟨t, ht, -⟩ := push_back_grow g s x hwf hm hfull
        exact ⟨t, ht⟩
      · obtain ⟨t, ht, -⟩ := push_back_next_word g s x hwf hm hfull
        exact ⟨t, ht⟩
    · exact push_back_in_word_defined g s x hwf hm h31

/-- Validation after the shifts: `>>=` always returns a validated bitset, and
every defined result of `<<=` is validated. -/
theorem shift_validated (s : dynamic_bitset) (k : Nat) (hwf : s.wf)
    (hfit : (s.length + k + 63) / 64 + s.buffer < 2 ^ 58) :
    (∃ R, shr_assign s k = some R ∧ R.validated) ∧
    ∀ g R, shl_assign g s k = some R → R.validated := by
  refine ⟨?_, fun g R h => (shl_assign_wf hwf hfit h).2⟩
  by_cases hk : k < s.length
  · obtain ⟨R, hR, -, -, -, hv, -⟩ := shr_assign_spec s k hwf hk
    exact ⟨R, hR, hv⟩
  · refine ⟨dynamic_bitset.clear s, ?_, ?_⟩
    · unfold shr_assign
      rw [if_neg hk]
      rfl
    · intro h
      exact absurd rfl h

/-! ## Single-bit writes through a reference -/

theorem testBit_bit_not_pow {m n : Nat} (hm : m < 64) (hn : n < 64) (w : Nat) :
    (w &&& bit_not (2 ^ m)).testBit n = (w.testBit n && !decide (m = n)) := by
  have h1 : 2 ^ m < 2 ^ 64 := Nat.pow_lt_pow_right (by decide) hm
  have hb : bit_not (2 ^ m) = (2 ^ 64 - 1) ^^^ 2 ^ m := by
    apply Nat.eq_of_testBit_eq
    intro j
    unfold bit_not
    rw [Nat.mod_eq_of_lt h1, Nat.testBit_xor, Nat.testBit_two_pow_sub_one, Nat.testBit_two_pow]
    by_cases hj : j < 64
    · have h2 : 2 ^ 64 - 1 - 2 ^ m = 2 ^ 64 - (2 ^ m + 1) := by omega
      rw [h2, Nat.testBit_two_pow_sub_succ h1, Nat.testBit_two_pow]
      simp [hj]
    · have : 2 ^ 64 - 1 - 2 ^ m < 2 ^ j :=
        lt_of_lt_of_le (lt_of_le_of_lt (Nat.sub_le _ _) (by decide : 2 ^ 64 - 1 < 2 ^ 64))
          (Nat.pow_le_pow_right (by decide) (by omega : 64 ≤ j))
      rw [Nat.testBit_lt_two_pow this]
      have hmj : m ≠ j := by omega
      simp [hj, hmj]
  rw [Nat.testBit_and, hb, Nat.testBit_xor, Nat.testBit_two_pow_sub_one, Nat.testBit_two_pow]
  simp [hn]

/-- Reading a bit after one word of the block has been replaced. -/
theorem test_set_head (head : List Nat) (b l d v j : Nat) :
    test ⟨head.set d v, b, l⟩ j =
      if j / 64 = d ∧ d < head.length then some (v.testBit (j % 64))
      else test ⟨head, b, l⟩ j := by
  by_cases hj : j / 64 < head.length
  · rw [test_eq _ j (by show j / 64 < (head.set d v).length; rw [List.length_set]; exact hj),
      test_eq _ j hj]
    unfold bitAt
    show some (((head.set d v).getD (j / 64) 0).testBit (j % 64)) = _
    rw [getD_set]
    by_cases hd : d = j / 64
    · subst hd
      rw [if_pos ⟨rfl, hj⟩, if_pos ⟨rfl, hj⟩]
    · rw [if_neg (fun h => hd h.1), if_neg (fun h => hd h.1.symm)]
  · rw [if_neg (by omega)]
    unfold test div_mod
    simp only [WBits]
    rw [load_eq_none (by rw [List.length_set]; omega), load_eq_none (by omega)]

/-- A read-modify-write of the word of bit `i` through the reference
`operator[](i)`: the word is replaced by `f` of its value. -/
theorem index_modify (s : dynamic_bitset) (i : Nat) (f : Nat → Nat → Nat) (hwf : s.wf)
    (hi : i < s.length) :
    ((load s.head (index s i).ptr).bind fun w => store s.head (index s i).ptr
        (f w (index s i).msk)) =
      some (s.head.set (i / 64) (f (s.head.getD (i / 64) 0) (2 ^ (i % 64)))) := by
  obtain ⟨b1, b2, -, -⟩ := hwf
  have hd : i / 64 < s.head.length := by omega
  unfold index reference.make div_mod
  simp only [WBits, load_eq_some hd, Option.some_bind, store_eq_some _ hd,
    mask_pos_eq (Nat.mod_lt i (by decide : 0 < 64))]

/-- Effect on `test` of replacing the word of bit `i` by a word that differs from
it at most in bit `i % 64`, where it has the value `v`. -/
theorem test_after_write (s : dynamic_bitset) (i : Nat) (w : Nat) (v : Bool) (hwf : s.wf)
    (hi : i < s.length)
    (hw : ∀ n, n < 64 → w.testBit n =
      if n = i % 64 then v else (s.head.getD (i / 64) 0).testBit n) :
    test ⟨s.head.set (i / 64) w, s.buffer, s.length⟩ i = some v ∧
    ∀ j, j ≠ i → test ⟨s.head.set (i / 64) w, s.buffer, s.length⟩ j = test s j := by
  obtain ⟨b1, b2, -, -⟩ := hwf
  have hd : i / 64 < s.head.length := by omega
  refine ⟨?_, fun j hj => ?_⟩
  · rw [test_set_head, if_pos ⟨rfl, hd⟩, hw _ (Nat.mod_lt _ (by decide)), if_pos rfl]
  · rw [test_set_head]
    by_cases hjd : j / 64 = i / 64
    · rw [if_pos ⟨hjd, hd⟩, hw _ (Nat.mod_lt _ (by decide)), if_neg (by omega),
        test_eq s j (by omega)]
      unfold bitAt
      rw [hjd]
    · rw [if_neg (fun h => hjd h.1)]

theorem set_spec (s : dynamic_bitset) (i : Nat) (hwf : s.wf) (hi : i < s.length) :
    ∃ R, dynamic_bitset.set s i = some R ∧ R.length = s.length ∧ R.buffer = s.buffer ∧
      test R i = some true ∧ ∀ j, j ≠ i → test R j = test s j := by
  have hm := index_modify s i (fun w m => w ||| m) hwf hi
  have hw : ∀ n, n < 64 → (s.head.getD (i / 64) 0 ||| 2 ^ (i % 64)).testBit n =
      if n = i % 64 then true else (s.head.getD (i / 64) 0).testBit n := by
    intro n _
    rw [Nat.testBit_or, Nat.testBit_two_pow]
    by_cases h : n = i % 64
    · subst h; simp
    · have h' : ¬ i % 64 = n := fun e => h e.symm
      simp [h, h']
  obtain ⟨h1, h2⟩ := test_after_write s i _ true hwf hi hw
  refine ⟨⟨s.head.set (i / 64) (s.head.getD (i / 64) 0 ||| 2 ^ (i % 64)), s.buffer, s.length⟩,
    ?_, rfl, rfl, h1, h2⟩
  unfold dynamic_bitset.set reference.set
  simp only [Option.bind_eq_bind] at hm ⊢
  rw [hm]
  rfl

theorem reset_spec (s : dynamic_bitset) (i : Nat) (hwf : s.wf) (hi : i < s.length) :
    ∃ R, dynamic_bitset.reset s i = some R ∧ R.length = s.length ∧ R.buffer = s.buffer ∧
      test R i = some false ∧ ∀ j, j ≠ i → test R j = test s j := by
  have hm := index_modify s i (fun w m => w &&& bit_not m) hwf hi
  have hw : ∀ n, n < 64 → (s.head.getD (i / 64) 0 &&& bit_not (2 ^ (i % 64))).testBit n =
      if n = i % 64 then false else (s.head.getD (i / 64) 0).testBit n := by
    intro n hn
    rw [testBit_bit_not_pow (Nat.mod_lt _ (by decide)) hn]
    by_cases h : n = i % 64
    · subst h; simp
    · have h' : ¬ i % 64 = n := fun e => h e.symm
      simp [h, h']
  obtain ⟨h1, h2⟩ := test_after_write s i _ false hwf hi hw
  refine ⟨⟨s.head.set (i / 64) (s.head.getD (i / 64) 0 &&& bit_not (2 ^ (i % 64))), s.buffer,
    s.length⟩, ?_, rfl, rfl, h1, h2⟩
  unfold dynamic_bitset.reset reference.reset
  simp only [Option.bind_eq_bind] at hm ⊢
  rw [hm]
  rfl

theorem flip_spec (s : dynamic_bitset) (i : Nat) (hwf : s.wf) (hi : i < s.length) :
    ∃ R, dynamic_bitset.flip s i = some R ∧ R.length = s.length ∧ R.buffer = s.buffer ∧
      test R i = some (!bitAt s.head i) ∧ ∀ j, j ≠ i → test R j = test s j := by
  have hm := index_modify s i (fun w m => w ^^^ m) hwf hi
  have hw : ∀ n, n < 64 → (s.head.getD (i / 64) 0 ^^^ 2 ^ (i % 64)).testBit n =
      if n = i % 64 then (!bitAt s.head i) else (s.head.getD (i / 64) 0).testBit n := by
    intro n _
    rw [Nat.testBit_xor, Nat.testBit_two_pow]
    by_cases h : n = i % 64
    · subst h; simp [bitAt]
    · have h' : ¬ i % 64 = n := fun e => h e.symm
      simp [h, h']
  obtain ⟨h1, h2⟩ := test_after_write s i _ (!bitAt s.head i) hwf hi hw
  refine ⟨⟨s.head.set (i / 64) (s.head.getD (i / 64) 0 ^^^ 2 ^ (i % 64)), s.buffer, s.length⟩,
    ?_, rfl, rfl, h1, h2⟩
  unfold dynamic_bitset.flip reference.flip
  simp only [Option.bind_eq_bind] at hm ⊢
  rw [hm]
  rfl

/-- Assignment of the boolean `v` through `operator[](i)`. -/
theorem assign_bit_spec (s : dynamic_bitset) (i : Nat) (v : Bool) (hwf : s.wf)
    (hi : i < s.length) :
    ∃ h, (index s i).assign v s.head = some (h, v) ∧
      test ⟨h, s.buffer, s.length⟩ i = some v ∧
      ∀ j, j ≠ i → test ⟨h, s.buffer, s.length⟩ j = test s j := by
  cases v
  · obtain ⟨R, hR, -, -, h1, h2⟩ := reset_spec s i hwf hi
    unfold dynamic_bitset.reset at hR
    obtain ⟨h, hh, hR⟩ := Option.bind_eq_some.mp hR
    cases hR
    refine ⟨h, ?_, h1, h2⟩
    unfold reference.assign
    simp only [Bool.false_eq_true, if_false, hh, Option.bind_eq_bind, Option.some_bind]
  · obtain ⟨R, hR, -, -, h1, h2⟩ := set_spec s i hwf hi
    unfold dynamic_bitset.set at hR
    obtain ⟨h, hh, hR⟩ := Option.bind_eq_some.mp hR
    cases hR
    refine ⟨h, ?_, h1, h2⟩
    unfold reference.assign
    simp only [if_true, hh, Option.bind_eq_bind, Option.some_bind]

/-- C21: for an index `i < size()`, `set(i)` makes `test(i)` true, `reset(i)` makes
it false, `flip(i)` negates it, and the assignment through `operator[](i)` of a
boolean `v`, or of a reference `rhs` into any block `src` whose value is `v`,
makes it `v`; each of them keeps `size()` and `test(j)` for every `j != i`. -/
theorem C21_single_bit (s : dynamic_bitset) (i : Nat) (hwf : s.wf) (hi : i < size s) :
    (∃ R, dynamic_bitset.set s i = some R ∧ size R = size s ∧ test R i = some true ∧
      ∀ j, j ≠ i → test R j = test s j) ∧
    (∃ R, dynamic_bitset.reset s i = some R ∧ size R = size s ∧ test R i = some false ∧
      ∀ j, j ≠ i → test R j = test s j) ∧
    (∃ R b, dynamic_bitset.flip s i = some R ∧ size R = size s ∧ test s i = some b ∧
      test R i = some (!b) ∧ ∀ j, j ≠ i → test R j = test s j) ∧
    (∀ v, ∃ h, (index s i).assign v s.head = some (h, v) ∧
      size ⟨h, s.buffer, s.length⟩ = size s ∧ test ⟨h, s.buffer, s.length⟩ i = some v ∧
      ∀ j, j ≠ i → test ⟨h, s.buffer, s.length⟩ j = test s j) ∧
    (∀ (rhs : reference) (src : List Nat) (v : Bool), rhs.to_bool src = some v →
      ∃ h, (index s i).assign_ref rhs src s.head = some (h, v) ∧
        size ⟨h, s.buffer, s.length⟩ = size s ∧ test ⟨h, s.buffer, s.length⟩ i = some v ∧
        ∀ j, j ≠ i → test ⟨h, s.buffer, s.length⟩ j = test s j) := by
  have hi' : i < s.length := hi
  refine ⟨?_, ?_, ?_, fun v => ?_, fun rhs src v hv => ?_⟩
  · obtain ⟨R, hR, hl, -, h1, h2⟩ := set_spec s i hwf hi'
    exact ⟨R, hR, hl, h1, h2⟩
  · obtain ⟨R, hR, hl, -, h1, h2⟩ := reset_spec s i hwf hi'
    exact ⟨R, hR, hl, h1, h2⟩
  · obtain ⟨R, hR, hl, -, h1, h2⟩ := flip_spec s i hwf hi'
    exact ⟨R, bitAt s.head i, hR, hl, wf_test hwf hi', h1, h2⟩
  · obtain ⟨h, hh, h1, h2⟩ := assign_bit_spec s i v hwf hi'
    exact ⟨h, hh, rfl, h1, h2⟩
  · obtain ⟨h, hh, h1, h2⟩ := assign_bit_spec s i v hwf hi'
    refine ⟨h, ?_, rfl, h1, h2⟩
    unfold reference.assign_ref
    simp only [hv, Option.bind_eq_bind, Option.some_bind]
    exact hh

/-- C21 on the 70-bit bitset with words 22 and 7, at bit 66 (set in the block)
and with a reference to bit 0 of the same block (clear) as the assigned value. -/
theorem C21_single_bit_witness :
    dynamic_storage.wf ⟨[22, 7], 2, 70⟩ ∧ 66 < size ⟨[22, 7], 2, 70⟩ ∧
    dynamic_bitset.reset ⟨[22, 7], 2, 70⟩ 66 = some ⟨[22, 3], 2, 70⟩ ∧
    dynamic_bitset.flip ⟨[22, 7], 2, 70⟩ 66 = some ⟨[22, 3], 2, 70⟩ ∧
    (index ⟨[22, 7], 2, 70⟩ 66).assign_ref (index ⟨[22, 7], 2, 70⟩ 0) [22, 7] [22, 7] =
      some ([22, 3], false) ∧
    ((∃ R, dynamic_bitset.set ⟨[22, 7], 2, 70⟩ 66 = some R ∧ size R = size ⟨[22, 7], 2, 70⟩ ∧
      test R 66 = some true ∧ ∀ j, j ≠ 66 → test R j = test ⟨[22, 7], 2, 70⟩ j) ∧
    (∃ R, dynamic_bitset.reset ⟨[22, 7], 2, 70⟩ 66 = some R ∧
      size R = size ⟨[22, 7], 2, 70⟩ ∧ test R 66 = some false ∧
      ∀ j, j ≠ 66 → test R j = test ⟨[22, 7], 2, 70⟩ j) ∧
    (∃ R b, dynamic_bitset.flip ⟨[22, 7], 2, 70⟩ 66 = some R ∧
      size R = size ⟨[22, 7], 2, 70⟩ ∧ test ⟨[22, 7], 2, 70⟩ 66 = some b ∧
      test R 66 = some (!b) ∧ ∀ j, j ≠ 66 → test R j = test ⟨[22, 7], 2, 70⟩ j) ∧
    (∀ v, ∃ h, (index ⟨[22, 7], 2, 70⟩ 66).assign v [22, 7] = some (h, v) ∧
      size ⟨h, 2, 70⟩ = size ⟨[22, 7], 2, 70⟩ ∧ test ⟨h, 2, 70⟩ 66 = some v ∧
      ∀ j, j ≠ 66 → test ⟨h, 2, 70⟩ j = test ⟨[22, 7], 2, 70⟩ j) ∧
    (∀ (rhs : reference) (src : List Nat) (v : Bool), rhs.to_bool src = some v →
      ∃ h, (index ⟨[22, 7], 2, 70⟩ 66).assign_ref rhs src [22, 7] = some (h, v) ∧
        size ⟨h, 2, 70⟩ = size ⟨[22, 7], 2, 70⟩ ∧ test ⟨h, 2, 70⟩ 66 = some v ∧
        ∀ j, j ≠ 66 → test ⟨h, 2, 70⟩ j = test ⟨[22, 7], 2, 70⟩ j)) :=
  ⟨by decide, by decide, by decide, by decide, by decide,
    C21_single_bit ⟨[22, 7], 2, 70⟩ 66 (by decide) (by decide)⟩

/-! ## Move construction and move assignment -/

/-- C22: move construction.  The new object has the size, the capacity, the word
array and the bits of the source; the source is left with size 0, capacity 0 and
a null word array. -/
theorem C22_move_construct (b : dynamic_bitset) :
    size (dynamic_storage.move b).1 = size b ∧
    (dynamic_storage.move b).1.capacity = b.capacity ∧
    (dynamic_storage.move b).1.head = b.head ∧
    (∀ i, test (dynamic_storage.move b).1 i = test b i) ∧
    size (dynamic_storage.move b).2 = 0 ∧
    (dynamic_storage.move b).2.capacity = 0 ∧
    (dynamic_storage.move b).2.head = [] :=
  ⟨rfl, rfl, rfl, fun _ => rfl, rfl, rfl, rfl⟩

/-- C23, counterexample: `a` holds 5 zero bits and `b` holds 64 one bits; after
`a = std::move(b)` the source `b` has size 5, not 0. -/
theorem C23_move_assign_source_not_empty :
    size (dynamic_storage.move_assign ⟨[0], 1, 5⟩ ⟨[2 ^ 64 - 1], 1, 64⟩).1 = 64 ∧
    size (dynamic_storage.move_assign ⟨[0], 1, 5⟩ ⟨[2 ^ 64 - 1], 1, 64⟩).2 = 5 ∧
    size (dynamic_storage.move_assign ⟨[0], 1, 5⟩ ⟨[2 ^ 64 - 1], 1, 64⟩).2 ≠ 0 := by
  decide

/-- C23, amended: move assignment exchanges the two storages.  After
`a = std::move(b)`, `a` has the former size, capacity and bits of `b`, and `b` has
the former size, capacity and bits of `a`; the size of `b` is 0 exactly when `a`
was empty. -/
theorem C23_move_assign_exchange (a b : dynamic_bitset) :
    size (dynamic_storage.move_assign a b).1 = size b ∧
    (dynamic_storage.move_assign a b).1.capacity = b.capacity ∧
    (∀ i, test (dynamic_storage.move_assign a b).1 i = test b i) ∧
    size (dynamic_storage.move_assign a b).2 = size a ∧
    (dynamic_storage.move_assign a b).2.capacity = a.capacity ∧
    (∀ i, test (dynamic_storage.move_assign a b).2 i = test a i) ∧
    (size (dynamic_storage.move_assign a b).2 = 0 ↔ size a = 0) :=
  ⟨rfl, rfl, fun _ => rfl, rfl, rfl, fun _ => rfl, Iff.rfl⟩

/-! ## `set()`, `none()` and `any()` -/

theorem count_eq_ones (s : dynamic_bitset) (hwf : s.wf) (hv : s.validated) :
    count s = some (ones s.head s.length) := by
  obtain ⟨hwc, hle⟩ := wf_word_count hwf
  obtain ⟨h1, h2, h3, -⟩ := hwf
  have hloop := count_loop_eq s.head s.word_count 0 (by omega) (by rw [hwc]; omega)
  simp only [Nat.mul_zero, Nat.zero_add] at hloop
  rw [show ones s.head 0 = 0 from rfl] at hloop
  unfold count
  rw [hloop, hwc, ones_validated hv]

theorem ones_of_all (m : List Nat) (n : Nat) (h : ∀ p, p < n → bitAt m p = true) :
    ones m n = n := by
  unfold ones
  rw [List.countP_eq_length.mpr, List.length_range]
  intro p hp
  exact h p (List.mem_range.mp hp)

/-- C24: the whole-bitset `set()` returns, keeps `size()`, makes `test(i)` true for
every `i < size()` and leaves the validation invariant true, so that `count()` is
`size()`. -/
theorem C24_set_all (s : dynamic_bitset) (hwf : s.wf) :
    ∃ R, set_all s = some R ∧ size R = size s ∧ (∀ i, i < size s → test R i = some true) ∧
      R.validated ∧ count R = some (size R) := by
  obtain ⟨R, hR, hl, -, hRwf, hv, hb⟩ := set_all_spec s hwf
  refine ⟨R, hR, hl, fun i hi => ?_, hv, ?_⟩
  · rw [wf_test hRwf (by rw [hl]; exact hi), hb i hi]
  · rw [count_eq_ones R hRwf hv, ones_of_all _ _ (by rw [hl]; exact hb)]
    rfl

/-- C24 on the 70-bit bitset with words 22 and 7. -/
theorem C24_set_all_witness :
    dynamic_storage.wf ⟨[22, 7], 2, 70⟩ ∧
    set_all ⟨[22, 7], 2, 70⟩ = some ⟨[2 ^ 64 - 1, 63], 2, 70⟩ ∧
    ∃ R, set_all ⟨[22, 7], 2, 70⟩ = some R ∧ size R = size ⟨[22, 7], 2, 70⟩ ∧
      (∀ i, i < size ⟨[22, 7], 2, 70⟩ → test R i = some true) ∧
      R.validated ∧ count R = some (size R) :=
  ⟨by decide, by decide, C24_set_all ⟨[22, 7], 2, 70⟩ (by decide)⟩

theorem eq_zero_iff_bits {w : Nat} (hw : w < 2 ^ 64) :
    w = 0 ↔ ∀ b, b < 64 → w.testBit b = false := by
  constructor
  · intro h b _
    rw [h, Nat.zero_testBit]
  · intro h
    apply Nat.eq_of_testBit_eq
    intro j
    rw [Nat.zero_testBit]
    by_cases hj : j < 64
    · exact h j hj
    · exact Nat.testBit_lt_two_pow
        (lt_of_lt_of_le hw (Nat.pow_le_pow_right (by decide) (by omega)))

theorem none_loop_spec (m : List Nat) (hm : ∀ w ∈ m, w < 2 ^ 64) :
    ∀ (k i : Nat), i + k ≤ m.length →
      ∃ r, none_loop m k i = some r ∧
        (r = true ↔ ∀ p, 64 * i ≤ p → p < 64 * (i + k) → bitAt m p = false)
  | 0, i, _ => ⟨true, rfl, by simp only [true_iff]; intro p h1 h2; omega⟩
  | k + 1, i, h => by
    have hi : i < m.length := by omega
    have hx := getD_lt_word m hm i
    obtain ⟨r, hr, hiff⟩ := none_loop_spec m hm k (i + 1) (by omega)
    unfold none_loop
    simp only [load_eq_some hi, Option.bind_eq_bind, Option.some_bind, ne_eq]
    by_cases hz : m.getD i 0 = 0
    · refine ⟨r, by simp only [hz, not_true_eq_false, if_false]; exact hr, ?_⟩
      have hall := (eq_zero_iff_bits hx).mp hz
      rw [hiff]
      constructor
      · intro h' p h1 h2
        by_cases hp : 64 * (i + 1) ≤ p
        · exact h' p hp (by omega)
        · have := hall (p % 64) (Nat.mod_lt _ (by decide))
          unfold bitAt
          rw [show p / 64 = i by omega, this]
      · intro h' p h1 h2
        exact h' p (by omega) (by omega)
    · refine ⟨false, by simp only [hz, not_false_eq_true, if_true], ?_⟩
      simp only [Bool.false_eq_true, false_iff]
      intro h'
      apply hz
      rw [eq_zero_iff_bits hx]
      intro b hb
      have := h' (64 * i + b) (by omega) (by omega)
      rwa [bitAt_add _ _ _ hb] at this

/-- The member `none()` returns, and it returns true exactly when every bit
below the size is 0. -/
theorem none_spec (s : dynamic_bitset) (hwf : s.wf) (hv : s.validated) :
    ∃ r, none_ s = some r ∧ (r = true ↔ ∀ p, p < s.length → bitAt s.head p = false) := by
  obtain ⟨hwc, hle⟩ := wf_word_count hwf
  obtain ⟨h1, h2, h3, h4⟩ := hwf
  obtain ⟨r, hr, hiff⟩ := none_loop_spec s.head h4 s.word_count 0 (by omega)
  refine ⟨r, hr, ?_⟩
  rw [hiff, hwc]
  constructor
  · intro h p hp
    exact h p (by omega) (by omega)
  · intro h p _ hp
    by_cases hlt : p < s.length
    · exact h p hlt
    · have hm : s.length % 64 ≠ 0 := by omega
      have := hv hm (p % 64) (Nat.mod_lt _ (by decide)) (by omega)
      unfold bitAt
      rw [show p / 64 = s.length / 64 by omega]
      exact this

/-- C25: on a bitset that satisfies the validation invariant, `none()` returns
true exactly when `test(i)` is false for every `i < size()`, and `any()` returns
the negation of `none()`; on an empty bitset `any()` is false. -/
theorem C25_none_any (s : dynamic_bitset) (hwf : s.wf) (hv : s.validated) :
    ∃ b, none_ s = some b ∧ (b = true ↔ ∀ i, i < size s → test s i = some false) ∧
      any s = some (!b) ∧ (size s = 0 → any s = some false) := by
  obtain ⟨r, hr, hiff⟩ := none_spec s hwf hv
  have hany : any s = some (!r) := by
    unfold any
    simp only [hr, Option.bind_eq_bind, Option.some_bind]
  refine ⟨r, hr, ?_, hany, fun h0 => ?_⟩
  · rw [hiff]
    constructor
    · intro h i hi
      rw [wf_test hwf hi, h i hi]
    · intro h p hp
      have := h p hp
      rw [wf_test hwf hp] at this
      exact Option.some.inj this
  · have hrt : r = true := hiff.mpr (fun p hp => by unfold size at h0; omega)
    rw [hany, hrt]
    rfl

/-- C25 on a 70-bit bitset with one bit set, and on the empty bitset. -/
theorem C25_none_any_witness :
    dynamic_storage.wf ⟨[0, 32], 2, 70⟩ ∧ dynamic_storage.validated ⟨[0, 32], 2, 70⟩ ∧
    none_ ⟨[0, 32], 2, 70⟩ = some false ∧ any ⟨[0, 32], 2, 70⟩ = some true ∧
    none_ init = some true ∧ any init = some false ∧
    ∃ b, none_ ⟨[0, 32], 2, 70⟩ = some b ∧
      (b = true ↔ ∀ i, i < size ⟨[0, 32], 2, 70⟩ → test ⟨[0, 32], 2, 70⟩ i = some false) ∧
      any ⟨[0, 32], 2, 70⟩ = some (!b) ∧
      (size ⟨[0, 32], 2, 70⟩ = 0 → any ⟨[0, 32], 2, 70⟩ = some false) :=
  ⟨by decide, by decide, by decide, by decide, by decide, by decide,
    C25_none_any ⟨[0, 32], 2, 70⟩ (by decide) (by decide)⟩

/-! ## Domain of `operator <<=` and of repeated `push_back` -/

/-- On a non-empty bitset `operator <<=` has a defined result exactly when the
amount is a multiple of 8 (byte path) or the index `__len - __div` of the first
source read of the word path is below the capacity. -/
theorem shl_assign_defined_iff (g : Nat → Nat) (s : dynamic_bitset) (k : Nat) (hwf : s.wf)
    (hne : s.length ≠ 0) (hfit : (s.length + k + 63) / 64 + s.buffer < 2 ^ 58) :
    (∃ R, shl_assign g s k = some R) ↔
      (k % 8 = 0 ∨ (s.length + k - 1) / 64 - k / 64 < s.buffer) := by
  constructor
  · rintro ⟨R, hR⟩
    by_contra hin
    have hu := shl_assign_undefined g s k hwf hne hfit (by omega) (by omega)
    rw [hR] at hu
    cases hu
  · intro hin
    obtain ⟨R, hR, -⟩ := shl_assign_spec g s k hwf hne hfit hin
    exact ⟨R, hR⟩

theorem push_all_append (g : Nat → Nat) :
    ∀ (a b : List Bool) (s : dynamic_bitset),
      push_all g s (a ++ b) = (push_all g s a).bind (fun t => push_all g t b)
  | [], b, s => rfl
  | x :: a, b, s => by
    show ((push_back g s x).bind fun t => push_all g t (a ++ b)) =
      ((push_back g s x).bind fun t => push_all g t a).bind (fun t => push_all g t b)
    cases push_back g s x with
    | none => rfl
    | some t => exact push_all_append g a b t

/-- Calls of `push_back` that stay within the first 32 bits of a one-word block
are defined and keep the block. -/
theorem push_all_in_word (g : Nat → Nat) :
    ∀ (xs : List Bool) (s : dynamic_bitset), s.wf → s.buffer = 1 → 1 ≤ s.length →
      s.length + xs.length ≤ 32 →
      ∃ t, push_all g s xs = some t ∧ t.wf ∧ t.buffer = 1 ∧ t.length = s.length + xs.length
  | [], s, hwf, hb, _, _ => ⟨s, rfl, hwf, hb, rfl⟩
  | x :: xs, s, hwf, hb, h1, h2 => by
    simp only [List.length_cons] at h2
    have hm : s.length % 64 ≠ 0 := by omega
    obtain ⟨t, ht⟩ := push_back_in_word_defined g s x hwf hm (by omega)
    obtain ⟨tb, tl, -, -⟩ := push_back_in_word g s x hwf hm t ht
    have twf : t.wf := push_back_wf hwf ht (by rw [tb, hb]; decide)
    obtain ⟨r, hr, rwf, rb, rl⟩ := push_all_in_word g xs t twf (tb.trans hb) (by omega)
      (by omega)
    refine ⟨r, ?_, rwf, rb, by rw [rl, tl, List.length_cons]; omega⟩
    show ((push_back g s x).bind fun t => push_all g t xs) = some r
    rw [ht]
    exact hr

/-- Up to 32 calls of `push_back` on a default-constructed bitset are defined;
the block has one word. -/
theorem push_all_init (g : Nat → Nat) (xs : List Bool) (h1 : 1 ≤ xs.length)
    (h32 : xs.length ≤ 32) :
    ∃ t, push_all g init xs = some t ∧ t.wf ∧ t.capacity = 1 ∧ size t = xs.length := by
  cases xs with
  | nil => simp at h1
  | cons x xs =>
    simp only [List.length_cons] at h32 ⊢
    obtain ⟨t, ht, tb, tl, th, tw, -⟩ := push_back_grow g init x init_wf rfl rfl
    have tb1 : t.buffer = 1 := tb
    have tl1 : t.length = 1 := tl
    have twf : t.wf := ⟨th, by rw [tl1, tb1]; decide, by rw [tb1]; decide, tw⟩
    obtain ⟨r, hr, rwf, rb, rl⟩ := push_all_in_word g xs t twf tb1 (by omega) (by omega)
    refine ⟨r, ?_, rwf, rb, by show r.length = _; omega⟩
    show ((push_back g init x).bind fun t => push_all g t xs) = some r
    rw [ht]
    exact hr

/-- More than 32 calls of `push_back` on a default-constructed bitset have no
defined result: the 33rd call shifts an `int` by 32. -/
theorem push_all_undefined (g : Nat → Nat) (xs : List Bool) (h : 33 ≤ xs.length) :
    push_all g init xs = none := by
  rw [← List.take_append_drop 32 xs, push_all_append]
  have hl : (xs.take 32).length = 32 := by rw [List.length_take]; omega
  obtain ⟨t, ht, twf, -, tl⟩ := push_all_init g (xs.take 32) (by omega) (by omega)
  rw [ht, Option.some_bind]
  have hd : (xs.drop 32).length ≠ 0 := by rw [List.length_drop]; omega
  cases hdr : xs.drop 32 with
  | nil => simp [hdr] at hd
  | cons y ys =>
    show ((push_back g t y).bind fun t => push_all g t ys) = none
    have tl32 : t.length = 32 := by
      have : t.length = (xs.take 32).length := tl
      omega
    rw [push_back_undefined g t y twf (by rw [tl32])]
    rfl

/-! ## Left shift whatever the word read past the old block -/

theorem bitAt_append_left (S t : List Nat) {p : Nat} (hp : p < 64 * S.length) :
    bitAt (S ++ t) p = bitAt S p := by
  unfold bitAt
  have : p / 64 < S.length := by omega
  rw [List.getD_eq_getElem?_getD, List.getD_eq_getElem?_getD, List.getElem?_append_left this]

/-- The member `operator <<=` on a non-empty storage, whatever the word `w` read
past the end of the old block: it returns, the size grows by `k`, both invariants
hold for the result, the low `k` bits are 0 and bit `p + k` is the old bit `p`. -/
theorem shl_assign_machine_spec (w : Nat) (g : Nat → Nat) (B : dynamic_bitset) (k : Nat)
    (hB : B.wf) (hne : B.length ≠ 0) (hfit : (B.length + k + 63) / 64 + B.buffer < 2 ^ 58) :
    ∃ R, shl_assign_machine w g B k = some R ∧ R.length = B.length + k ∧ R.wf ∧ R.validated ∧
      (R.buffer = if B.buffer < (B.length + k + 63) / 64
        then (B.length + k + 63) / 64 + B.buffer else B.buffer) ∧
      (∀ p, p < k → bitAt R.head p = false) ∧
      (∀ p, p < B.length → bitAt R.head (p + k) = bitAt B.head p) := by
  obtain ⟨b1, b2, b3, b4⟩ := hB
  have hw : wrap (B.length + k) = B.length + k := wrap_of_lt (by omega)
  have hwc : div_ceil (B.length + k) = (B.length + k + 63) / 64 := div_ceil_eq (by omega)
  have hnb : wrap ((B.length + k + 63) / 64 + B.buffer) = (B.length + k + 63) / 64 + B.buffer :=
    wrap_of_lt (by omega)
  by_cases hg : B.buffer < (B.length + k + 63) / 64
  · have hSl : (B.head ++ [wrap w]).length = B.buffer + 1 := by
      rw [List.length_append, b1]; rfl
    have hSw : ∀ x ∈ B.head ++ [wrap w], x < 2 ^ 64 := by
      intro x hx
      rcases List.mem_append.mp hx with h | h
      · exact b4 x h
      · rw [List.mem_singleton.mp h]; exact wrap_lt _
    obtain ⟨r, hr, hl, hbit, hlt⟩ := do_lshift_spec
      ⟨alloc_none g ((B.length + k + 63) / 64 + B.buffer), some (B.head ++ [wrap w])⟩
      (B.head ++ [wrap w]) (B.length + k) k
      (Or.inl rfl) (by omega) (by omega) (by simp only [alloc_none_length]; omega)
      (by simp only [alloc_none_length]; omega) (by rw [hSl]; omega) hSw
      (by rw [hSl]; omega)
      (fun h => by subst h; simp only [Nat.add_zero] at hg; omega)
    simp only [alloc_none_length] at hl
    obtain ⟨r', hr', hl', hbit', hlt'⟩ := validate_spec r (B.length + k) (by omega)
    refine ⟨⟨r', (B.length + k + 63) / 64 + B.buffer, B.length + k⟩, ?_, rfl,
      ⟨by show r'.length = (B.length + k + 63) / 64 + B.buffer; omega,
        by show B.length + k ≤ 64 * ((B.length + k + 63) / 64 + B.buffer); omega, hfit,
        hlt' (hlt (alloc_none_lt g _))⟩, ?_, by rw [if_pos hg], fun p hp => ?_, fun p hp => ?_⟩
    · unfold shl_assign_machine
      simp only [hne, if_false, hw, dynamic_storage.word_count, dynamic_storage.capacity, hwc,
        hg, decide_True, if_true, hnb, hr, hr', Option.bind_eq_bind, Option.some_bind]
    · apply validated_of_bits
      intro p hm h1 h2
      show bitAt r' p = false
      rw [hbit', if_pos ⟨hm, h1, h2⟩]
    · show bitAt r' p = false
      rw [hbit', if_neg (by omega), hbit p (by omega), if_pos hp]
    · show bitAt r' (p + k) = bitAt B.head p
      rw [hbit', if_neg (by omega), hbit (p + k) (by omega), if_neg (by omega),
        Nat.add_sub_cancel, bitAt_append_left _ _ (by omega)]
  · obtain ⟨R, hR, hl, hwf, hv, hbuf, h1, h2⟩ := shl_assign_spec g B k ⟨b1, b2, b3, b4⟩ hne hfit
      (Or.inr (by omega))
    refine ⟨R, ?_, hl, hwf, hv, hbuf, h1, h2⟩
    rw [← hR]
    unfold shl_assign_machine shl_assign
    simp only [hne, if_false, hw, dynamic_storage.word_count, dynamic_storage.capacity, hwc,
      hg, decide_False, Bool.false_eq_true, if_false]

theorem toBytes_take_append (S t : List Nat) :
    (toBytes (S ++ t)).take (8 * S.length) = toBytes S := by
  apply List.ext_getElem
  · rw [List.length_take, toBytes_length, toBytes_length, List.length_append]
    omega
  · intro j h1 h2
    rw [toBytes_length] at h2
    have hj : j / 8 < S.length := by omega
    rw [List.getElem_take]
    unfold toBytes
    rw [List.getElem_map, List.getElem_map, List.getElem_range, List.getElem_range,
      List.getD_eq_getElem?_getD, List.getD_eq_getElem?_getD, List.getElem?_append_left hj]

theorem memmove_extend {d : List Nat} {doff cnt : Nat} {S : List Nat} (t : List Nat)
    {r : List Nat} (h : memmove d doff (toBytes S) 0 cnt = some r) :
    memmove d doff (toBytes (S ++ t)) 0 cnt = some r := by
  unfold memmove at h ⊢
  split at h
  · rename_i hc
    cases h
    have hl : cnt ≤ 8 * S.length := by
      have := hc.2
      rw [toBytes_length] at this
      omega
    rw [if_pos ⟨hc.1, by rw [toBytes_length, List.length_append]; omega⟩]
    simp only [List.drop_zero]
    rw [← toBytes_take_append S t, List.take_take, Nat.min_eq_left hl]
  · cases h

theorem do_lshift_loop_extend (D D2 S t : List Nat) (div mod rev : Nat) :
    ∀ (k i pre : Nat) (dst : List Nat) (res : Nat × List Nat),
      do_lshift_loop ⟨D, some S⟩ div mod rev k i pre dst = some res →
      do_lshift_loop ⟨D2, some (S ++ t)⟩ div mod rev k i pre dst = some res
  | 0, _, _, _, _, h => h
  | k + 1, i, pre, dst, res, h => by
    unfold do_lshift_loop at h ⊢
    simp only [vec2.source, Option.bind_eq_bind] at h ⊢
    obtain ⟨cur, hcur, h⟩ := Option.bind_eq_some.mp h
    obtain ⟨d', hd', h⟩ := Option.bind_eq_some.mp h
    have hcur' : load (S ++ t) (usub (usub i 1) div) = some cur := by
      unfold load at hcur ⊢
      have hlt : usub (usub i 1) div < S.length := by
        by_contra hge
        rw [List.getElem?_eq_none (by omega)] at hcur
        cases hcur
      rw [List.getElem?_append_left hlt]
      exact hcur
    rw [hcur', Option.some_bind, hd', Option.some_bind]
    exact do_lshift_loop_extend D D2 S t div mod rev k _ _ _ _ h

/-- A defined result of `do_lshift` does not change when the source block is
followed by further words. -/
theorem do_lshift_extend (D S t : List Nat) (n k : Nat) (r : List Nat)
    (h : do_lshift ⟨D, some S⟩ n k = some r) : do_lshift ⟨D, some (S ++ t)⟩ n k = some r := by
  unfold do_lshift at h ⊢
  split at h
  · rename_i h8
    rw [if_pos h8]
    unfold byte_lshift at h ⊢
    split at h
    · rename_i hc
      rw [if_pos hc]
      exact h
    · rename_i hc
      rw [if_neg hc]
      simp only [vec2.source, Option.bind_eq_bind] at h ⊢
      obtain ⟨raw, hraw, h⟩ := Option.bind_eq_some.mp h
      rw [memmove_extend t hraw, Option.some_bind]
      exact h
  · rename_i h8
    rw [if_neg h8]
    simp only [vec2.source, Option.bind_eq_bind] at h ⊢
    obtain ⟨pre, hpre, h⟩ := Option.bind_eq_some.mp h
    obtain ⟨res, hres, h⟩ := Option.bind_eq_some.mp h
    have hpre' : load (S ++ t) (usub (div_down n) (div_mod k).1) = some pre := by
      unfold load at hpre ⊢
      have hlt : usub (div_down n) (div_mod k).1 < S.length := by
        by_contra hge
        rw [List.getElem?_eq_none (by omega)] at hpre
        cases hpre
      rw [List.getElem?_append_left hlt]
      exact hpre
    rw [hpre', Option.some_bind,
      do_lshift_loop_extend D D S t _ _ _ _ _ _ _ _ hres, Option.some_bind]
    exact h

/-- Wherever `operator <<=` has a defined result, the machine obtains that result,
whatever the word past the old block. -/
theorem shl_assign_machine_of_defined (w : Nat) (g : Nat → Nat) (s : dynamic_bitset) (k : Nat)
    (R : dynamic_bitset) (h : shl_assign g s k = some R) :
    shl_assign_machine w g s k = some R := by
  unfold shl_assign at h
  unfold shl_assign_machine
  split at h
  · rename_i h0
    rw [if_pos h0]
    exact h
  · rename_i h0
    rw [if_neg h0]
    by_cases hg : dynamic_storage.capacity
        ({ s with length := wrap (s.length + k) } : dynamic_bitset) <
        dynamic_storage.word_count ({ s with length := wrap (s.length + k) } : dynamic_bitset)
    · simp only [hg, decide_True, if_true, Option.bind_eq_bind] at h ⊢
      obtain ⟨data, hdata, h⟩ := Option.bind_eq_some.mp h
      rw [do_lshift_extend _ _ _ _ _ _ hdata, Option.some_bind]
      exact h
    · simp only [hg, decide_False, Bool.false_eq_true, if_false, Option.bind_eq_bind] at h ⊢
      exact h

/-- C1: `B <<= k` on a non-empty bitset returns, whatever the word `w` that the
first read of `do_lshift` finds past the end of the old block and whatever the
content `g` of a new block; the size is the old size plus `k`, `test(i)` is false
for every `i < k`, and `test(i + k)` is the old `test(i)` for every `i` below the
old size (for sizes such that the requested block fits in the address space). -/
theorem C1_shift_left (w : Nat) (g : Nat → Nat) (B : dynamic_bitset) (k : Nat) (hB : B.wf)
    (hne : size B ≠ 0) (hfit : (size B + k + 63) / 64 + B.capacity < 2 ^ 58) :
    ∃ R, shl_assign_machine w g B k = some R ∧ size R = size B + k ∧
      (∀ i, i < k → test R i = some false) ∧
      (∀ i, i < size B → ∃ b, test B i = some b ∧ test R (i + k) = some b) := by
  obtain ⟨R, hR, hl, hRwf, -, -, h1, h2⟩ := shl_assign_machine_spec w g B k hB hne hfit
  refine ⟨R, hR, hl, fun i hi => ?_, fun i hi => ⟨bitAt B.head i, wf_test hB hi, ?_⟩⟩
  · rw [wf_test hRwf (by omega), h1 i hi]
  · unfold size at hi
    rw [wf_test hRwf (by omega), h2 i hi]

/-- C1 on the 5-bit sequence `0,1,1,0,1` shifted by 3, which gives the 8-bit
sequence `0,0,0,0,1,1,0,1`, and on 64 one bits in a one-word block shifted by 1,
where the word past the block (here 12345) is read. -/
theorem C1_shift_left_witness :
    dynamic_storage.wf ⟨[22], 1, 5⟩ ∧
    shl_assign_machine 0 (fun _ => 0) ⟨[22], 1, 5⟩ 3 = some ⟨[176], 1, 8⟩ ∧
    shl_assign_machine 12345 (fun _ => 0) ⟨[2 ^ 64 - 1], 1, 64⟩ 1 =
      some ⟨[2 ^ 64 - 2, 1, 0], 3, 65⟩ ∧
    (∃ R, shl_assign_machine 12345 (fun _ => 7) ⟨[2 ^ 64 - 1], 1, 64⟩ 1 = some R ∧
      size R = size ⟨[2 ^ 64 - 1], 1, 64⟩ + 1 ∧
      (∀ i, i < 1 → test R i = some false) ∧
      (∀ i, i < size ⟨[2 ^ 64 - 1], 1, 64⟩ →
        ∃ b, test ⟨[2 ^ 64 - 1], 1, 64⟩ i = some b ∧ test R (i + 1) = some b)) :=
  ⟨by decide, by decide, by decide,
    C1_shift_left 12345 (fun _ => 7) ⟨[2 ^ 64 - 1], 1, 64⟩ 1 (by decide) (by decide)
      (by decide)⟩

/-- C3: round trip.  For `k <= size(B)`, `<<= k` followed by `>>= k` returns a
bitset with the size of `B` and with `test(i)` equal to that of `B` for every
`i < size(B)`, whatever the word `w` read past the old block by the left shift
and whatever the content `g` of a new block. -/
theorem C3_round_trip (w : Nat) (g : Nat → Nat) (B : dynamic_bitset) (k : Nat) (hB : B.wf)
    (hk : k ≤ size B) (hfit : (size B + k + 63) / 64 + B.capacity < 2 ^ 58) :
    ∃ S R, shl_assign_machine w g B k = some S ∧ shr_assign S k = some R ∧
      size R = size B ∧ ∀ i, i < size B → ∃ b, test B i = some b ∧ test R i = some b := by
  by_cases hne : B.length = 0
  · have hk0 : k = 0 := by unfold size at hk; omega
    subst hk0
    obtain ⟨S, hS, hSl, -⟩ := assign_spec g B 0 false hB
      (by unfold size dynamic_storage.capacity at hfit; omega)
    refine ⟨S, dynamic_bitset.clear S, ?_, ?_, ?_, fun i hi => ?_⟩
    · unfold shl_assign_machine
      rw [if_pos hne]
      exact hS
    · unfold shr_assign
      rw [if_neg (by omega)]
      rfl
    · show (0 : Nat) = B.length
      omega
    · unfold size at hi
      omega
  · obtain ⟨S, hS, hSl, hSwf, -, -, -, hSb⟩ := shl_assign_machine_spec w g B k hB hne hfit
    obtain ⟨R, hR, hRl, -, hRwf, -, hRb⟩ := shr_assign_spec S k hSwf (by omega)
    have hlen : R.length = B.length := by omega
    refine ⟨S, R, hS, hR, hlen, fun i hi => ⟨bitAt B.head i, wf_test hB hi, ?_⟩⟩
    unfold size at hi
    rw [wf_test hRwf (by omega), hRb i (by omega), hSb i hi]

/-- C3 on 64 one bits in a one-word block with `k = 1`, where the left shift
reads the word past the block (here 12345). -/
theorem C3_round_trip_witness :
    dynamic_storage.wf ⟨[2 ^ 64 - 1], 1, 64⟩ ∧
    (shl_assign_machine 12345 (fun _ => 0) ⟨[2 ^ 64 - 1], 1, 64⟩ 1).bind
      (fun S => shr_assign S 1) = some ⟨[2 ^ 64 - 1, 0, 0], 3, 64⟩ ∧
    (∃ S R, shl_assign_machine 12345 (fun _ => 0) ⟨[2 ^ 64 - 1], 1, 64⟩ 1 = some S ∧
      shr_assign S 1 = some R ∧ size R = size ⟨[2 ^ 64 - 1], 1, 64⟩ ∧
      ∀ i, i < size ⟨[2 ^ 64 - 1], 1, 64⟩ →
        ∃ b, test ⟨[2 ^ 64 - 1], 1, 64⟩ i = some b ∧ test R i = some b) :=
  ⟨by decide, by decide,
    C3_round_trip 12345 (fun _ => 0) ⟨[2 ^ 64 - 1], 1, 64⟩ 1 (by decide) (by decide)
      (by decide)⟩

/-- C20: both shifts re-establish the validation invariant on the new length.
For every storage with `capacity() >= word_count()`, whatever its words and the
bits beyond its size, and every amount `k`, `<<= k` returns a bitset that
satisfies the validation invariant, whatever the word `w` read past the old
block and the content `g` of a new block, and `>>= k` returns a bitset that
satisfies the validation invariant: if the new `size() % 64 != 0`, every bit at a
position `>= size() % 64` of word `size() / 64` is 0. -/
theorem C20_shifts_validate (w : Nat) (g : Nat → Nat) (s : dynamic_bitset) (k : Nat)
    (hwf : s.wf) (hfit : (size s + k + 63) / 64 + s.capacity < 2 ^ 58) :
    (∃ R, shl_assign_machine w g s k = some R ∧
      (size R % 64 ≠ 0 → ∀ j, j < 64 → size R % 64 ≤ j →
        (R.head.getD (size R / 64) 0).testBit j = false)) ∧
    (∃ R, shr_assign s k = some R ∧
      (size R % 64 ≠ 0 → ∀ j, j < 64 → size R % 64 ≤ j →
        (R.head.getD (size R / 64) 0).testBit j = false)) := by
  constructor
  · by_cases h0 : s.length = 0
    · obtain ⟨R, hR, -, -, -, hv, -⟩ := assign_spec g s k false hwf
        (by unfold size dynamic_storage.capacity at hfit; rw [h0] at hfit; omega)
      refine ⟨R, ?_, hv⟩
      unfold shl_assign_machine
      rw [if_pos h0]
      exact hR
    · obtain ⟨R, hR, -, -, hv, -⟩ := shl_assign_machine_spec w g s k hwf h0 hfit
      exact ⟨R, hR, hv⟩
  · by_cases hk : k < s.length
    · obtain ⟨R, hR, -, -, -, hv, -⟩ := shr_assign_spec s k hwf hk
      exact ⟨R, hR, hv⟩
    · refine ⟨dynamic_bitset.clear s, ?_, ?_⟩
      · unfold shr_assign
        rw [if_neg hk]
        rfl
      · intro h
        exact absurd rfl h

/-- C20 on 100 bits in a two-word block whose bits beyond the size are set, with
`k = 30`: the left shift reads the word past the block (here 12345). -/
theorem C20_shifts_validate_witness :
    dynamic_storage.wf ⟨[2 ^ 64 - 1, 2 ^ 64 - 1], 2, 100⟩ ∧
    shl_assign_machine 12345 (fun _ => 2 ^ 64 - 1) ⟨[2 ^ 64 - 1, 2 ^ 64 - 1], 2, 100⟩ 30 =
      some ⟨[2 ^ 64 - 2 ^ 30, 2 ^ 64 - 1, 3, 2 ^ 64 - 1, 2 ^ 64 - 1], 5, 130⟩ ∧
    ((∃ R, shl_assign_machine 12345 (fun _ => 2 ^ 64 - 1)
        ⟨[2 ^ 64 - 1, 2 ^ 64 - 1], 2, 100⟩ 30 = some R ∧
      (size R % 64 ≠ 0 → ∀ j, j < 64 → size R % 64 ≤ j →
        (R.head.getD (size R / 64) 0).testBit j = false)) ∧
    (∃ R, shr_assign ⟨[2 ^ 64 - 1, 2 ^ 64 - 1], 2, 100⟩ 30 = some R ∧
      (size R % 64 ≠ 0 → ∀ j, j < 64 → size R % 64 ≤ j →
        (R.head.getD (size R / 64) 0).testBit j = false))) :=
  ⟨by decide, by decide,
    C20_shifts_validate 12345 (fun _ => 2 ^ 64 - 1) ⟨[2 ^ 64 - 1, 2 ^ 64 - 1], 2, 100⟩ 30
      (by decide) (by decide)⟩

/-! ## `push_back` whatever the value of an undefined shift -/

theorem bool_shl_machine_lt (junk : Nat) (x : Bool) (c : Nat) :
    bool_shl_machine junk x c < 2 ^ 64 := by
  unfold bool_shl_machine
  cases h : bool_shl x c with
  | none => exact wrap_lt _
  | some v => exact bool_shl_lt h

theorem bool_shl_machine_of_some (junk : Nat) {x : Bool} {c v : Nat}
    (h : bool_shl x c = some v) : bool_shl_machine junk x c = v := by
  unfold bool_shl_machine
  rw [h]

theorem push_back_machine_of_mod_zero (junk : Nat) (g : Nat → Nat) (s : dynamic_bitset)
    (x : Bool) (hm : s.length % 64 = 0) :
    push_back_machine junk g s x = push_back g s x := by
  unfold push_back_machine push_back
  simp only [WBits, hm, ne_eq, not_true_eq_false, if_false]

/-- Wherever `push_back` has a defined result, the machine obtains that result. -/
theorem push_back_machine_of_defined (junk : Nat) (g : Nat → Nat) (s : dynamic_bitset)
    (x : Bool) (t : dynamic_bitset) (h : push_back g s x = some t) :
    push_back_machine junk g s x = some t := by
  by_cases hm : s.length % 64 = 0
  · rw [push_back_machine_of_mod_zero junk g s x hm]
    exact h
  · unfold push_back at h
    simp only [WBits, hm, ne_eq, not_false_eq_true, if_true, Option.bind_eq_bind] at h
    obtain ⟨v, hv, h⟩ := Option.bind_eq_some.mp h
    unfold push_back_machine
    simp only [WBits, hm, ne_eq, not_false_eq_true, if_true, Option.bind_eq_bind]
    rw [bool_shl_machine_of_some junk hv]
    exact h

/-- The machine `push_back` returns on every storage that satisfies the
representation invariant.  The capacity becomes `max(1, 2 * capacity)`, with the
old words copied, when the size is a multiple of 64 and the block is full, and is
kept otherwise. -/
theorem push_back_machine_spec (junk : Nat) (g : Nat → Nat) (s : dynamic_bitset) (x : Bool)
    (hwf : s.wf) :
    ∃ t, push_back_machine junk g s x = some t ∧ t.length = s.length + 1 ∧
      t.head.length = t.buffer ∧ (∀ w ∈ t.head, w < 2 ^ 64) ∧
      (t.buffer = if s.length % 64 = 0 ∧ s.length / 64 = s.buffer
        then max 1 (2 * s.buffer) else s.buffer) ∧
      (s.length % 64 = 0 ∧ s.length / 64 = s.buffer →
        ∀ j, j < s.buffer → t.head.getD j 0 = s.head.getD j 0) := by
  have hwf' := hwf
  obtain ⟨b1, b2, b3, b4⟩ := hwf'
  by_cases hm : s.length % 64 = 0
  · by_cases hfull : s.length / 64 = s.buffer
    · obtain ⟨t, ht, hb, hl, hh, hw, hc, -⟩ := push_back_grow g s x hwf hm hfull
      exact ⟨t, push_back_machine_of_defined junk g s x t ht, hl, hh, hw,
        by rw [if_pos ⟨hm, hfull⟩]; exact hb, fun _ => hc⟩
    · obtain ⟨t, ht, hb, hl, hh, hw⟩ := push_back_next_word g s x hwf hm hfull
      exact ⟨t, push_back_machine_of_defined junk g s x t ht, hl, by omega, hw,
        by rw [if_neg (fun h => hfull h.2)]; exact hb, fun h => absurd h.2 hfull⟩
  · have hw : wrap (s.length + 1) = s.length + 1 := wrap_of_lt (by omega)
    have hdd : div_down (s.length + 1) = s.length / 64 := by
      rw [div_down_eq (by omega) (by omega)]; omega
    have hi : s.length / 64 < s.head.length := by omega
    refine ⟨⟨s.head.set (s.length / 64) (s.head.getD (s.length / 64) 0 |||
        bool_shl_machine junk x (usub ((s.length + 1) % 64) 1)), s.buffer, s.length + 1⟩,
      ?_, rfl, by show (s.head.set _ _).length = s.buffer; rw [List.length_set]; exact b1, ?_,
      by rw [if_neg (fun h => hm h.1)], fun h => absurd h.1 hm⟩
    · unfold push_back_machine
      simp only [WBits, hm, ne_eq, not_false_eq_true, if_true, hw, hdd, load_eq_some hi,
        store_eq_some _ hi, Option.bind_eq_bind, Option.some_bind]
    · apply all_lt_of_getD
      intro j
      show (s.head.set _ _).getD j 0 < 2 ^ 64
      rw [getD_set]
      split
      · exact Nat.or_lt_two_pow (getD_lt_word _ b4 _) (bool_shl_machine_lt _ _ _)
      · exact getD_lt_word _ b4 _

/-- C19: on every storage with `capacity() >= word_count()` the call
`push_back(x)` returns, whatever the value `junk` of a shift that is undefined and
the content `g` of a new block.  The capacity changes only when `size()` is a
multiple of 64 and `size() / 64` equals `capacity()`; in that case the new
capacity is `max(1, 2 * capacity())` and the first `capacity()` words are copied
unchanged; in every other case the capacity is unchanged. -/
theorem C19_push_back_capacity (junk : Nat) (g : Nat → Nat) (s : dynamic_bitset) (x : Bool)
    (hwf : s.wf) :
    ∃ t, push_back_machine junk g s x = some t ∧
      (t.capacity ≠ s.capacity → size s % 64 = 0 ∧ size s / 64 = s.capacity) ∧
      (size s % 64 = 0 ∧ size s / 64 = s.capacity →
        t.capacity = max 1 (2 * s.capacity) ∧
        ∀ j, j < s.capacity → t.head.getD j 0 = s.head.getD j 0) ∧
      (¬ (size s % 64 = 0 ∧ size s / 64 = s.capacity) → t.capacity = s.capacity) := by
  obtain ⟨t, ht, -, -, -, hb, hc⟩ := push_back_machine_spec junk g s x hwf
  refine ⟨t, ht, fun hne => ?_, fun h => ⟨?_, hc h⟩, fun h => ?_⟩
  · by_contra hn
    apply hne
    show t.buffer = s.buffer
    rw [hb, if_neg (show ¬ (s.length % 64 = 0 ∧ s.length / 64 = s.buffer) from hn)]
  · show t.buffer = _
    rw [hb, if_pos (show s.length % 64 = 0 ∧ s.length / 64 = s.buffer from h)]
    rfl
  · show t.buffer = _
    rw [hb, if_neg (show ¬ (s.length % 64 = 0 ∧ s.length / 64 = s.buffer) from h)]
    rfl

/-- C19 on 32 bits in a one-word block, where the shift is undefined and the
machine obtains 4096, and on 64 bits in a full one-word block, which grows. -/
theorem C19_push_back_capacity_witness :
    dynamic_storage.wf ⟨[5], 1, 32⟩ ∧
    push_back (fun _ => 0) ⟨[5], 1, 32⟩ true = none ∧
    push_back_machine 4096 (fun _ => 0) ⟨[5], 1, 32⟩ true = some ⟨[4101], 1, 33⟩ ∧
    push_back_machine 4096 (fun _ => 9) ⟨[5], 1, 64⟩ true = some ⟨[5, 1], 2, 65⟩ ∧
    (∃ t, push_back_machine 4096 (fun _ => 0) ⟨[5], 1, 32⟩ true = some t ∧
      (t.capacity ≠ dynamic_storage.capacity ⟨[5], 1, 32⟩ →
        size ⟨[5], 1, 32⟩ % 64 = 0 ∧
          size ⟨[5], 1, 32⟩ / 64 = dynamic_storage.capacity ⟨[5], 1, 32⟩) ∧
      (size ⟨[5], 1, 32⟩ % 64 = 0 ∧
          size ⟨[5], 1, 32⟩ / 64 = dynamic_storage.capacity ⟨[5], 1, 32⟩ →
        t.capacity = max 1 (2 * dynamic_storage.capacity ⟨[5], 1, 32⟩) ∧
        ∀ j, j < dynamic_storage.capacity ⟨[5], 1, 32⟩ →
          t.head.getD j 0 = List.getD [5] j 0) ∧
      (¬ (size ⟨[5], 1, 32⟩ % 64 = 0 ∧
          size ⟨[5], 1, 32⟩ / 64 = dynamic_storage.capacity ⟨[5], 1, 32⟩) →
        t.capacity = dynamic_storage.capacity ⟨[5], 1, 32⟩)) :=
  ⟨by decide, by decide, by decide, by decide,
    C19_push_back_capacity 4096 (fun _ => 0) ⟨[5], 1, 32⟩ true (by decide)⟩

/-- The calls counted by `push_all_machine` are the calls that change the
capacity: `push_back` replaces the block exactly when it takes the branch
`grow_full` with `__size == __capa`. -/
theorem push_back_machine_reallocates (junk : Nat) (g : Nat → Nat) (s t : dynamic_bitset)
    (x : Bool) (hwf : s.wf) (h : push_back_machine junk g s x = some t) :
    t.capacity ≠ s.capacity ↔
      (s.length % WBits = 0 ∧ wrap (s.length + 1) / WBits = s.capacity) := by
  obtain ⟨t', ht', -, -, -, hb, -⟩ := push_back_machine_spec junk g s x hwf
  rw [h] at ht'
  cases ht'
  obtain ⟨b1, b2, b3, b4⟩ := hwf
  have hw : wrap (s.length + 1) = s.length + 1 := wrap_of_lt (by omega)
  simp only [WBits, hw, dynamic_storage.capacity]
  by_cases hc : s.length % 64 = 0 ∧ s.length / 64 = s.buffer
  · rw [hb, if_pos hc]
    constructor
    · intro _
      exact ⟨hc.1, by omega⟩
    · intro _
      omega
  · rw [hb, if_neg hc]
    constructor
    · intro hne
      exact absurd rfl hne
    · intro h'
      exact absurd ⟨h'.1, by omega⟩ hc

/-! ## Doubling growth in closed form -/

theorem clog_unique {m e : Nat} (h1 : m ≤ 2 ^ e) (h2 : 2 ^ e < 2 * m) : Nat.clog 2 m = e := by
  apply le_antisymm
  · exact (Nat.le_pow_iff_clog_le (by decide)).mp h1
  · by_contra hlt
    have hlt' : Nat.clog 2 m < e := by omega
    have h3 : m ≤ 2 ^ (e - 1) :=
      (Nat.le_pow_iff_clog_le (by decide)).mpr (by omega)
    have h4 : 2 ^ e = 2 * 2 ^ (e - 1) := by
      rw [show e = (e - 1) + 1 by omega, pow_succ]
      simp only [Nat.add_sub_cancel]
      omega
    omega

/-- Calls of `push_back` on a machine, from a non-empty storage whose capacity
`2^e` is the smallest power of two that holds its words and that has been reached
after `e + 1` reallocations: the sequence returns and the same holds at the end. -/
theorem push_all_machine_spec (junk g : Nat → Nat) :
    ∀ (xs : List Bool) (s : dynamic_bitset) (e : Nat), s.wf → 1 ≤ s.length →
      s.buffer = 2 ^ e → (s.length + 63) / 64 ≤ 2 ^ e → 2 ^ e < 2 * ((s.length + 63) / 64) →
      s.length + xs.length ≤ 2 ^ 63 →
      ∃ t e', push_all_machine junk g s (e + 1) xs = some (t, e' + 1) ∧
        t.length = s.length + xs.length ∧ t.buffer = 2 ^ e' ∧
        (t.length + 63) / 64 ≤ 2 ^ e' ∧ 2 ^ e' < 2 * ((t.length + 63) / 64)
  | [], s, e, _, _, hb, h1, h2, _ => ⟨s, e, rfl, rfl, hb, h1, h2⟩
  | x :: xs, s, e, hwf, hl, hb, h1, h2, hfit => by
    simp only [List.length_cons] at hfit
    obtain ⟨t, ht, tl, th, tw, tb, -⟩ := push_back_machine_spec (junk s.length) g s x hwf
    have hP : 1 ≤ 2 ^ e := Nat.one_le_two_pow
    have hw : wrap (s.length + 1) = s.length + 1 := wrap_of_lt (by omega)
    by_cases hc : s.length % 64 = 0 ∧ s.length / 64 = s.buffer
    · rw [if_pos hc] at tb
      have hP2 : 2 ^ (e + 1) = 2 * 2 ^ e := by rw [pow_succ]; omega
      have tb' : t.buffer = 2 ^ (e + 1) := by rw [tb, hb, hP2]; omega
      have t1 : (t.length + 63) / 64 ≤ 2 ^ (e + 1) := by rw [tl, hP2]; omega
      have t2 : 2 ^ (e + 1) < 2 * ((t.length + 63) / 64) := by rw [tl, hP2]; omega
      have twf : t.wf := ⟨th, by rw [tb', tl]; omega, by rw [tb']; omega, tw⟩
      obtain ⟨r, e', hr, rl, rb, r1, r2⟩ := push_all_machine_spec junk g xs t (e + 1) twf
        (by omega) tb' t1 t2 (by omega)
      refine ⟨r, e', ?_, by rw [rl, tl, List.length_cons]; omega, rb, r1, r2⟩
      unfold push_all_machine
      simp only [ht, Option.bind_eq_bind, Option.some_bind, WBits, hw, dynamic_storage.capacity]
      rw [if_pos ⟨hc.1, by omega⟩]
      exact hr
    · rw [if_neg hc] at tb
      have tb' : t.buffer = 2 ^ e := by rw [tb, hb]
      have t1 : (t.length + 63) / 64 ≤ 2 ^ e := by rw [tl]; omega
      have t2 : 2 ^ e < 2 * ((t.length + 63) / 64) := by rw [tl]; omega
      have twf : t.wf := ⟨th, by rw [tb', tl]; omega, by rw [tb']; omega, tw⟩
      obtain ⟨r, e', hr, rl, rb, r1, r2⟩ := push_all_machine_spec junk g xs t e twf
        (by omega) tb' t1 t2 (by omega)
      refine ⟨r, e', ?_, by rw [rl, tl, List.length_cons]; omega, rb, r1, r2⟩
      unfold push_all_machine
      simp only [ht, Option.bind_eq_bind, Option.some_bind, WBits, hw, dynamic_storage.capacity]
      rw [if_neg (fun h => hc ⟨h.1, by omega⟩)]
      exact hr

/-- C27: doubling growth in closed form.  For every `N >= 1`, `N` calls of
`push_back` on a default-constructed bitset return, whatever the bits pushed, the
values `junk` of the shifts that are undefined and the content `g` of new blocks;
the size is `N`, the capacity is `2 ^ ceil(log2(ceil(N / 64)))`, the smallest
power of two that is at least `ceil(N / 64)`, and `ceil(log2(ceil(N / 64))) + 1`
reallocations have been performed (for `N` up to `2^63`, so that the blocks fit
in the address space). -/
theorem C27_doubling_growth (junk g : Nat → Nat) (xs : List Bool) (h1 : 1 ≤ xs.length)
    (hfit : xs.length ≤ 2 ^ 63) :
    ∃ t, push_all_machine junk g init 0 xs =
        some (t, Nat.clog 2 ((xs.length + 63) / 64) + 1) ∧
      size t = xs.length ∧
      t.capacity = 2 ^ Nat.clog 2 ((xs.length + 63) / 64) ∧
      (xs.length + 63) / 64 ≤ t.capacity ∧
      ∀ e, (xs.length + 63) / 64 ≤ 2 ^ e → t.capacity ≤ 2 ^ e := by
  cases xs with
  | nil => simp at h1
  | cons x xs =>
    simp only [List.length_cons] at hfit ⊢
    obtain ⟨t, ht, tl, th, tw, tb, -⟩ := push_back_machine_spec (junk 0) g init x init_wf
    have tl1 : t.length = 1 := tl
    have tb1 : t.buffer = 2 ^ 0 := by
      rw [tb]
      rfl
    have twf : t.wf := ⟨th, by rw [tb1, tl1]; decide, by rw [tb1]; decide, tw⟩
    obtain ⟨r, e, hr, rl, rb, r1, r2⟩ := push_all_machine_spec junk g xs t 0 twf (by omega) tb1
      (by rw [tl1]; decide) (by rw [tl1]; decide) (by omega)
    have rl' : r.length = xs.length + 1 := by omega
    rw [rl'] at r1 r2
    have he : Nat.clog 2 ((xs.length + 1 + 63) / 64) = e := clog_unique r1 r2
    refine ⟨r, ?_, rl', by rw [he]; exact rb, by show _ ≤ r.buffer; rw [rb]; exact r1,
      fun e' he' => ?_⟩
    · rw [he]
      unfold push_all_machine
      have hi : dynamic_bitset.init.length = 0 := rfl
      simp only [hi, ht, Option.bind_eq_bind, Option.some_bind]
      exact hr
    · show r.buffer ≤ _
      rw [rb, ← he]
      exact Nat.pow_le_pow_right (by decide) ((Nat.le_pow_iff_clog_le (by decide)).mp he')

/-- C27 for `N = 70` bits, all true: the capacity is 2 after 2 reallocations; for
`N = 33` the 33rd call shifts by 32 and the capacity is 1 after 1 reallocation. -/
theorem C27_doubling_growth_witness :
    (1 ≤ (List.replicate 70 true).length ∧ (List.replicate 70 true).length ≤ 2 ^ 63) ∧
    push_all (fun _ => 0) init (List.replicate 33 true) = none ∧
    ((push_all_machine (fun _ => 0) (fun _ => 0) init 0 (List.replicate 33 true)).map
      (fun r => (r.1.capacity, r.2))) = some (1, 1) ∧
    ((push_all_machine (fun _ => 0) (fun _ => 0) init 0 (List.replicate 70 true)).map
      (fun r => (r.1.capacity, r.2))) = some (2, 2) ∧
    (∃ t, push_all_machine (fun _ => 0) (fun _ => 0) init 0 (List.replicate 70 true) =
        some (t, Nat.clog 2 (((List.replicate 70 true).length + 63) / 64) + 1) ∧
      size t = (List.replicate 70 true).length ∧
      t.capacity = 2 ^ Nat.clog 2 (((List.replicate 70 true).length + 63) / 64) ∧
      ((List.replicate 70 true).length + 63) / 64 ≤ t.capacity ∧
      ∀ e, ((List.replicate 70 true).length + 63) / 64 ≤ 2 ^ e → t.capacity ≤ 2 ^ e) :=
  ⟨⟨by rw [List.length_replicate]; decide, by rw [List.length_replicate]; decide⟩,
    by decide, by decide, by decide,
    C27_doubling_growth (fun _ => 0) (fun _ => 0) (List.replicate 70 true)
      (by rw [List.length_replicate]; decide) (by rw [List.length_replicate]; decide)⟩

/-! ## Inputs on which the code departs from the specification -/

/-- The first read of the word path of `do_lshift`, at index `__len - __div = 1`,
is outside a source block of one word. -/
theorem do_lshift_one_word (dst : List Nat) :
    do_lshift ⟨dst, some [2 ^ 64 - 1]⟩ 65 1 = none := rfl

/-- The member `operator <<=` with amount 1 on 64 one bits held in a one-word
block has no defined result, whatever the content `g` of the new block. -/
theorem shl_assign_one_word (g : Nat → Nat) : shl_assign g ⟨[2 ^ 64 - 1], 1, 64⟩ 1 = none := by
  unfold shl_assign
  simp only [dynamic_storage.word_count, dynamic_storage.capacity]
  have h1 : wrap (64 + 1) = 65 := by decide
  have h2 : div_ceil 65 = 2 := by decide
  have h3 : wrap (2 + 1) = 3 := by decide
  simp only [h1, h2, h3]
  simp only [show ((64 : Nat) = 0) = False by simp, if_false,
    show decide ((1 : Nat) < 2) = true from rfl, if_true]
  rw [do_lshift_one_word]
  rfl

/-- C4, failing inputs.  Thirty-two calls `push_back(true)` on a default-constructed
bitset: the last one computes `true << 31` in `int`, whose conversion to a word
sets bits 31 to 63, so the bits 32 to 63 above the size are set.  Copy assignment
of 64 one bits to a bitset of 5 bits with a one-word block copies the word and
keeps the size 5. -/
theorem C4_validation_broken :
    push_all (fun _ => 0) init (List.replicate 32 true) = some ⟨[2 ^ 64 - 1], 1, 32⟩ ∧
    ¬ dynamic_storage.validated ⟨[2 ^ 64 - 1], 1, 32⟩ ∧
    dynamic_storage.validated ⟨[0], 1, 5⟩ ∧
    dynamic_storage.copy_assign (fun _ => 0) ⟨[0], 1, 5⟩ ⟨[2 ^ 64 - 1], 1, 64⟩ =
      some ⟨[2 ^ 64 - 1], 1, 5⟩ ∧
    ¬ dynamic_storage.validated ⟨[2 ^ 64 - 1], 1, 5⟩ := by
  decide

/-- C5, failing input: `push_back` of 31 times `false`, then `true`, then `false`
on a default-constructed bitset.  After the 32nd call the word is
`0xFFFFFFFF80000000`, so bit 32 of the block is already 1; the 33rd call shifts an
`int` by 32, which is undefined (and would leave bit 32 set if it produced 0). -/
theorem C5_push_back_33 :
    push_all (fun _ => 0) init (List.replicate 31 false ++ [true]) =
      some ⟨[2 ^ 64 - 2 ^ 31], 1, 32⟩ ∧
    bitAt [2 ^ 64 - 2 ^ 31] 32 = true ∧
    bool_shl false 32 = none ∧
    push_all (fun _ => 0) init (List.replicate 31 false ++ [true, false]) = none := by
  decide

/-- C10, failing inputs.  `assign(65, true)` then `pop_back()` gives 64 one bits in
a two-word block whose second word is 1; both invariants hold and every
`test(i)` is true, but `all()` compares word 1 with `mask_low(0) = 0` and returns
false.  With a one-word block, and on a default-constructed bitset, the read of
`data(__div)` is outside the block. -/
theorem C10_all_multiple_of_word :
    (assign (fun _ => 0) init 65 true).bind pop_back = some ⟨[2 ^ 64 - 1, 1], 2, 64⟩ ∧
    dynamic_storage.wf ⟨[2 ^ 64 - 1, 1], 2, 64⟩ ∧
    dynamic_storage.validated ⟨[2 ^ 64 - 1, 1], 2, 64⟩ ∧
    (∀ i, i < 64 → test ⟨[2 ^ 64 - 1, 1], 2, 64⟩ i = some true) ∧
    all ⟨[2 ^ 64 - 1, 1], 2, 64⟩ = some false ∧
    all ⟨[2 ^ 64 - 1], 1, 64⟩ = none ∧
    all init = none := by
  decide

/-- C13, failing input: `a` is 5 zero bits and `b` is 64 one bits, both built by
`assign` on default-constructed bitsets, so both own a block of one word.  The
capacity of `a` suffices for the word of `b`, so `a = b` copies the word and skips
`length = rhs.length`: the size of `a` stays 5 instead of 64. -/
theorem C13_copy_assign_keeps_size :
    assign (fun _ => 0) init 5 false = some ⟨[0], 1, 5⟩ ∧
    assign (fun _ => 0) init 64 true = some ⟨[2 ^ 64 - 1], 1, 64⟩ ∧
    (∀ g : Nat → Nat, dynamic_storage.copy_assign g ⟨[0], 1, 5⟩ ⟨[2 ^ 64 - 1], 1, 64⟩ =
      some ⟨[2 ^ 64 - 1], 1, 5⟩) ∧
    size ⟨[2 ^ 64 - 1], 1, 5⟩ = 5 ∧ size ⟨[2 ^ 64 - 1], 1, 64⟩ = 64 :=
  ⟨by decide, by decide, fun _ => rfl, rfl, rfl⟩

/-- C26, failing input (the candidate of the claim): 64 bits in a block of one
word, `k = 1`.  `operator <<=` sets the size to 65, requests a block of 3 words
and calls `do_lshift` on the new and the old block; the index `__len - __div` of
the first source read is 1, which is not smaller than the capacity 1 of the old
block, so the read fails and neither `do_lshift` nor `operator <<=` has a result,
whatever the destination holds.  With a capacity of 2 the same read is inside
the block. -/
theorem C26_first_read_at_capacity :
    dynamic_storage.word_count ⟨[5], 1, 64⟩ ≤ dynamic_storage.capacity ⟨[5], 1, 64⟩ ∧
    usub (div_down (wrap (64 + 1))) (div_mod 1).1 = 1 ∧
    ¬ (usub (div_down (wrap (64 + 1))) (div_mod 1).1 < dynamic_storage.capacity ⟨[5], 1, 64⟩) ∧
    (∀ dst : List Nat, load (vec2.source ⟨dst, some [5]⟩ dst) 1 = none) ∧
    (∀ dst : List Nat, do_lshift ⟨dst, some [5]⟩ 65 1 = none) ∧
    (∀ g : Nat → Nat, shl_assign g ⟨[5], 1, 64⟩ 1 = none) ∧
    shl_assign (fun _ => 0) ⟨[5, 0], 2, 64⟩ 1 = some ⟨[10, 0], 2, 65⟩ :=
  ⟨by decide, by decide, by decide, fun _ => rfl, fun _ => rfl,
    fun g => shl_assign_undefined g ⟨[5], 1, 64⟩ 1 (by decide) (by decide) (by decide)
      (by decide) (by decide), by decide⟩

end dark
